import Mathlib

/-!
Verification of the minipb Protocol Buffers wire-format codec
(`minipb.py`) against its natural-language specification.

The development is a shallow embedding of the Python source:
  * byte strings are `List Nat` (each element a byte value `< 256`),
  * Python unbounded integers are `Int` / `Nat`,
  * Python `bytes`-reader objects are modelled by explicit state passing
    (a function consumes a prefix of the list and returns the rest),
  * exceptions are `Except` values,
  * the internal `EndOfMessage(partial)` signal of the primitive codec
    is an `Except Bool` error whose payload is the `partial` flag.

Each definition is translated from the function of the same name in
`minipb.py`; the doc comment of every definition names its source.
-/

namespace Minipb

set_option maxRecDepth 10000

/-- Python bitwise complement on unbounded integers: `~x = -x - 1`. -/
def pyNot (x : Int) : Int := -x - 1

/-- Source `_encode_vint`: emit 7 bits at a time, little endian, with the
MSB continuation bit set on every byte except the last.  Mirrors the
`while 1` loop of the source (`tmp = number & 0x7f; number >>= 7; ...`). -/
def encodeVintAux : Nat → Nat → List Nat
  | 0, _ => []
  | fuel + 1, number =>
    let tmp := number &&& 0x7f
    let number' := number >>> 7
    if number' = 0 then [tmp] else (0x80 ||| tmp) :: encodeVintAux fuel number'

/-- `encodeVintAux` with fuel exceeding the loop variable: the loop
variable strictly decreases while its high bits are nonzero, so
`number + 1` iterations always suffice (see `encodeVint_eq`). -/
def encodeVint (number : Nat) : List Nat := encodeVintAux (number + 1) number

/-- Loop body of source `_decode_vint`: `ctr` counts 7-bit groups already
read, `result` is the accumulator, the `Bool` argument is the running
`partial` flag.  The error value is the `EndOfMessage.partial` flag. -/
def decodeVintAux : List Nat → Nat → Nat → Bool → Except Bool (Nat × List Nat)
  | [], _, _, part => .error part
  | b :: rest, ctr, result, _ =>
    let result' := result ||| ((b &&& 0x7f) <<< (7 * ctr))
    if b >>> 7 = 0 then .ok (result', rest)
    else decodeVintAux rest (ctr + 1) result' true

/-- Source `_decode_vint`: read bytes until one without the continuation
bit; returns the decoded unsigned integer and the unread remainder of the
buffer.  `EndOfMessage(False)` when the buffer is empty on entry,
`EndOfMessage(True)` when bytes were consumed before the input ran out. -/
def decodeVint (buf : List Nat) : Except Bool (Nat × List Nat) :=
  decodeVintAux buf 0 0 false

/-- Source `_vint_signedto2sc` with `mask = 2^W - 1`: Python
`number & mask` on an unbounded int equals `number mod 2^W`
(nonnegative), which is what `Int.emod` by a positive modulus computes. -/
def vintSignedTo2sc (number : Int) (maxBits : Nat) : Nat :=
  (number % ((2 : Int) ^ maxBits)).toNat

/-- Source `_vint_2sctosigned`: the input was decoded as an unsigned
varint (`number >= 0`).  If bit `max_bits - 1` is set the source computes
`~(~number & mask)`; for the nonnegative `number` this Python expression
evaluates to `(number mod 2^W) - 2^W`, which is the translation used
here (`pyNot (pyNot number % 2^W)` unfolded). -/
def vint2scToSigned (number : Nat) (maxBits : Nat) : Int :=
  if (number >>> (maxBits - 1)) &&& 1 = 1 then
    pyNot (pyNot (number : Int) % ((2 : Int) ^ maxBits))
  else
    (number : Int)

/-- Source `_vint_zigzagify`: `num = number << 1; if number < 0: num = ~num`.
The result is always nonnegative. -/
def vintZigzagify (number : Int) : Int :=
  let num := number * 2
  if number < 0 then pyNot num else num

/-- Source `_vint_dezigzagify`: `is_neg = number & 1; num = number >> 1;
if is_neg: num = ~num`.  The argument is the nonnegative unsigned varint. -/
def vintDezigzagify (number : Nat) : Int :=
  let isNeg := number &&& 1
  let num := number >>> 1
  if isNeg ≠ 0 then pyNot (num : Int) else (num : Int)

/- ------------------------------------------------------------------ -/
/- Arithmetic helper lemmas for the varint/bit manipulations.          -/
/- ------------------------------------------------------------------ -/

theorem lor_mul_two_pow (m : Nat) :
    ∀ a b : Nat, a < 2 ^ m → a ||| b * 2 ^ m = a + b * 2 ^ m := by
  induction m with
  | zero =>
    intro a b h
    interval_cases a
    simp
  | succ m ih =>
    intro a b h
    have hpow : (2 : Nat) ^ (m + 1) = 2 ^ m * 2 := by ring
    have h2 : a / 2 < 2 ^ m := by rw [hpow] at h; omega
    have hb2 : b * 2 ^ (m + 1) = 2 * (b * 2 ^ m) := by rw [hpow]; ring
    have hbit_a : Nat.bit (decide (a % 2 = 1)) (a / 2) = a := by
      rw [Nat.bit_val]
      rcases Nat.mod_two_eq_zero_or_one a with h1 | h1 <;> simp [h1] <;> omega
    have hbit_b : Nat.bit false (b * 2 ^ m) = b * 2 ^ (m + 1) := by
      rw [Nat.bit_val, hb2]
      simp
    calc a ||| b * 2 ^ (m + 1)
        = Nat.bit (decide (a % 2 = 1)) (a / 2) ||| Nat.bit false (b * 2 ^ m) := by
          rw [hbit_a, hbit_b]
      _ = Nat.bit (decide (a % 2 = 1) || false) (a / 2 ||| b * 2 ^ m) :=
          Nat.lor_bit _ _ _ _
      _ = Nat.bit (decide (a % 2 = 1)) (a / 2 + b * 2 ^ m) := by
          rw [Bool.or_false, ih _ b h2]
      _ = a + b * 2 ^ (m + 1) := by
          rw [Nat.bit_val, hb2]
          rcases Nat.mod_two_eq_zero_or_one a with h1 | h1 <;> simp [h1] <;> omega

theorem and_127_eq_mod (n : Nat) : n &&& 0x7f = n % 128 :=
  Nat.and_pow_two_sub_one_eq_mod n 7

theorem shiftRight7_eq_div (n : Nat) : n >>> 7 = n / 128 :=
  Nat.shiftRight_eq_div_pow n 7

theorem encodeVintAux_fuel_irrelevant (n : Nat) :
    ∀ f1 f2 : Nat, n < f1 → n < f2 → encodeVintAux f1 n = encodeVintAux f2 n := by
  induction n using Nat.strong_induction_on with
  | _ n ih =>
    intro f1 f2 h1 h2
    obtain ⟨g1, rfl⟩ : ∃ g, f1 = g + 1 := ⟨f1 - 1, by omega⟩
    obtain ⟨g2, rfl⟩ : ∃ g, f2 = g + 1 := ⟨f2 - 1, by omega⟩
    simp only [encodeVintAux]
    by_cases h : n >>> 7 = 0
    · simp [h]
    · have hdiv := shiftRight7_eq_div n
      simp only [if_neg h]
      rw [ih (n >>> 7) (by omega) g1 g2 (by omega) (by omega)]

/-- The defining equation of the source `while 1` loop of `_encode_vint`. -/
theorem encodeVint_eq (n : Nat) :
    encodeVint n = if n >>> 7 = 0 then [n &&& 0x7f]
      else (0x80 ||| (n &&& 0x7f)) :: encodeVint (n >>> 7) := by
  show encodeVintAux (n + 1) n = _
  simp only [encodeVintAux]
  by_cases h : n >>> 7 = 0
  · simp [h]
  · have hdiv := shiftRight7_eq_div n
    simp only [if_neg h]
    rw [encodeVintAux_fuel_irrelevant (n >>> 7) n (n >>> 7 + 1) (by omega) (by omega)]
    rfl

/-- The last byte emitted by `encodeVint` has no continuation bit and all
earlier bytes do; every byte is `< 256`. -/
theorem encodeVint_bytes_lt (n : Nat) : ∀ b ∈ encodeVint n, b < 256 := by
  induction n using Nat.strong_induction_on with
  | _ n ih =>
    intro b hb
    rw [encodeVint_eq] at hb
    by_cases h : n >>> 7 = 0
    · simp only [if_pos h, List.mem_singleton] at hb
      subst hb
      have := and_127_eq_mod n
      omega
    · simp only [if_neg h] at hb
      rcases List.mem_cons.mp hb with h1 | h1
      · subst h1
        have h2 : n &&& 0x7f < 128 := by rw [and_127_eq_mod]; omega
        have h3 : (0x80 : Nat) ||| (n &&& 0x7f) = 0x80 + (n &&& 0x7f) := by
          rw [Nat.lor_comm]
          have := lor_mul_two_pow 7 (n &&& 0x7f) 1 h2
          norm_num at this ⊢
          omega
        omega
      · have hdiv := shiftRight7_eq_div n
        exact ih (n >>> 7) (by omega) b h1

/-- Key round-trip lemma for the varint codec, generalised over the
partially filled accumulator. -/
theorem decodeVintAux_encodeVint (n : Nat) :
    ∀ (rest : List Nat) (ctr acc : Nat) (p : Bool), acc < 2 ^ (7 * ctr) →
      decodeVintAux (encodeVint n ++ rest) ctr acc p =
        .ok (acc + n * 2 ^ (7 * ctr), rest) := by
  induction n using Nat.strong_induction_on with
  | _ n ih =>
    intro rest ctr acc p hacc
    have hdiv7 := shiftRight7_eq_div n
    rw [encodeVint_eq]
    by_cases h : n >>> 7 = 0
    · have hlt : n < 128 := by omega
      simp only [if_pos h]
      show decodeVintAux ((n &&& 0x7f) :: rest) ctr acc p = _
      unfold decodeVintAux
      have htmp : n &&& 0x7f = n := by rw [and_127_eq_mod]; omega
      simp only [htmp]
      rw [if_pos h, Nat.shiftLeft_eq, lor_mul_two_pow _ _ _ hacc]
    · simp only [if_neg h]
      show decodeVintAux ((0x80 ||| (n &&& 0x7f)) :: (encodeVint (n >>> 7) ++ rest))
        ctr acc p = _
      unfold decodeVintAux
      have h7 : n &&& 0x7f = n % 128 := and_127_eq_mod n
      have hb : (0x80 : Nat) ||| (n &&& 0x7f) = 128 + n % 128 := by
        rw [Nat.lor_comm, h7]
        have := lor_mul_two_pow 7 (n % 128) 1 (by omega)
        norm_num at this ⊢
        omega
      have hbmod : (128 + n % 128) &&& 0x7f = n % 128 := by
        rw [and_127_eq_mod]; omega
      have hbdiv : (128 + n % 128) >>> 7 = 1 := by
        rw [shiftRight7_eq_div]; omega
      simp only [hb, hbmod, hbdiv]
      rw [if_neg one_ne_zero]
      have hacc' : acc ||| (n % 128) <<< (7 * ctr) = acc + n % 128 * 2 ^ (7 * ctr) := by
        rw [Nat.shiftLeft_eq, lor_mul_two_pow _ _ _ hacc]
      rw [hacc']
      have hpow : (2 : Nat) ^ (7 * (ctr + 1)) = 2 ^ (7 * ctr) * 128 := by
        have h71 : 7 * (ctr + 1) = 7 * ctr + 7 := by ring
        rw [h71, Nat.pow_add]
      have hlt' : acc + n % 128 * 2 ^ (7 * ctr) < 2 ^ (7 * (ctr + 1)) := by
        have h2 : n % 128 < 128 := Nat.mod_lt _ (by omega)
        have h3 : n % 128 * 2 ^ (7 * ctr) ≤ 127 * 2 ^ (7 * ctr) :=
          Nat.mul_le_mul_right _ (by omega)
        omega
      rw [ih (n >>> 7) (by omega) rest (ctr + 1) _ true hlt']
      have hsplit : n = n % 128 + (n >>> 7) * 128 := by omega
      congr 2
      calc acc + n % 128 * 2 ^ (7 * ctr) + n >>> 7 * 2 ^ (7 * (ctr + 1))
          = acc + (n % 128 + (n >>> 7) * 128) * 2 ^ (7 * ctr) := by
            rw [hpow]; ring
        _ = acc + n * 2 ^ (7 * ctr) := by rw [← hsplit]

/-- Varint round trip with arbitrary trailing data. -/
theorem decodeVint_encodeVint (n : Nat) (rest : List Nat) :
    decodeVint (encodeVint n ++ rest) = .ok (n, rest) := by
  have := decodeVintAux_encodeVint n rest 0 0 false (by norm_num)
  simpa [decodeVint] using this

/- ------------------------------------------------------------------ -/
/- C8: two's complement round trip.                                    -/
/- ------------------------------------------------------------------ -/

theorem twosComplement_roundtrip (W : Nat) (n : Int)
    (hW : 1 ≤ W) (hlo : -(2 ^ (W - 1) : Int) ≤ n) (hhi : n < (2 ^ (W - 1) : Int)) :
    vint2scToSigned (vintSignedTo2sc n W) W = n := by
  have hM : (2 : Int) ^ W = 2 ^ (W - 1) * 2 := by
    rw [← pow_succ]
    congr 1
    omega
  have hMN : (2 : Nat) ^ W = 2 ^ (W - 1) * 2 := by
    rw [← pow_succ]
    congr 1
    omega
  have hcast : (((2 : Nat) ^ (W - 1) : Nat) : Int) = (2 : Int) ^ (W - 1) := by
    push_cast
    ring
  have hcastW : (((2 : Nat) ^ W : Nat) : Int) = (2 : Int) ^ W := by
    push_cast
    ring
  have hHpos : (0 : Int) < 2 ^ (W - 1) := by positivity
  have hHposN : (0 : Nat) < 2 ^ (W - 1) := by positivity
  have hmod : n % (2 ^ W : Int) = if 0 ≤ n then n else n + 2 ^ W := by
    split
    · exact Int.emod_eq_of_lt (by assumption) (by omega)
    · have h0 : (0 : Int) ≤ n + 2 ^ W := by omega
      have h1 : n + 2 ^ W < 2 ^ W := by omega
      calc n % (2 ^ W : Int) = (n + 2 ^ W) % (2 ^ W : Int) := by
            simp [Int.add_mul_emod_self_left]
        _ = n + 2 ^ W := Int.emod_eq_of_lt h0 h1
  by_cases hn : 0 ≤ n
  · have henc : vintSignedTo2sc n W = n.toNat := by
      unfold vintSignedTo2sc
      rw [hmod, if_pos hn]
    have hlt : n.toNat < 2 ^ (W - 1) := by omega
    have hbit : (n.toNat >>> (W - 1)) &&& 1 = 0 := by
      rw [Nat.shiftRight_eq_div_pow, Nat.div_eq_of_lt hlt]
      rfl
    unfold vint2scToSigned
    rw [henc, hbit]
    norm_num
    omega
  · push_neg at hn
    have henc : vintSignedTo2sc n W = (n + 2 ^ W).toNat := by
      unfold vintSignedTo2sc
      rw [hmod, if_neg (by omega)]
    have hvalN : ((n + 2 ^ W).toNat : Int) = n + 2 ^ W := by omega
    have hge : 2 ^ (W - 1) ≤ (n + 2 ^ W).toNat := by omega
    have hltN : (n + 2 ^ W).toNat < 2 * 2 ^ (W - 1) := by omega
    have hbit : ((n + 2 ^ W).toNat >>> (W - 1)) &&& 1 = 1 := by
      rw [Nat.shiftRight_eq_div_pow]
      have hdiv : (n + 2 ^ W).toNat / 2 ^ (W - 1) = 1 :=
        Nat.div_eq_of_lt_le (by omega) (by omega)
      rw [hdiv]
      rfl
    unfold vint2scToSigned
    rw [henc, hbit]
    simp only [if_pos rfl]
    have harg : pyNot ((n + 2 ^ W).toNat : Int) % (2 ^ W : Int) = -n - 1 := by
      unfold pyNot
      rw [hvalN]
      have hstep := Int.add_mul_emod_self_left
        (a := -(n + 2 ^ W) - 1) (b := (2 : Int) ^ W) (c := 1)
      have harith : -(n + 2 ^ W) - 1 + 2 ^ W * 1 = -n - 1 := by ring
      rw [harith] at hstep
      rw [← hstep]
      have h0 : (0 : Int) ≤ -n - 1 := by omega
      have h1 : -n - 1 < 2 ^ W := by omega
      exact Int.emod_eq_of_lt h0 h1
    rw [harg]
    unfold pyNot
    norm_num

/-- C8: for every width `W ≥ 1` and every integer `n` in
`[-2^(W-1), 2^(W-1))`, two's-complement decoding at width `W`
(source `_vint_2sctosigned`) of the two's-complement encoding of `n` at
width `W` (source `_vint_signedto2sc`) returns `n`. -/
theorem c8_twos_complement_roundtrip (W : Nat) (n : Int)
    (hW : 1 ≤ W) (hlo : -(2 ^ (W - 1) : Int) ≤ n) (hhi : n < (2 ^ (W - 1) : Int)) :
    vint2scToSigned (vintSignedTo2sc n W) W = n :=
  twosComplement_roundtrip W n hW hlo hhi

/-- Witness for `c8_twos_complement_roundtrip` at `W = 32`, `n = -1`. -/
theorem c8_twos_complement_roundtrip_witness :
    vint2scToSigned (vintSignedTo2sc (-1) 32) 32 = -1 :=
  c8_twos_complement_roundtrip 32 (-1) (by norm_num) (by norm_num) (by norm_num)

/- ------------------------------------------------------------------ -/
/- C9: zig-zag round trip.                                             -/
/- ------------------------------------------------------------------ -/

theorem and_one_eq_mod (x : Nat) : x &&& 1 = x % 2 := by
  have h := Nat.and_pow_two_sub_one_eq_mod x 1
  norm_num at h ⊢

theorem shiftRight_one_eq_div (x : Nat) : x >>> 1 = x / 2 := by
  have h := Nat.shiftRight_eq_div_pow x 1
  norm_num at h
  exact h

/-- `vintZigzagify` always produces a nonnegative integer. -/
theorem vintZigzagify_nonneg (n : Int) : 0 ≤ vintZigzagify n := by
  by_cases h : n < 0
  · simp only [vintZigzagify, pyNot, if_pos h]
    omega
  · simp only [vintZigzagify, pyNot, if_neg h]
    omega

theorem zigzag_roundtrip (n : Int)
    (hlo : -(2 ^ 63 : Int) ≤ n) (hhi : n < (2 ^ 63 : Int)) :
    vintDezigzagify (vintZigzagify n).toNat = n := by
  by_cases hn : n < 0
  · have hz : vintZigzagify n = -n * 2 - 1 := by
      simp only [vintZigzagify, pyNot, if_pos hn]
      ring
    have hk : ((-n).toNat : Int) = -n := by omega
    have hk1 : 1 ≤ (-n).toNat := by omega
    have htn : (vintZigzagify n).toNat = 2 * (-n).toNat - 1 := by rw [hz]; omega
    have hmod : (2 * (-n).toNat - 1) % 2 = 1 := by omega
    have hdiv : (2 * (-n).toNat - 1) / 2 = (-n).toNat - 1 := by omega
    simp only [vintDezigzagify, htn, and_one_eq_mod, shiftRight_one_eq_div, hmod, hdiv,
      pyNot]
    norm_num
    omega
  · push_neg at hn
    have hz : vintZigzagify n = n * 2 := by
      simp only [vintZigzagify, pyNot, if_neg (by omega : ¬n < 0)]
    have htn : (vintZigzagify n).toNat = 2 * n.toNat := by rw [hz]; omega
    have hmod : (2 * n.toNat) % 2 = 0 := by omega
    have hdiv : (2 * n.toNat) / 2 = n.toNat := by omega
    simp only [vintDezigzagify, htn, and_one_eq_mod, shiftRight_one_eq_div, hmod, hdiv]
    norm_num
    omega

/-- C9: zig-zag decoding (source `_vint_dezigzagify`) is a left inverse of
zig-zag encoding (source `_vint_zigzagify`) on `[-2^63, 2^63)`. -/
theorem c9_zigzag_roundtrip (n : Int)
    (hlo : -(2 ^ 63 : Int) ≤ n) (hhi : n < (2 ^ 63 : Int)) :
    vintDezigzagify (vintZigzagify n).toNat = n :=
  zigzag_roundtrip n hlo hhi

/-- Witness for `c9_zigzag_roundtrip` at `n = -3`. -/
theorem c9_zigzag_roundtrip_witness :
    vintDezigzagify (vintZigzagify (-3)).toNat = -3 :=
  c9_zigzag_roundtrip (-3) (by norm_num) (by norm_num)

/- ------------------------------------------------------------------ -/
/- Byte-string primitives and the raw (schemaless) codec.              -/
/- ------------------------------------------------------------------ -/

/-- Source `_encode_bytes`: prefix the byte string with its length as a
varint. -/
def encodeBytes (inBytes : List Nat) : List Nat :=
  encodeVint inBytes.length ++ inBytes

/-- Source `_decode_bytes`: read a varint length and then exactly that many
bytes; `buf.read(length)` returning fewer bytes raises
`EndOfMessage(True)`. -/
def decodeBytes (buf : List Nat) : Except Bool (List Nat × List Nat) :=
  match decodeVint buf with
  | .error p => .error p
  | .ok (length, rest) =>
    if (rest.take length).length ≠ length then .error true
    else .ok (rest.take length, rest.drop length)

/-- Source `_read_fixed`: read exactly `length` bytes; on a short read the
`partial` flag is `False` exactly when zero bytes could be read. -/
def readFixed (buf : List Nat) (length : Nat) : Except Bool (List Nat × List Nat) :=
  if (buf.take length).length ≠ length then
    .error (decide ((buf.take length).length ≠ 0))
  else .ok (buf.take length, buf.drop length)

/-- Source `_encode_header`: the tag `(f_id << 3) | f_type` as a varint. -/
def encodeHeader (fType fId : Nat) : List Nat :=
  encodeVint ((fId <<< 3) ||| fType)

/-- Source `_decode_header`: read a varint tag and split it into
`(wire_type, field_number)`. -/
def decodeHeader (buf : List Nat) : Except Bool ((Nat × Nat) × List Nat) :=
  match decodeVint buf with
  | .error p => .error p
  | .ok (ordData, rest) => .ok ((ordData &&& 7, ordData >>> 3), rest)

/-- Payload of a raw wire record: wire type 0 carries a decoded unsigned
integer, all other wire types carry raw bytes (Python `int` vs `bytes` in
the `data` slot of the record dict). -/
inductive WireData where
  | vint (n : Nat)
  | bytes (bs : List Nat)
deriving DecidableEq

/-- A raw wire record, the dict `{'id': .., 'wire_type': .., 'data': ..}`
produced by `_yield_fields_from_wire`. -/
structure WireRecord where
  id : Nat
  wire_type : Nat
  data : WireData
deriving DecidableEq

/-- Python exceptions raised by the codec, by kind, with the message kept
for `CodecError` and `BadFormatString` (claims talk about those texts). -/
inductive PyErr where
  | codec (msg : String)
  | typeError (msg : String)
  | valueError (msg : String)
  | badFormatString (msg : String)
  | assertionError
  | structError
  | unicodeError
  | indexError
  | nonTermination
deriving DecidableEq

/-- The `CodecError` message raised by `_yield_fields_from_wire` on a
truncated record. -/
def eomMsg (fieldNumber : Nat) : String :=
  "Unexpected end of message while decoding field " ++ Nat.repr fieldNumber

/-- `wire_type in _WIRE_TYPE_TO_DECODER_MAP` (and `_ENCODER_MAP`): the maps
contain exactly the wire types 0, 1, 2 and 5. -/
def knownWireType (wireType : Nat) : Prop :=
  wireType = 0 ∨ wireType = 1 ∨ wireType = 2 ∨ wireType = 5

instance (wireType : Nat) : Decidable (knownWireType wireType) := by
  unfold knownWireType
  infer_instance

/-- Source `_WIRE_TYPE_TO_DECODER_MAP`, as a function: decode one payload
of the given wire type from the front of the buffer.  Only called after
membership in the map was checked, so unknown wire types are unreachable
(arbitrarily mapped to a non-partial end of message here). -/
def wireTypeDecode (wireType : Nat) (buf : List Nat) :
    Except Bool (WireData × List Nat) :=
  if wireType = 0 then
    match decodeVint buf with
    | .error p => .error p
    | .ok (n, rest) => .ok (.vint n, rest)
  else if wireType = 1 then
    match readFixed buf 8 with
    | .error p => .error p
    | .ok (bs, rest) => .ok (.bytes bs, rest)
  else if wireType = 2 then
    match decodeBytes buf with
    | .error p => .error p
    | .ok (bs, rest) => .ok (.bytes bs, rest)
  else if wireType = 5 then
    match readFixed buf 4 with
    | .error p => .error p
    | .ok (bs, rest) => .ok (.bytes bs, rest)
  else .error false

/- Length lemmas: every successful primitive decode consumes bytes. -/

theorem decodeVintAux_length_lt :
    ∀ (buf : List Nat) (ctr acc : Nat) (p : Bool) (n : Nat) (rest : List Nat),
      decodeVintAux buf ctr acc p = .ok (n, rest) → rest.length < buf.length := by
  intro buf
  induction buf with
  | nil => intro ctr acc p n rest h; simp [decodeVintAux] at h
  | cons b bs ih =>
    intro ctr acc p n rest h
    unfold decodeVintAux at h
    by_cases hc : b >>> 7 = 0
    · rw [if_pos hc] at h
      simp only [Except.ok.injEq, Prod.mk.injEq] at h
      rw [← h.2]
      simp
    · rw [if_neg hc] at h
      have := ih _ _ _ _ _ h
      simp only [List.length_cons]
      omega

theorem decodeVint_length_lt (buf : List Nat) (n : Nat) (rest : List Nat)
    (h : decodeVint buf = .ok (n, rest)) : rest.length < buf.length :=
  decodeVintAux_length_lt buf 0 0 false n rest h

theorem decodeBytes_length_lt (buf : List Nat) (bs rest : List Nat)
    (h : decodeBytes buf = .ok (bs, rest)) : rest.length < buf.length := by
  unfold decodeBytes at h
  cases hv : decodeVint buf with
  | error p => rw [hv] at h; cases h
  | ok r =>
    obtain ⟨length, mid⟩ := r
    rw [hv] at h
    dsimp only at h
    by_cases hc : (mid.take length).length ≠ length
    · rw [if_pos hc] at h; cases h
    · rw [if_neg hc] at h
      simp only [Except.ok.injEq, Prod.mk.injEq] at h
      obtain ⟨h1, h2⟩ := h
      subst h2
      have hm := decodeVint_length_lt buf length mid hv
      have hd : (mid.drop length).length = mid.length - length := by simp
      omega

theorem readFixed_length_le (buf : List Nat) (len : Nat) (bs rest : List Nat)
    (h : readFixed buf len = .ok (bs, rest)) : rest.length ≤ buf.length := by
  unfold readFixed at h
  by_cases hc : (buf.take len).length ≠ len
  · rw [if_pos hc] at h; cases h
  · rw [if_neg hc] at h
    simp only [Except.ok.injEq, Prod.mk.injEq] at h
    obtain ⟨h1, h2⟩ := h
    subst h2
    have hd : (buf.drop len).length = buf.length - len := by simp
    omega

theorem readFixed_length_lt (buf : List Nat) (len : Nat) (bs rest : List Nat)
    (hpos : 0 < len) (h : readFixed buf len = .ok (bs, rest)) :
    rest.length < buf.length := by
  unfold readFixed at h
  by_cases hc : (buf.take len).length ≠ len
  · rw [if_pos hc] at h; cases h
  · rw [if_neg hc] at h
    simp only [Except.ok.injEq, Prod.mk.injEq] at h
    obtain ⟨h1, h2⟩ := h
    subst h2
    push_neg at hc
    simp only [List.length_take] at hc
    have hlen : len ≤ buf.length := by omega
    have hd : (buf.drop len).length = buf.length - len := by simp
    omega

theorem wireTypeDecode_length_le (wireType : Nat) (buf : List Nat)
    (d : WireData) (rest : List Nat)
    (h : wireTypeDecode wireType buf = .ok (d, rest)) :
    rest.length ≤ buf.length := by
  unfold wireTypeDecode at h
  split_ifs at h
  · cases hv : decodeVint buf with
    | error p => rw [hv] at h; cases h
    | ok r =>
      obtain ⟨n, mid⟩ := r
      rw [hv] at h
      dsimp only at h
      simp only [Except.ok.injEq, Prod.mk.injEq] at h
      obtain ⟨h1, h2⟩ := h
      subst h2
      have := decodeVint_length_lt buf n mid hv
      omega
  · cases hv : readFixed buf 8 with
    | error p => rw [hv] at h; cases h
    | ok r =>
      obtain ⟨bs, mid⟩ := r
      rw [hv] at h
      dsimp only at h
      simp only [Except.ok.injEq, Prod.mk.injEq] at h
      obtain ⟨h1, h2⟩ := h
      subst h2
      exact readFixed_length_le buf 8 bs mid hv
  · cases hv : decodeBytes buf with
    | error p => rw [hv] at h; cases h
    | ok r =>
      obtain ⟨bs, mid⟩ := r
      rw [hv] at h
      dsimp only at h
      simp only [Except.ok.injEq, Prod.mk.injEq] at h
      obtain ⟨h1, h2⟩ := h
      subst h2
      have := decodeBytes_length_lt buf bs mid hv
      omega
  · cases hv : readFixed buf 4 with
    | error p => rw [hv] at h; cases h
    | ok r =>
      obtain ⟨bs, mid⟩ := r
      rw [hv] at h
      dsimp only at h
      simp only [Except.ok.injEq, Prod.mk.injEq] at h
      obtain ⟨h1, h2⟩ := h
      subst h2
      exact readFixed_length_le buf 4 bs mid hv

theorem wireTypeDecode_length_lt (wireType : Nat) (buf : List Nat)
    (d : WireData) (rest : List Nat) (hk : knownWireType wireType)
    (h : wireTypeDecode wireType buf = .ok (d, rest)) :
    rest.length < buf.length := by
  unfold wireTypeDecode at h
  split_ifs at h
  · cases hv : decodeVint buf with
    | error p => rw [hv] at h; cases h
    | ok r =>
      obtain ⟨n, mid⟩ := r
      rw [hv] at h
      dsimp only at h
      simp only [Except.ok.injEq, Prod.mk.injEq] at h
      obtain ⟨h1, h2⟩ := h
      subst h2
      exact decodeVint_length_lt buf n mid hv
  · cases hv : readFixed buf 8 with
    | error p => rw [hv] at h; cases h
    | ok r =>
      obtain ⟨bs, mid⟩ := r
      rw [hv] at h
      dsimp only at h
      simp only [Except.ok.injEq, Prod.mk.injEq] at h
      obtain ⟨h1, h2⟩ := h
      subst h2
      exact readFixed_length_lt buf 8 bs mid (by norm_num) hv
  · cases hv : decodeBytes buf with
    | error p => rw [hv] at h; cases h
    | ok r =>
      obtain ⟨bs, mid⟩ := r
      rw [hv] at h
      dsimp only at h
      simp only [Except.ok.injEq, Prod.mk.injEq] at h
      obtain ⟨h1, h2⟩ := h
      subst h2
      exact decodeBytes_length_lt buf bs mid hv
  · cases hv : readFixed buf 4 with
    | error p => rw [hv] at h; cases h
    | ok r =>
      obtain ⟨bs, mid⟩ := r
      rw [hv] at h
      dsimp only at h
      simp only [Except.ok.injEq, Prod.mk.injEq] at h
      obtain ⟨h1, h2⟩ := h
      subst h2
      exact readFixed_length_lt buf 4 bs mid (by norm_num) hv

theorem decodeHeader_length_lt (buf : List Nat) (wt fid : Nat) (rest : List Nat)
    (h : decodeHeader buf = .ok ((wt, fid), rest)) : rest.length < buf.length := by
  unfold decodeHeader at h
  cases hv : decodeVint buf with
  | error p => rw [hv] at h; cases h
  | ok r =>
    obtain ⟨ordData, mid⟩ := r
    rw [hv] at h
    dsimp only at h
    simp only [Except.ok.injEq, Prod.mk.injEq] at h
    obtain ⟨h1, h2⟩ := h
    subst h2
    exact decodeVint_length_lt buf ordData mid hv

/-- One pass of source `_yield_fields_from_wire` with `wire_type=None`,
`field_number=None` (header-decoding mode), with the lazy generator forced
into a list: read a header, decode one payload, repeat until the header
read hits end of input.  A failed header read (`except EOFError`)
terminates the iteration cleanly; an unknown wire type is logged and
skipped (`continue` re-reads the next header); a payload failure is a
`CodecError` when partial, clean termination when not.
The `fuel` argument bounds the number of loop iterations; every iteration
consumes at least one byte, so `buf.length + 1` iterations always suffice
(`yieldFieldsAux_fuel_irrelevant` below, the termination argument). -/
def yieldFieldsAux (fuel : Nat) (buf : List Nat) : Except PyErr (List WireRecord) :=
  match fuel with
  | 0 => .error .nonTermination
  | fuel + 1 =>
    match decodeHeader buf with
    | .error _ => .ok []
    | .ok ((wireType, fieldNumber), rest) =>
      if knownWireType wireType then
        match wireTypeDecode wireType rest with
        | .error part => if part then .error (.codec (eomMsg fieldNumber)) else .ok []
        | .ok (data, rest') =>
          match yieldFieldsAux fuel rest' with
          | .error e => .error e
          | .ok tail => .ok (⟨fieldNumber, wireType, data⟩ :: tail)
      else
        yieldFieldsAux fuel rest

/-- Source `_yield_fields_from_wire` in header-decoding mode (fuel
instantiated so that the loop always runs to completion). -/
def yieldFieldsFromWire (buf : List Nat) : Except PyErr (List WireRecord) :=
  yieldFieldsAux (buf.length + 1) buf

/-- One pass of source `_yield_fields_from_wire` in headerless mode
(`wire_type` and `field_number` supplied by the caller, used when unpacking
packed repeated fields): decode payloads of the fixed shape until the
buffer is drained on a record boundary.  With a wire type outside the
decoder map the source loops forever (`continue` without consuming input);
that branch is unreachable from the schema-driven decoder and is mapped to
the marker error `nonTermination`, which is also the out-of-fuel value. -/
def yieldHeaderlessAux (fuel : Nat) (wireType fieldNumber : Nat) (buf : List Nat) :
    Except PyErr (List WireRecord) :=
  match fuel with
  | 0 => .error .nonTermination
  | fuel + 1 =>
    if knownWireType wireType then
      match wireTypeDecode wireType buf with
      | .error part => if part then .error (.codec (eomMsg fieldNumber)) else .ok []
      | .ok (data, rest) =>
        match yieldHeaderlessAux fuel wireType fieldNumber rest with
        | .error e => .error e
        | .ok tail => .ok (⟨fieldNumber, wireType, data⟩ :: tail)
    else .error .nonTermination

/-- Source `_yield_fields_from_wire` in headerless mode. -/
def yieldFieldsHeaderless (wireType fieldNumber : Nat) (buf : List Nat) :
    Except PyErr (List WireRecord) :=
  yieldHeaderlessAux (buf.length + 1) wireType fieldNumber buf

/-- Source `decode_raw`: force the raw breakdown of a byte string into a
list of records. -/
def decodeRaw (data : List Nat) : Except PyErr (List WireRecord) :=
  yieldFieldsFromWire data

/-- Source `_check_bytes_length`: raw encoding of wire types 1 and 5
requires a bytes payload of the exact fixed width. -/
def checkBytesLength (data : WireData) (length : Nat) : Except PyErr (List Nat) :=
  match data with
  | .vint _ => .error (.valueError "Excepted a bytes object, not int")
  | .bytes bs =>
    if bs.length ≠ length then
      .error (.valueError ("Excepted a bytes object of length " ++ Nat.repr length ++
        ", got " ++ Nat.repr bs.length))
    else .ok bs

/-- Source `_WIRE_TYPE_TO_ENCODER_MAP`, as a function; a `vint` payload for
a bytes-like wire type is the Python `TypeError`/`ValueError` of the
underlying operation. -/
def wireTypeEncode (wireType : Nat) (data : WireData) : Except PyErr (List Nat) :=
  if wireType = 0 then
    match data with
    | .vint n => .ok (encodeVint n)
    | .bytes _ => .error (.typeError "unorderable types: bytes() >= int()")
  else if wireType = 1 then checkBytesLength data 8
  else if wireType = 2 then
    match data with
    | .vint _ => .error (.typeError "object of type int has no len()")
    | .bytes bs => .ok (encodeBytes bs)
  else if wireType = 5 then checkBytesLength data 4
  else .error (.valueError ("Unknown type " ++ Nat.repr wireType))

/-- Source `encode_raw`: emit header then payload for each record. -/
def encodeRaw (objs : List WireRecord) : Except PyErr (List Nat) :=
  match objs with
  | [] => .ok []
  | s :: rest =>
    match wireTypeEncode s.wire_type s.data with
    | .error e => .error e
    | .ok payload =>
      match encodeRaw rest with
      | .error e => .error e
      | .ok tail => .ok (encodeHeader s.wire_type s.id ++ payload ++ tail)

/- ------------------------------------------------------------------ -/
/- Fuel irrelevance: the raw breakdown loop terminates because every   -/
/- iteration consumes at least one byte.                               -/
/- ------------------------------------------------------------------ -/

theorem yieldFieldsAux_fuel_irrelevant :
    ∀ (n : Nat) (buf : List Nat) (f g : Nat), buf.length ≤ n →
      buf.length < f → buf.length < g →
      yieldFieldsAux f buf = yieldFieldsAux g buf := by
  intro n
  induction n with
  | zero =>
    intro buf f g hn hf hg
    have hbuf : buf = [] := List.length_eq_zero.mp (by omega)
    subst hbuf
    obtain ⟨f', rfl⟩ : ∃ f', f = f' + 1 := ⟨f - 1, by omega⟩
    obtain ⟨g', rfl⟩ : ∃ g', g = g' + 1 := ⟨g - 1, by omega⟩
    simp only [yieldFieldsAux]
    rfl
  | succ n ih =>
    intro buf f g hn hf hg
    obtain ⟨f', rfl⟩ : ∃ f', f = f' + 1 := ⟨f - 1, by omega⟩
    obtain ⟨g', rfl⟩ : ∃ g', g = g' + 1 := ⟨g - 1, by omega⟩
    simp only [yieldFieldsAux]
    cases hh : decodeHeader buf with
    | error p => rfl
    | ok r =>
      obtain ⟨⟨wireType, fieldNumber⟩, rest⟩ := r
      have hrest := decodeHeader_length_lt buf wireType fieldNumber rest hh
      dsimp only
      by_cases hk : knownWireType wireType
      · rw [if_pos hk, if_pos hk]
        cases hd : wireTypeDecode wireType rest with
        | error part => rfl
        | ok dr =>
          obtain ⟨data, rest'⟩ := dr
          have hrest' := wireTypeDecode_length_le wireType rest data rest' hd
          dsimp only
          rw [ih rest' f' g' (by omega) (by omega) (by omega)]
      · rw [if_neg hk, if_neg hk]
        exact ih rest f' g' (by omega) (by omega) (by omega)

theorem yieldFieldsAux_eq_yieldFieldsFromWire (buf : List Nat) (f : Nat)
    (hf : buf.length < f) : yieldFieldsAux f buf = yieldFieldsFromWire buf :=
  yieldFieldsAux_fuel_irrelevant buf.length buf f (buf.length + 1) (le_refl _) hf
    (by omega)

theorem yieldHeaderlessAux_fuel_irrelevant :
    ∀ (n : Nat) (wireType fieldNumber : Nat) (buf : List Nat) (f g : Nat),
      buf.length ≤ n → buf.length < f → buf.length < g →
      yieldHeaderlessAux f wireType fieldNumber buf =
        yieldHeaderlessAux g wireType fieldNumber buf := by
  intro n
  induction n with
  | zero =>
    intro wireType fieldNumber buf f g hn hf hg
    have hbuf : buf = [] := List.length_eq_zero.mp (by omega)
    subst hbuf
    obtain ⟨f', rfl⟩ : ∃ f', f = f' + 1 := ⟨f - 1, by omega⟩
    obtain ⟨g', rfl⟩ : ∃ g', g = g' + 1 := ⟨g - 1, by omega⟩
    simp only [yieldHeaderlessAux]
    by_cases hk : knownWireType wireType
    · rw [if_pos hk, if_pos hk]
      cases hd : wireTypeDecode wireType [] with
      | error part => rfl
      | ok dr =>
        obtain ⟨data, rest⟩ := dr
        have := wireTypeDecode_length_lt wireType [] data rest hk hd
        simp at this
    · rw [if_neg hk, if_neg hk]
  | succ n ih =>
    intro wireType fieldNumber buf f g hn hf hg
    obtain ⟨f', rfl⟩ : ∃ f', f = f' + 1 := ⟨f - 1, by omega⟩
    obtain ⟨g', rfl⟩ : ∃ g', g = g' + 1 := ⟨g - 1, by omega⟩
    simp only [yieldHeaderlessAux]
    by_cases hk : knownWireType wireType
    · rw [if_pos hk, if_pos hk]
      cases hd : wireTypeDecode wireType buf with
      | error part => rfl
      | ok dr =>
        obtain ⟨data, rest⟩ := dr
        have hrest := wireTypeDecode_length_lt wireType buf data rest hk hd
        dsimp only
        rw [ih wireType fieldNumber rest f' g' (by omega) (by omega) (by omega)]
    · rw [if_neg hk, if_neg hk]

theorem yieldHeaderlessAux_eq (wireType fieldNumber : Nat) (buf : List Nat)
    (f : Nat) (hf : buf.length < f) :
    yieldHeaderlessAux f wireType fieldNumber buf =
      yieldFieldsHeaderless wireType fieldNumber buf :=
  yieldHeaderlessAux_fuel_irrelevant buf.length wireType fieldNumber buf f
    (buf.length + 1) (le_refl _) hf (by omega)

/- ------------------------------------------------------------------ -/
/- Round-trip and prefix-stability lemmas for the primitives.          -/
/- ------------------------------------------------------------------ -/

theorem decodeBytes_encodeBytes (bs rest : List Nat) :
    decodeBytes (encodeBytes bs ++ rest) = .ok (bs, rest) := by
  unfold encodeBytes decodeBytes
  rw [List.append_assoc, decodeVint_encodeVint bs.length (bs ++ rest)]
  dsimp only
  rw [List.take_left, List.drop_left]
  simp

theorem readFixed_append (bs rest : List Nat) (len : Nat) (h : bs.length = len) :
    readFixed (bs ++ rest) len = .ok (bs, rest) := by
  unfold readFixed
  subst h
  rw [List.take_left, List.drop_left]
  simp

theorem header_val (t i : Nat) (ht : t < 8) : (i <<< 3) ||| t = t + i * 8 := by
  rw [Nat.shiftLeft_eq, Nat.lor_comm]
  have h := lor_mul_two_pow 3 t i (by norm_num; omega)
  norm_num at h ⊢
  omega

theorem decodeHeader_encodeHeader (t i : Nat) (rest : List Nat) (ht : t < 8) :
    decodeHeader (encodeHeader t i ++ rest) = .ok ((t, i), rest) := by
  unfold encodeHeader decodeHeader
  rw [decodeVint_encodeVint]
  dsimp only
  rw [header_val t i ht]
  have h1 : (t + i * 8) &&& 7 = t := by
    have h := Nat.and_pow_two_sub_one_eq_mod (t + i * 8) 3
    norm_num at h
    omega
  have h2 : (t + i * 8) >>> 3 = i := by
    rw [Nat.shiftRight_eq_div_pow]
    norm_num
    omega
  rw [h1, h2]

/-- Well-formedness of a raw record payload for a given wire type: exactly
the conditions under which `encode_raw` accepts it. -/
def wfData (wireType : Nat) (data : WireData) : Bool :=
  match wireType, data with
  | 0, .vint _ => true
  | 1, .bytes bs => bs.length == 8
  | 2, .bytes _ => true
  | 5, .bytes bs => bs.length == 4
  | _, _ => false

theorem wfData_known (wireType : Nat) (data : WireData)
    (h : wfData wireType data = true) : knownWireType wireType := by
  unfold wfData at h
  unfold knownWireType
  match wireType, data with
  | 0, .vint _ => left; rfl
  | 1, .bytes _ => right; left; rfl
  | 2, .bytes _ => right; right; left; rfl
  | 5, .bytes _ => right; right; right; rfl

theorem knownWireType_lt_8 (wireType : Nat) (h : knownWireType wireType) :
    wireType < 8 := by
  rcases h with h | h | h | h <;> omega

/-- Raw payload encode/decode round trip: well-formed data encodes
successfully and decodes back with arbitrary trailing bytes untouched. -/
theorem wireTypeEncode_decode (wireType : Nat) (d : WireData) (rest : List Nat)
    (h : wfData wireType d = true) :
    ∃ payload, wireTypeEncode wireType d = .ok payload ∧
      wireTypeDecode wireType (payload ++ rest) = .ok (d, rest) := by
  match wireType, d with
  | 0, .vint n =>
    refine ⟨encodeVint n, rfl, ?_⟩
    unfold wireTypeDecode
    rw [if_pos rfl, decodeVint_encodeVint]
  | 1, .bytes bs =>
    have hlen : bs.length = 8 := by
      simp [wfData] at h
      exact h
    refine ⟨bs, ?_, ?_⟩
    · unfold wireTypeEncode checkBytesLength
      norm_num [hlen]
    · unfold wireTypeDecode
      norm_num
      rw [readFixed_append bs rest 8 hlen]
  | 2, .bytes bs =>
    refine ⟨encodeBytes bs, rfl, ?_⟩
    unfold wireTypeDecode
    norm_num
    rw [decodeBytes_encodeBytes]
  | 5, .bytes bs =>
    have hlen : bs.length = 4 := by
      simp [wfData] at h
      exact h
    refine ⟨bs, ?_, ?_⟩
    · unfold wireTypeEncode checkBytesLength
      norm_num [hlen]
    · unfold wireTypeDecode
      norm_num
      rw [readFixed_append bs rest 4 hlen]

/-- Prefix stability of the varint decoder: a successful parse is
unaffected by appending more data to the buffer. -/
theorem decodeVintAux_pfx :
    ∀ (l : List Nat) (p2 : List Nat) (ctr acc : Nat) (p : Bool) (n : Nat)
      (l' : List Nat), decodeVintAux l ctr acc p = .ok (n, l') →
      decodeVintAux (l ++ p2) ctr acc p = .ok (n, l' ++ p2) := by
  intro l
  induction l with
  | nil =>
    intro p2 ctr acc p n l' h
    simp [decodeVintAux] at h
  | cons b bs ih =>
    intro p2 ctr acc p n l' h
    simp only [decodeVintAux, List.cons_append] at h ⊢
    by_cases hc : b >>> 7 = 0
    · rw [if_pos hc] at h ⊢
      simp only [Except.ok.injEq, Prod.mk.injEq] at h ⊢
      exact ⟨h.1, by rw [h.2]; rfl⟩
    · rw [if_neg hc] at h ⊢
      exact ih p2 _ _ _ _ _ h

theorem decodeVint_pfx (l p2 : List Nat) (n : Nat) (l' : List Nat)
    (h : decodeVint l = .ok (n, l')) :
    decodeVint (l ++ p2) = .ok (n, l' ++ p2) :=
  decodeVintAux_pfx l p2 0 0 false n l' h

theorem readFixed_pfx (l p2 : List Nat) (len : Nat) (bs l' : List Nat)
    (h : readFixed l len = .ok (bs, l')) :
    readFixed (l ++ p2) len = .ok (bs, l' ++ p2) := by
  unfold readFixed at h ⊢
  by_cases hc : (l.take len).length ≠ len
  · rw [if_pos hc] at h; cases h
  · rw [if_neg hc] at h
    simp only [Except.ok.injEq, Prod.mk.injEq] at h
    obtain ⟨h1, h2⟩ := h
    push_neg at hc
    simp only [List.length_take] at hc
    have hlen : len ≤ l.length := by omega
    rw [List.take_append_of_le_length hlen, List.drop_append_of_le_length hlen]
    have hck : ¬((l.take len).length ≠ len) := by
      simp only [List.length_take]
      omega
    rw [if_neg hck]
    rw [h1, h2]

theorem decodeBytes_pfx (l p2 : List Nat) (bs l' : List Nat)
    (h : decodeBytes l = .ok (bs, l')) :
    decodeBytes (l ++ p2) = .ok (bs, l' ++ p2) := by
  unfold decodeBytes at h ⊢
  cases hv : decodeVint l with
  | error p => rw [hv] at h; cases h
  | ok r =>
    obtain ⟨length, mid⟩ := r
    rw [hv] at h
    dsimp only at h
    by_cases hc : (mid.take length).length ≠ length
    · rw [if_pos hc] at h; cases h
    · rw [if_neg hc] at h
      simp only [Except.ok.injEq, Prod.mk.injEq] at h
      obtain ⟨h1, h2⟩ := h
      push_neg at hc
      simp only [List.length_take] at hc
      have hlen : length ≤ mid.length := by omega
      rw [decodeVint_pfx l p2 length mid hv]
      dsimp only
      rw [List.take_append_of_le_length hlen, List.drop_append_of_le_length hlen]
      have hck : ¬((mid.take length).length ≠ length) := by
        simp only [List.length_take]
        omega
      rw [if_neg hck, h1, h2]

theorem wireTypeDecode_pfx (wireType : Nat) (l p2 : List Nat) (d : WireData)
    (l' : List Nat) (h : wireTypeDecode wireType l = .ok (d, l')) :
    wireTypeDecode wireType (l ++ p2) = .ok (d, l' ++ p2) := by
  unfold wireTypeDecode at h ⊢
  split_ifs at h ⊢
  · cases hv : decodeVint l with
    | error p => rw [hv] at h; cases h
    | ok r =>
      obtain ⟨n, mid⟩ := r
      rw [hv] at h
      dsimp only at h
      simp only [Except.ok.injEq, Prod.mk.injEq] at h
      rw [decodeVint_pfx l p2 n mid hv]
      dsimp only
      rw [← h.1, ← h.2]
  · cases hv : readFixed l 8 with
    | error p => rw [hv] at h; cases h
    | ok r =>
      obtain ⟨bs, mid⟩ := r
      rw [hv] at h
      dsimp only at h
      simp only [Except.ok.injEq, Prod.mk.injEq] at h
      rw [readFixed_pfx l p2 8 bs mid hv]
      dsimp only
      rw [← h.1, ← h.2]
  · cases hv : decodeBytes l with
    | error p => rw [hv] at h; cases h
    | ok r =>
      obtain ⟨bs, mid⟩ := r
      rw [hv] at h
      dsimp only at h
      simp only [Except.ok.injEq, Prod.mk.injEq] at h
      rw [decodeBytes_pfx l p2 bs mid hv]
      dsimp only
      rw [← h.1, ← h.2]
  · cases hv : readFixed l 4 with
    | error p => rw [hv] at h; cases h
    | ok r =>
      obtain ⟨bs, mid⟩ := r
      rw [hv] at h
      dsimp only at h
      simp only [Except.ok.injEq, Prod.mk.injEq] at h
      rw [readFixed_pfx l p2 4 bs mid hv]
      dsimp only
      rw [← h.1, ← h.2]

/- ------------------------------------------------------------------ -/
/- Raw breakdown: prepending one complete record.                      -/
/- ------------------------------------------------------------------ -/

theorem encodeVint_length_pos (n : Nat) : 0 < (encodeVint n).length := by
  rw [encodeVint_eq]
  by_cases h : n >>> 7 = 0 <;> simp [h]

theorem encodeHeader_length_pos (t i : Nat) : 0 < (encodeHeader t i).length :=
  encodeVint_length_pos _

/-- Reading any payload from an empty buffer reports a clean (non-partial)
end of message. -/
theorem wireTypeDecode_nil (wireType : Nat) (hk : knownWireType wireType) :
    wireTypeDecode wireType [] = .error false := by
  rcases hk with h | h | h | h <;> subst h <;> rfl

/-- Stepping the raw breakdown over one complete record at the head of the
stream. -/
theorem yieldFieldsFromWire_cons (r : WireRecord) (payload rest : List Nat)
    (hk : knownWireType r.wire_type)
    (hdec : wireTypeDecode r.wire_type (payload ++ rest) = .ok (r.data, rest)) :
    yieldFieldsFromWire (encodeHeader r.wire_type r.id ++ payload ++ rest) =
      match yieldFieldsFromWire rest with
      | .error e => .error e
      | .ok tail => .ok (r :: tail) := by
  obtain ⟨rid, rwt, rdata⟩ := r
  dsimp only at hk hdec ⊢
  conv_lhs => rw [yieldFieldsFromWire]
  simp only [yieldFieldsAux]
  rw [List.append_assoc]
  rw [decodeHeader_encodeHeader rwt rid (payload ++ rest) (knownWireType_lt_8 rwt hk)]
  dsimp only
  rw [if_pos hk, hdec]
  dsimp only
  have hlen : rest.length < (encodeHeader rwt rid ++ (payload ++ rest)).length := by
    simp only [List.length_append]
    have := encodeHeader_length_pos rwt rid
    omega
  rw [yieldFieldsAux_eq_yieldFieldsFromWire rest _ hlen]

/- ------------------------------------------------------------------ -/
/- C10: termination of raw decoding.                                   -/
/- ------------------------------------------------------------------ -/

/-- C10: raw decoding terminates on every finite input: the loop of
`_yield_fields_from_wire` never needs more iterations than there are
input bytes (any fuel beyond the buffer length computes `decode_raw`'s
value), and a record with unknown wire type 3 or 4 is skipped with the
iteration continuing right after its header. -/
theorem c10_decode_raw_terminates :
    (∀ (buf : List Nat) (fuel : Nat), buf.length < fuel →
      yieldFieldsAux fuel buf = decodeRaw buf) ∧
    (∀ (wt fid : Nat) (rest : List Nat), wt = 3 ∨ wt = 4 →
      decodeRaw (encodeHeader wt fid ++ rest) = decodeRaw rest) := by
  constructor
  · intro buf fuel h
    exact yieldFieldsAux_eq_yieldFieldsFromWire buf fuel h
  · intro wt fid rest hwt
    have hlt : wt < 8 := by rcases hwt with h | h <;> omega
    have hnk : ¬knownWireType wt := by
      unfold knownWireType
      rcases hwt with h | h <;> omega
    unfold decodeRaw yieldFieldsFromWire
    simp only [yieldFieldsAux]
    rw [decodeHeader_encodeHeader wt fid rest hlt]
    dsimp only
    rw [if_neg hnk]
    have hlen : rest.length < (encodeHeader wt fid ++ rest).length := by
      simp only [List.length_append]
      have := encodeHeader_length_pos wt fid
      omega
    exact yieldFieldsAux_eq_yieldFieldsFromWire rest _ hlen

/-- Witness for `c10_decode_raw_terminates`: excess fuel on `[0x08, 0x01]`
and a skipped wire-type-3 record. -/
theorem c10_decode_raw_terminates_witness :
    yieldFieldsAux 17 [8, 1] = decodeRaw [8, 1] ∧
      decodeRaw (encodeHeader 3 7 ++ [8, 1]) = decodeRaw [8, 1] :=
  ⟨c10_decode_raw_terminates.1 [8, 1] 17 (by norm_num),
    c10_decode_raw_terminates.2 3 7 [8, 1] (Or.inl rfl)⟩

/- ------------------------------------------------------------------ -/
/- C2: truncation behaviour of raw breakdown.                          -/
/- ------------------------------------------------------------------ -/

/-- A nonempty but truncated payload for the given wire type appearing at
the very end of the stream: a varint whose continuation bits never end,
fewer than 8 (resp. 4) bytes for a fixed 64-bit (resp. 32-bit) record, a
truncated length prefix, or a length prefix promising more bytes than
remain. -/
def IncompletePayload (wireType : Nat) (tail : List Nat) : Prop :=
  match wireType with
  | 0 => tail ≠ [] ∧ ∀ b ∈ tail, 0x80 ≤ b
  | 1 => tail ≠ [] ∧ tail.length < 8
  | 2 => (tail ≠ [] ∧ ∀ b ∈ tail, 0x80 ≤ b) ∨
      (∃ len mid, decodeVint tail = .ok (len, mid) ∧ mid.length < len)
  | 5 => tail ≠ [] ∧ tail.length < 4
  | _ => False

theorem decodeVintAux_all_cont :
    ∀ (tail : List Nat) (ctr acc : Nat) (p : Bool), tail ≠ [] →
      (∀ b ∈ tail, 0x80 ≤ b) → decodeVintAux tail ctr acc p = .error true := by
  intro tail
  induction tail with
  | nil => intro ctr acc p hne _; exact absurd rfl hne
  | cons b bs ih =>
    intro ctr acc p hne hcont
    have hb : 0x80 ≤ b := hcont b (List.mem_cons_self b bs)
    have hbc : ¬(b >>> 7 = 0) := by
      rw [shiftRight7_eq_div]
      omega
    simp only [decodeVintAux, if_neg hbc]
    cases hbs : bs with
    | nil => rfl
    | cons c cs =>
      rw [← hbs]
      exact ih _ _ _ (by simp [hbs]) (fun x hx => hcont x (List.mem_cons_of_mem b hx))

/-- A truncated nonempty payload always produces `EndOfMessage(True)`. -/
theorem incompletePayload_decode (wireType : Nat) (tail : List Nat)
    (hk : knownWireType wireType) (hinc : IncompletePayload wireType tail) :
    wireTypeDecode wireType tail = .error true := by
  rcases hk with h | h | h | h <;> subst h
  · obtain ⟨hne, hcont⟩ := hinc
    unfold wireTypeDecode
    rw [if_pos rfl]
    rw [show decodeVint tail = .error true from
      decodeVintAux_all_cont tail 0 0 false hne hcont]
  · obtain ⟨hne, hshort⟩ := hinc
    unfold wireTypeDecode
    norm_num
    unfold readFixed
    have htake : (tail.take 8).length = tail.length := by
      simp only [List.length_take]
      omega
    rw [if_pos (by omega)]
    have hne0 : (tail.take 8).length ≠ 0 := by
      rw [htake]
      intro h0
      exact hne (List.length_eq_zero.mp h0)
    dsimp only
    congr 1
    exact decide_eq_true hne0
  · unfold wireTypeDecode
    norm_num
    rcases hinc with ⟨hne, hcont⟩ | ⟨len, mid, hdec, hshort⟩
    · unfold decodeBytes
      rw [show decodeVint tail = .error true from
        decodeVintAux_all_cont tail 0 0 false hne hcont]
    · unfold decodeBytes
      rw [hdec]
      dsimp only
      rw [if_pos (by simp only [List.length_take]; omega)]
  · obtain ⟨hne, hshort⟩ := hinc
    unfold wireTypeDecode
    norm_num
    unfold readFixed
    have htake : (tail.take 4).length = tail.length := by
      simp only [List.length_take]
      omega
    rw [if_pos (by omega)]
    have hne0 : (tail.take 4).length ≠ 0 := by
      rw [htake]
      intro h0
      exact hne (List.length_eq_zero.mp h0)
    dsimp only
    congr 1
    exact decide_eq_true hne0

/-- Breakdown of a stream ending in a header plus truncated payload:
`CodecError` naming the truncated field. -/
theorem yieldFields_truncated (wt fid : Nat) (tail : List Nat)
    (hk : knownWireType wt) (hinc : IncompletePayload wt tail) :
    yieldFieldsFromWire (encodeHeader wt fid ++ tail) =
      .error (.codec (eomMsg fid)) := by
  unfold yieldFieldsFromWire
  simp only [yieldFieldsAux]
  rw [decodeHeader_encodeHeader wt fid tail (knownWireType_lt_8 wt hk)]
  dsimp only
  rw [if_pos hk, incompletePayload_decode wt tail hk hinc]
  rfl

/-- Breakdown of a stream ending right after a header: the payload read
reports a clean end of message and the loop breaks, silently dropping the
header. -/
theorem yieldFields_bare_header (wt fid : Nat) (hk : knownWireType wt) :
    yieldFieldsFromWire (encodeHeader wt fid) = .ok [] := by
  unfold yieldFieldsFromWire
  simp only [yieldFieldsAux]
  have : encodeHeader wt fid = encodeHeader wt fid ++ [] := by simp
  rw [this, decodeHeader_encodeHeader wt fid [] (knownWireType_lt_8 wt hk)]
  dsimp only
  rw [if_pos hk, wireTypeDecode_nil wt hk]
  rfl

/-- C2 (amended): decoding a stream of complete records followed by a
header and a truncated nonempty payload raises `CodecError` with the
"Unexpected end of message while decoding field N" message for that field;
if the stream ends exactly after the header (zero payload bytes), the
breakdown instead terminates cleanly, discarding the header. -/
theorem c2_truncation_raises (recs : List WireRecord) (pre : List Nat)
    (henc : encodeRaw recs = .ok pre)
    (hwf : ∀ r ∈ recs, wfData r.wire_type r.data = true)
    (wt fid : Nat) (tail : List Nat)
    (hk : knownWireType wt) (hinc : IncompletePayload wt tail) :
    decodeRaw (pre ++ encodeHeader wt fid ++ tail) =
        .error (.codec (eomMsg fid)) ∧
      decodeRaw (pre ++ encodeHeader wt fid) = .ok recs := by
  induction recs generalizing pre with
  | nil =>
    have hpre : pre = [] := by
      unfold encodeRaw at henc
      simp only [Except.ok.injEq] at henc
      exact henc.symm
    subst hpre
    simp only [List.nil_append]
    exact ⟨yieldFields_truncated wt fid tail hk hinc,
      yieldFields_bare_header wt fid hk⟩
  | cons r rs ih =>
    unfold encodeRaw at henc
    cases hre : wireTypeEncode r.wire_type r.data with
    | error e => rw [hre] at henc; cases henc
    | ok payload =>
      rw [hre] at henc
      dsimp only at henc
      cases hrest : encodeRaw rs with
      | error e => rw [hrest] at henc; cases henc
      | ok pre' =>
        rw [hrest] at henc
        dsimp only at henc
        simp only [Except.ok.injEq] at henc
        subst henc
        have hwfr : wfData r.wire_type r.data = true := hwf r (List.mem_cons_self r rs)
        have hwfs : ∀ x ∈ rs, wfData x.wire_type x.data = true :=
          fun x hx => hwf x (List.mem_cons_of_mem r hx)
        obtain ⟨ihe, ihok⟩ := ih pre' hrest hwfs
        constructor
        · have hsplit : encodeHeader r.wire_type r.id ++ payload ++ pre' ++
              encodeHeader wt fid ++ tail =
              encodeHeader r.wire_type r.id ++ payload ++
                (pre' ++ encodeHeader wt fid ++ tail) := by
            simp [List.append_assoc]
          unfold decodeRaw at ihe ⊢
          rw [hsplit]
          obtain ⟨p2, hp2enc, hp2dec⟩ := wireTypeEncode_decode r.wire_type r.data
            (pre' ++ encodeHeader wt fid ++ tail) hwfr
          rw [hre] at hp2enc
          simp only [Except.ok.injEq] at hp2enc
          subst hp2enc
          rw [yieldFieldsFromWire_cons r payload _ (wfData_known _ _ hwfr) hp2dec,
            ihe]
        · have hsplit : encodeHeader r.wire_type r.id ++ payload ++ pre' ++
              encodeHeader wt fid =
              encodeHeader r.wire_type r.id ++ payload ++
                (pre' ++ encodeHeader wt fid) := by
            simp [List.append_assoc]
          unfold decodeRaw at ihok ⊢
          rw [hsplit]
          obtain ⟨p2, hp2enc, hp2dec⟩ := wireTypeEncode_decode r.wire_type r.data
            (pre' ++ encodeHeader wt fid) hwfr
          rw [hre] at hp2enc
          simp only [Except.ok.injEq] at hp2enc
          subst hp2enc
          rw [yieldFieldsFromWire_cons r payload _ (wfData_known _ _ hwfr) hp2dec,
            ihok]

/-- Witness for `c2_truncation_raises`: the spec's own truncation example
`12 07 74 65 73 74 69` (schema-level field 2, truncated string), decoded
raw. -/
theorem c2_truncation_raises_witness :
    decodeRaw ([] ++ encodeHeader 2 2 ++ [7, 116, 101, 115, 116, 105]) =
        .error (.codec (eomMsg 2)) ∧
      decodeRaw ([] ++ encodeHeader 2 2) = .ok [] :=
  c2_truncation_raises [] [] rfl (by intro r hr; cases hr) 2 2
    [7, 116, 101, 115, 116, 105] (by right; right; left; rfl)
    (by
      right
      refine ⟨7, [116, 101, 115, 116, 105], by rfl, by norm_num⟩)

/-- Counterexample to C2 as stated: the input `[0x08]` ends in the middle
of a record (its header, field 1 wire type 0, is read successfully and its
payload is missing), yet `decode_raw` terminates cleanly with no records
instead of raising `CodecError`. -/
theorem c2_counterexample :
    decodeHeader [8] = .ok ((0, 1), []) ∧ decodeRaw [8] = .ok [] := by
  constructor
  · rfl
  · rfl

/- ------------------------------------------------------------------ -/
/- Schema intermediate representation and Python value model.          -/
/- ------------------------------------------------------------------ -/

/-- Scalar type codes, the `TYPE_*` constants of the source (aliases
`v V l L u` resolve to these at parse time). -/
inductive FType where
  | d | f | t | T | z | I | Q | i | q | b | U | a | x
deriving DecidableEq

/-- Field prefix: `''`, `'*'` (required), `'+'` (repeated), `'#'`
(packed repeated). -/
inductive FPrefix where
  | pnone | required | repeated | repeatedPacked
deriving DecidableEq

/-- Source `_TYPE_TO_WIRE_TYPE_MAP`; `x` maps to Python `None`. -/
def typeToWireType : FType → Option Nat
  | .t => some 0
  | .T => some 0
  | .z => some 0
  | .b => some 0
  | .Q => some 1
  | .q => some 1
  | .d => some 1
  | .U => some 2
  | .a => some 2
  | .I => some 5
  | .i => some 5
  | .f => some 5
  | .x => Option.none

mutual
/-- One parsed field descriptor: the dict with keys `field_id`,
`field_type`, `prefix`, `repeat` (default 1) and optional `subcontent`
built by the schema parsers. -/
inductive FieldFmt where
  | mk (fieldId : Nat) (fieldType : FType) (pfx : FPrefix) (rep : Nat)
      (subcontent : OptSchema) : FieldFmt

/-- `None` or a nested parsed schema (the optional `subcontent` entry). -/
inductive OptSchema where
  | none : OptSchema
  | some (s : Schema) : OptSchema

/-- A parsed schema: the ordered list of field descriptors. -/
inductive Schema where
  | nil : Schema
  | cons (f : FieldFmt) (rest : Schema) : Schema
end

def FieldFmt.fieldId : FieldFmt → Nat
  | .mk i _ _ _ _ => i

def FieldFmt.fieldType : FieldFmt → FType
  | .mk _ t _ _ _ => t

def FieldFmt.pfx : FieldFmt → FPrefix
  | .mk _ _ p _ _ => p

def FieldFmt.rep : FieldFmt → Nat
  | .mk _ _ _ r _ => r

def FieldFmt.subcontent : FieldFmt → OptSchema
  | .mk _ _ _ _ s => s

/-- Python values flowing through the codec.  Python `float` objects are
represented by their IEEE-754 bit patterns (`f32` for values exactly
representable in binary32, `f64` for binary64): `struct.pack`/`unpack`
with `<f`/`<d` is exactly little-endian (de)serialisation of those bits.
Strings are sequences of Unicode code points.  Dynamic coercions between
Python types (e.g. passing an `int` where a `bool` is expected) are
outside this value model. -/
inductive PyVal where
  | none
  | int (n : Int)
  | bool (b : Bool)
  | bytes (bs : List Nat)
  | str (cps : List Nat)
  | f32 (bits : Nat)
  | f64 (bits : Nat)
  | tuple (vs : List PyVal)

/- ------------------------------------------------------------------ -/
/- struct.pack/unpack little-endian fixed-width integers.              -/
/- ------------------------------------------------------------------ -/

/-- `struct.pack('<..')`: little-endian serialisation of a nonnegative
integer into `width` bytes. -/
def packLE : Nat → Nat → List Nat
  | 0, _ => []
  | w + 1, n => (n % 256) :: packLE w (n / 256)

/-- `struct.unpack('<..')` for unsigned formats: little-endian
deserialisation of a byte string. -/
def unpackLE : List Nat → Nat
  | [] => 0
  | bb :: bs => bb + 256 * unpackLE bs

theorem packLE_length (w : Nat) : ∀ n, (packLE w n).length = w := by
  induction w with
  | zero => intro n; rfl
  | succ w ih =>
    intro n
    simp only [packLE, List.length_cons, ih]

theorem unpackLE_packLE (w : Nat) : ∀ n, n < 2 ^ (8 * w) → unpackLE (packLE w n) = n := by
  induction w with
  | zero =>
    intro n h
    norm_num at h
    simp [h, packLE, unpackLE]
  | succ w ih =>
    intro n h
    have hdiv : n / 256 < 2 ^ (8 * w) := by
      have hpow : (2 : Nat) ^ (8 * (w + 1)) = 2 ^ (8 * w) * 256 := by
        have h8 : 8 * (w + 1) = 8 * w + 8 := by ring
        rw [h8, Nat.pow_add]
      rw [hpow] at h
      omega
    simp only [packLE, unpackLE, ih (n / 256) hdiv]
    omega

theorem packLE_bytes_lt (w : Nat) : ∀ n, ∀ bb ∈ packLE w n, bb < 256 := by
  induction w with
  | zero => intro n bb hb; simp [packLE] at hb
  | succ w ih =>
    intro n bb hb
    simp only [packLE, List.mem_cons] at hb
    rcases hb with h | h
    · omega
    · exact ih (n / 256) bb h

/- ------------------------------------------------------------------ -/
/- Python's UTF-8 codec (str.encode / bytes.decode).                   -/
/- ------------------------------------------------------------------ -/

/-- A code point storable in a Python `str` that `str.encode('utf-8')`
accepts: below 0x110000 and not a surrogate. -/
def isValidCp (c : Nat) : Bool :=
  decide (c < 0x110000) && !(decide (0xD800 ≤ c) && decide (c < 0xE000))

/-- Standard UTF-8 encoding of a single code point, as produced by
Python's `str.encode('utf-8')`. -/
def utf8EncodeChar (c : Nat) : List Nat :=
  if c < 0x80 then [c]
  else if c < 0x800 then [0xC0 + c / 64, 0x80 + c % 64]
  else if c < 0x10000 then [0xE0 + c / 4096, 0x80 + c / 64 % 64, 0x80 + c % 64]
  else [0xF0 + c / 262144, 0x80 + c / 4096 % 64, 0x80 + c / 64 % 64, 0x80 + c % 64]

/-- `str.encode('utf-8')` over the whole string. -/
def utf8Encode (cps : List Nat) : List Nat :=
  (cps.map utf8EncodeChar).join

/-- Strict decoding of one UTF-8-encoded code point from the front of a
nonempty byte string (first byte `b0`, remaining bytes `rest`), as
performed by Python's `bytes.decode('utf-8')`: rejects stray or missing
continuation bytes, overlong forms, surrogates and code points above
0x10FFFF. -/
def utf8DecodeChar (b0 : Nat) (rest : List Nat) : Option (Nat × List Nat) :=
  if b0 < 0x80 then some (b0, rest)
  else if b0 < 0xC2 then Option.none
  else if b0 < 0xE0 then
    match rest with
    | b1 :: rest' =>
      if 0x80 ≤ b1 ∧ b1 < 0xC0 then
        some ((b0 - 0xC0) * 64 + (b1 - 0x80), rest')
      else Option.none
    | [] => Option.none
  else if b0 < 0xF0 then
    match rest with
    | b1 :: b2 :: rest' =>
      if (0x80 ≤ b1 ∧ b1 < 0xC0) ∧ (0x80 ≤ b2 ∧ b2 < 0xC0) then
        let c := (b0 - 0xE0) * 4096 + (b1 - 0x80) * 64 + (b2 - 0x80)
        if 0x800 ≤ c ∧ ¬(0xD800 ≤ c ∧ c < 0xE000) then some (c, rest')
        else Option.none
      else Option.none
    | _ => Option.none
  else if b0 < 0xF5 then
    match rest with
    | b1 :: b2 :: b3 :: rest' =>
      if (0x80 ≤ b1 ∧ b1 < 0xC0) ∧ (0x80 ≤ b2 ∧ b2 < 0xC0) ∧
          (0x80 ≤ b3 ∧ b3 < 0xC0) then
        let c := (b0 - 0xF0) * 262144 + (b1 - 0x80) * 4096 +
          (b2 - 0x80) * 64 + (b3 - 0x80)
        if 0x10000 ≤ c ∧ c < 0x110000 then some (c, rest')
        else Option.none
      else Option.none
    | _ => Option.none
  else Option.none

theorem utf8DecodeChar_length_le (b0 : Nat) (rest : List Nat) (c : Nat)
    (rest' : List Nat) (h : utf8DecodeChar b0 rest = some (c, rest')) :
    rest'.length ≤ rest.length := by
  unfold utf8DecodeChar at h
  split_ifs at h
  · simp only [Option.some.injEq, Prod.mk.injEq] at h
    rw [← h.2]
  · cases hr : rest with
    | nil => rw [hr] at h; cases h
    | cons b1 rest1 =>
      rw [hr] at h
      dsimp only at h
      split_ifs at h
      simp only [Option.some.injEq, Prod.mk.injEq] at h
      rw [← h.2]
      simp
  · cases hr : rest with
    | nil => rw [hr] at h; cases h
    | cons b1 rest1 =>
      cases hr1 : rest1 with
      | nil => rw [hr, hr1] at h; cases h
      | cons b2 rest2 =>
        rw [hr, hr1] at h
        dsimp only at h
        split_ifs at h
        simp only [Option.some.injEq, Prod.mk.injEq] at h
        rw [← h.2]
        simp only [List.length_cons]
        omega
  · cases hr : rest with
    | nil => rw [hr] at h; cases h
    | cons b1 rest1 =>
      cases hr1 : rest1 with
      | nil => rw [hr, hr1] at h; cases h
      | cons b2 rest2 =>
        cases hr2 : rest2 with
        | nil => rw [hr, hr1, hr2] at h; cases h
        | cons b3 rest3 =>
          rw [hr, hr1, hr2] at h
          dsimp only at h
          split_ifs at h
          simp only [Option.some.injEq, Prod.mk.injEq] at h
          rw [← h.2]
          simp only [List.length_cons]
          omega

/-- The decoding loop of `bytes.decode('utf-8')`, with a fuel bound on
iterations; every iteration consumes at least one byte so `bs.length`
iterations always suffice. -/
def utf8DecodeAux : Nat → List Nat → Option (List Nat)
  | _, [] => some []
  | 0, _ :: _ => Option.none
  | fuel + 1, b0 :: rest =>
    match utf8DecodeChar b0 rest with
    | Option.none => Option.none
    | Option.some (c, rest') => (utf8DecodeAux fuel rest').map (c :: ·)

/-- Python `bytes.decode('utf-8')`. -/
def utf8Decode (bs : List Nat) : Option (List Nat) :=
  utf8DecodeAux bs.length bs

theorem utf8DecodeAux_fuel_irrelevant :
    ∀ (n : Nat) (bs : List Nat) (f g : Nat), bs.length ≤ n →
      bs.length ≤ f → bs.length ≤ g →
      utf8DecodeAux f bs = utf8DecodeAux g bs := by
  intro n
  induction n with
  | zero =>
    intro bs f g hn hf hg
    have : bs = [] := List.length_eq_zero.mp (by omega)
    subst this
    cases f <;> cases g <;> rfl
  | succ n ih =>
    intro bs f g hn hf hg
    cases bs with
    | nil => cases f <;> cases g <;> rfl
    | cons b0 rest =>
      simp only [List.length_cons] at hn hf hg
      obtain ⟨f', rfl⟩ : ∃ f', f = f' + 1 := ⟨f - 1, by omega⟩
      obtain ⟨g', rfl⟩ : ∃ g', g = g' + 1 := ⟨g - 1, by omega⟩
      simp only [utf8DecodeAux]
      cases hc : utf8DecodeChar b0 rest with
      | none => rfl
      | some r =>
        obtain ⟨c, rest'⟩ := r
        have hlen := utf8DecodeChar_length_le b0 rest c rest' hc
        dsimp only
        rw [ih rest' f' g' (by omega) (by omega) (by omega)]

theorem utf8DecodeAux_eq (bs : List Nat) (f : Nat) (hf : bs.length ≤ f) :
    utf8DecodeAux f bs = utf8Decode bs :=
  utf8DecodeAux_fuel_irrelevant bs.length bs f bs.length (le_refl _) hf (le_refl _)

/-- Decoding one encoded valid code point succeeds and consumes exactly
its bytes. -/
theorem utf8DecodeChar_encodeChar (c : Nat) (rest : List Nat)
    (h : isValidCp c = true) :
    ∃ b0 tl, utf8EncodeChar c = b0 :: tl ∧
      utf8DecodeChar b0 (tl ++ rest) = some (c, rest) := by
  have hv : c < 0x110000 ∧ ¬(0xD800 ≤ c ∧ c < 0xE000) := by
    simp only [isValidCp, Bool.and_eq_true, Bool.not_eq_true', Bool.and_eq_false_iff,
      decide_eq_true_eq, decide_eq_false_iff_not] at h
    constructor
    · exact h.1
    · intro hc
      rcases h.2 with h1 | h1
      · exact h1 hc.1
      · exact h1 hc.2
  unfold utf8EncodeChar
  by_cases h1 : c < 0x80
  · rw [if_pos h1]
    refine ⟨c, [], rfl, ?_⟩
    unfold utf8DecodeChar
    rw [if_pos h1]
    simp
  · rw [if_neg h1]
    by_cases h2 : c < 0x800
    · rw [if_pos h2]
      refine ⟨0xC0 + c / 64, [0x80 + c % 64], rfl, ?_⟩
      unfold utf8DecodeChar
      rw [if_neg (by omega), if_neg (by omega), if_pos (by omega)]
      simp only [List.cons_append, List.nil_append]
      rw [if_pos (by omega)]
      simp only [Option.some.injEq, Prod.mk.injEq]
      exact ⟨by omega, trivial⟩
    · rw [if_neg h2]
      by_cases h3 : c < 0x10000
      · rw [if_pos h3]
        refine ⟨0xE0 + c / 4096, [0x80 + c / 64 % 64, 0x80 + c % 64], rfl, ?_⟩
        unfold utf8DecodeChar
        rw [if_neg (by omega), if_neg (by omega), if_neg (by omega),
          if_pos (by omega)]
        simp only [List.cons_append, List.nil_append]
        rw [if_pos (by omega)]
        have hid : (0xE0 + c / 4096 - 0xE0) * 4096 + (0x80 + c / 64 % 64 - 0x80) * 64 +
            (0x80 + c % 64 - 0x80) = c := by omega
        rw [if_pos (by rw [hid]; exact ⟨by omega, hv.2⟩)]
        simp only [Option.some.injEq, Prod.mk.injEq]
        exact ⟨by omega, trivial⟩
      · rw [if_neg h3]
        refine ⟨0xF0 + c / 262144,
          [0x80 + c / 4096 % 64, 0x80 + c / 64 % 64, 0x80 + c % 64], rfl, ?_⟩
        unfold utf8DecodeChar
        rw [if_neg (by omega), if_neg (by omega), if_neg (by omega),
          if_neg (by omega), if_pos (by omega)]
        simp only [List.cons_append, List.nil_append]
        rw [if_pos (by omega)]
        rw [if_pos (by omega)]
        simp only [Option.some.injEq, Prod.mk.injEq]
        exact ⟨by omega, trivial⟩

/-- Decoding undoes the UTF-8 encoding of one valid code point, leaving
trailing bytes untouched. -/
theorem utf8Decode_encodeChar_cons (c : Nat) (rest : List Nat)
    (h : isValidCp c = true) :
    utf8Decode (utf8EncodeChar c ++ rest) = (utf8Decode rest).map (c :: ·) := by
  obtain ⟨b0, tl, henc, hdec⟩ := utf8DecodeChar_encodeChar c rest h
  rw [henc]
  unfold utf8Decode
  simp only [List.cons_append, List.length_cons, List.length_append]
  simp only [utf8DecodeAux, hdec]
  congr 1
  exact utf8DecodeAux_fuel_irrelevant rest.length rest _ _ (le_refl _) (by omega)
    (le_refl _)

/-- Decoding undoes encoding for every valid Python string. -/
theorem utf8Decode_utf8Encode (cps : List Nat)
    (h : ∀ c ∈ cps, isValidCp c = true) :
    utf8Decode (utf8Encode cps) = some cps := by
  induction cps with
  | nil => rfl
  | cons c cs ih =>
    have hc : isValidCp c = true := h c (List.mem_cons_self c cs)
    have hcs : ∀ x ∈ cs, isValidCp x = true :=
      fun x hx => h x (List.mem_cons_of_mem c hx)
    unfold utf8Encode
    simp only [List.map_cons, List.join_cons]
    rw [utf8Decode_encodeChar_cons c _ hc]
    unfold utf8Encode at ih
    rw [ih hcs]
    rfl

/- ------------------------------------------------------------------ -/
/- Scalar encoders and decoders (per type code).                       -/
/- ------------------------------------------------------------------ -/

/-- `field_data == None` in Python. -/
def PyVal.isNone : PyVal → Bool
  | .none => true
  | _ => false

/-- Source `_encode_scalar_to_bytes` / `_TYPE_TO_ENCODER_MAP`, for the
canonical Python value type of each scalar code; `maxBits` is the
configured two's-complement width (`mask = 2^maxBits - 1`).
`struct.pack` range violations are `structError`; a negative value handed
to `_encode_vint` is the source's failed assertion; surrogates in a string
are `UnicodeEncodeError`. -/
def encodeScalarToBytes (fieldType : FType) (pyData : PyVal) (maxBits : Nat) :
    Except PyErr (List Nat) :=
  match fieldType, pyData with
  | .a, .bytes bs => .ok (encodeBytes bs)
  | .U, .str cps =>
    if cps.all isValidCp then .ok (encodeBytes (utf8Encode cps))
    else .error .unicodeError
  | .t, .int n => .ok (encodeVint (vintSignedTo2sc n maxBits))
  | .T, .int n => if n < 0 then .error .assertionError else .ok (encodeVint n.toNat)
  | .z, .int n => .ok (encodeVint (vintZigzagify n).toNat)
  | .b, .bool v => .ok (encodeVint (if v then 1 else 0))
  | .i, .int n =>
    if -(2 ^ 31) ≤ n ∧ n < 2 ^ 31 then .ok (packLE 4 (n % 2 ^ 32).toNat)
    else .error .structError
  | .I, .int n =>
    if 0 ≤ n ∧ n < 2 ^ 32 then .ok (packLE 4 n.toNat) else .error .structError
  | .q, .int n =>
    if -(2 ^ 63) ≤ n ∧ n < 2 ^ 63 then .ok (packLE 8 (n % 2 ^ 64).toNat)
    else .error .structError
  | .Q, .int n =>
    if 0 ≤ n ∧ n < 2 ^ 64 then .ok (packLE 8 n.toNat) else .error .structError
  | .f, .f32 bits => if bits < 2 ^ 32 then .ok (packLE 4 bits) else .error .structError
  | .d, .f64 bits => if bits < 2 ^ 64 then .ok (packLE 8 bits) else .error .structError
  | _, _ => .error (.typeError "unsupported value type for scalar encoder")

/-- Source `_decode_scalar_from_bytes` / `_TYPE_TO_DECODER_MAP`: varint
types receive the already-decoded unsigned integer, all other types the
raw payload bytes (whose width `struct.unpack` checks). -/
def decodeScalarFromBytes (fieldType : FType) (fData : WireData) (maxBits : Nat) :
    Except PyErr PyVal :=
  match fieldType, fData with
  | .a, .bytes bs => .ok (.bytes bs)
  | .U, .bytes bs =>
    match utf8Decode bs with
    | Option.some cps => .ok (.str cps)
    | Option.none => .error .unicodeError
  | .t, .vint n => .ok (.int (vint2scToSigned n maxBits))
  | .T, .vint n => .ok (.int n)
  | .z, .vint n => .ok (.int (vintDezigzagify n))
  | .b, .vint n => .ok (.bool (n != 0))
  | .i, .bytes bs =>
    if bs.length ≠ 4 then .error .structError
    else .ok (.int (if unpackLE bs < 2 ^ 31 then (unpackLE bs : Int)
      else (unpackLE bs : Int) - 2 ^ 32))
  | .I, .bytes bs =>
    if bs.length ≠ 4 then .error .structError else .ok (.int (unpackLE bs))
  | .q, .bytes bs =>
    if bs.length ≠ 8 then .error .structError
    else .ok (.int (if unpackLE bs < 2 ^ 63 then (unpackLE bs : Int)
      else (unpackLE bs : Int) - 2 ^ 64))
  | .Q, .bytes bs =>
    if bs.length ≠ 8 then .error .structError else .ok (.int (unpackLE bs))
  | .f, .bytes bs =>
    if bs.length ≠ 4 then .error .structError else .ok (.f32 (unpackLE bs))
  | .d, .bytes bs =>
    if bs.length ≠ 8 then .error .structError else .ok (.f64 (unpackLE bs))
  | _, _ => .error (.typeError "unsupported wire data for scalar decoder")

/- ------------------------------------------------------------------ -/
/- The schema-driven decoder (`Wire._decode_wire`).                    -/
/- ------------------------------------------------------------------ -/

/-- Source `_group_fields_by_number`: the per-field-number index preserves
record order; `index.get(fid)` is exactly the records with that id
(`None` in the source corresponds to the empty list here). -/
def groupFieldsByNumber (decodedRaw : List WireRecord) (fieldId : Nat) :
    List WireRecord :=
  decodedRaw.filter (fun r => r.id == fieldId)

/-- Loop body of source `_concat_fields`: every record must repeat the id
and wire type of the first (`assert`), and its payload must be bytes
(`result_wire.write` raises `TypeError` on the `int` payload of a varint
record). -/
def concatFieldsData (fields : List WireRecord) (firstId firstWt : Nat) :
    Except PyErr (List Nat) :=
  match fields with
  | [] => .ok []
  | f :: rest =>
    if f.id = firstId ∧ f.wire_type = firstWt then
      match f.data with
      | .vint _ => .error (.typeError "a bytes-like object is required, not int")
      | .bytes bs =>
        match concatFieldsData rest firstId firstWt with
        | .error e => .error e
        | .ok tail => .ok (bs ++ tail)
    else .error .assertionError

/-- Source `_concat_fields`: concatenate the payloads of records sharing
one field number and wire type. -/
def concatFields (fields : List WireRecord) : Except PyErr WireRecord :=
  match fields with
  | [] => .error .indexError
  | f0 :: _ =>
    match concatFieldsData fields f0.id f0.wire_type with
    | .error e => .error e
    | .ok data => .ok ⟨f0.id, f0.wire_type, .bytes data⟩

/-- Structural size of a parsed schema, bounding the nesting depth of
subschema descents (every subschema is strictly smaller than its
parent). -/
def Schema.size : Schema → Nat
  | .nil => 1
  | .cons (.mk _ _ _ _ OptSchema.none) rest => 2 + rest.size
  | .cons (.mk _ _ _ _ (OptSchema.some s)) rest => 2 + s.size + rest.size

theorem schemaSize_pos (s : Schema) : 0 < s.size := by
  match s with
  | .nil => simp only [Schema.size]; omega
  | .cons (.mk i t p r OptSchema.none) rest => simp only [Schema.size]; omega
  | .cons (.mk i t p r (OptSchema.some s2)) rest => simp only [Schema.size]; omega

theorem schemaSize_subcontent_lt (fld : FieldFmt) (rest s' : Schema)
    (h : fld.subcontent = OptSchema.some s') :
    s'.size < (Schema.cons fld rest).size := by
  match fld with
  | .mk i t p r OptSchema.none => simp [FieldFmt.subcontent] at h
  | .mk i t p r (OptSchema.some s2) =>
    simp only [FieldFmt.subcontent, OptSchema.some.injEq] at h
    subst h
    simp only [Schema.size]
    omega

theorem schemaSize_tail_lt (fld : FieldFmt) (rest : Schema) :
    rest.size < (Schema.cons fld rest).size := by
  match fld with
  | .mk i t p r OptSchema.none => simp only [Schema.size]; omega
  | .mk i t p r (OptSchema.some s2) => simp only [Schema.size]; omega

/-- Source `Wire._decode_field` (positional mode): check the record's wire
type against the schema's, then decode a nested message (recursively, on a
fresh breakdown of the payload, collected into a tuple) or a scalar.
`decW` is the nested-message decoder (`self._decode_wire` at the next
nesting depth; see `decodeWireD`). -/
def decodeField (W : Nat) (decW : Schema → List Nat → Except PyErr (List PyVal))
    (fieldType : FType) (sub : OptSchema) (fieldData : WireRecord) :
    Except PyErr PyVal :=
  match typeToWireType fieldType with
  | Option.none =>
    .error (.typeError ("Wire type mismatch (expect None but got " ++
      Nat.repr fieldData.wire_type ++ ")"))
  | Option.some wtSchema =>
    if wtSchema ≠ fieldData.wire_type then
      .error (.typeError ("Wire type mismatch (expect " ++ Nat.repr wtSchema ++
        " but got " ++ Nat.repr fieldData.wire_type ++ ")"))
    else
      match fieldType, sub with
      | .a, .some subs =>
        match fieldData.data with
        | .vint _ => .error (.typeError "a bytes-like object is required, not int")
        | .bytes bs =>
          match decW subs bs with
          | .error e => .error e
          | .ok vs => .ok (.tuple vs)
      | _, _ => decodeScalarFromBytes fieldType fieldData.data W

/-- `tuple(self._decode_field(...) for f in fields)`. -/
def decodeFieldList (W : Nat) (decW : Schema → List Nat → Except PyErr (List PyVal))
    (fieldType : FType) (sub : OptSchema) :
    List WireRecord → Except PyErr (List PyVal)
  | [] => .ok []
  | f :: fs =>
    match decodeField W decW fieldType sub f with
    | .error e => .error e
    | .ok v =>
      match decodeFieldList W decW fieldType sub fs with
      | .error e => .error e
      | .ok vs => .ok (v :: vs)

/-- Body of the `for field_id in range(...)` loop of `Wire._decode_wire`,
for one field number: the `None`/repeated/packed/multiple/single decision
chain. -/
def decodeOneId (W : Nat) (decW : Schema → List Nat → Except PyErr (List PyVal))
    (fieldType : FType) (pfx : FPrefix) (sub : OptSchema)
    (recs : List WireRecord) (fieldId : Nat) : Except PyErr PyVal :=
  let fields := groupFieldsByNumber recs fieldId
  if fields = [] then
    if pfx = .required then
      .error (.codec ("Field " ++ Nat.repr fieldId ++ " is required but is empty"))
    else .ok .none
  else if pfx = .repeated then
    match decodeFieldList W decW fieldType sub fields with
    | .error e => .error e
    | .ok vs => .ok (.tuple vs)
  else if pfx = .repeatedPacked then
    match (if fields.length > 1 then concatFields fields
      else match fields with
        | f0 :: _ => .ok f0
        | [] => .error .indexError) with
    | .error e => .error e
    | .ok r =>
      if r.wire_type ≠ 2 then
        .error (.codec ("Packed repeated field " ++ Nat.repr fieldId ++
          " has wire type other than str"))
      else
        match r.data with
        | .vint _ => .error (.typeError "a bytes-like object is required, not int")
        | .bytes bs =>
          match typeToWireType fieldType with
          | Option.none => .error .assertionError
          | Option.some wt =>
            match yieldFieldsHeaderless wt fieldId bs with
            | .error e => .error e
            | .ok unpacked =>
              match decodeFieldList W decW fieldType sub unpacked with
              | .error e => .error e
              | .ok vs => .ok (.tuple vs)
  else if fields.length > 1 then
    match sub with
    | .none =>
      match fields.getLast? with
      | Option.some last => decodeField W decW fieldType .none last
      | Option.none => .error .indexError
    | .some s =>
      match concatFields fields with
      | .error e => .error e
      | .ok r => decodeField W decW fieldType (.some s) r
  else
    match fields with
    | f0 :: _ => decodeField W decW fieldType sub f0
    | [] => .error .indexError

/-- The `for field_id in range(start, start + repeat)` loop of
`Wire._decode_wire` over the expanded field numbers of one descriptor;
`x` slots are skipped and yield nothing. -/
def decodeIds (W : Nat) (decW : Schema → List Nat → Except PyErr (List PyVal))
    (fieldType : FType) (pfx : FPrefix) (sub : OptSchema)
    (recs : List WireRecord) : List Nat → Except PyErr (List PyVal)
  | [] => .ok []
  | fid :: fids =>
    if fieldType = .x then decodeIds W decW fieldType pfx sub recs fids
    else
      match decodeOneId W decW fieldType pfx sub recs fid with
      | .error e => .error e
      | .ok v =>
        match decodeIds W decW fieldType pfx sub recs fids with
        | .error e => .error e
        | .ok vs => .ok (v :: vs)

/-- The `for fmt in subfmt` loop of `Wire._decode_wire` over the records
index. -/
def decodeFields (W : Nat) (decW : Schema → List Nat → Except PyErr (List PyVal)) :
    Schema → List WireRecord → Except PyErr (List PyVal)
  | .nil, _ => .ok []
  | .cons f rest, recs =>
    match decodeIds W decW f.fieldType f.pfx f.subcontent recs
        (List.range' f.fieldId f.rep) with
    | .error e => .error e
    | .ok vals =>
      match decodeFields W decW rest recs with
      | .error e => .error e
      | .ok tail => .ok (vals ++ tail)

/-- Source `Wire._decode_wire` forced into a list (the source is a
generator; `Wire.decode` materialises it with `tuple(...)`, surfacing
errors): break the buffer into records, index them by field number, then
project the schema through the index.  The `depth` argument bounds the
nesting depth of subschema descents; any depth above `Schema.size s`
computes the same value (`decodeWireD_fuel_irrelevant`), and subschemas
are strictly smaller than their parent, so the bound used by `decodeWire`
is never exhausted. -/
def decodeWireD (W : Nat) : Nat → Schema → List Nat → Except PyErr (List PyVal)
  | 0, _, _ => .error .nonTermination
  | depth + 1, s, buf =>
    match yieldFieldsFromWire buf with
    | .error e => .error e
    | .ok recs => decodeFields W (decodeWireD W depth) s recs

/-- Source `Wire._decode_wire` / `Wire.decode` (positional mode). -/
def decodeWire (W : Nat) (s : Schema) (buf : List Nat) :
    Except PyErr (List PyVal) :=
  decodeWireD W (s.size + 1) s buf

/- ------------------------------------------------------------------ -/
/- The schema-driven encoder (`Wire._encode_wire`).                    -/
/- ------------------------------------------------------------------ -/

/-- Source `Wire._encode_field` (positional mode): a nested message is
encoded recursively and length-prefixed, everything else goes through the
scalar encoder.  `encW` is the nested-message encoder. -/
def encodeField (W : Nat) (encW : Schema → List PyVal → Except PyErr (List Nat))
    (fieldType : FType) (fieldData : PyVal) (sub : OptSchema) :
    Except PyErr (List Nat) :=
  match fieldType, sub with
  | .a, .some subs =>
    match fieldData with
    | .tuple vs =>
      match encW subs vs with
      | .error e => .error e
      | .ok nested => .ok (encodeBytes nested)
    | _ => .error (.typeError "nested message value is not a sequence")
  | _, _ => encodeScalarToBytes fieldType fieldData W

/-- `for obj in field_data: ... self._encode_field(...)` — the per-element
encodings of a repeated or packed-repeated field. -/
def encodeFieldList (W : Nat) (encW : Schema → List PyVal → Except PyErr (List Nat))
    (fieldType : FType) (sub : OptSchema) :
    List PyVal → Except PyErr (List (List Nat))
  | [] => .ok []
  | v :: vs =>
    match encodeField W encW fieldType v sub with
    | .error e => .error e
    | .ok enc =>
      match encodeFieldList W encW fieldType sub vs with
      | .error e => .error e
      | .ok encs => .ok (enc :: encs)

/-- Body of the `for field_id in range(...)` loop of `Wire._encode_wire`
(positional mode) for one field number: look up the positional argument
(`stuff[stuff_id]`, `CodecError` when missing), skip `x` slots without
consuming, reject a `None` in a required field, skip a `None` otherwise,
and emit header/payload per prefix.  Returns the bytes and the updated
`stuff_id`. -/
def encodeOneId (W : Nat) (encW : Schema → List PyVal → Except PyErr (List Nat))
    (fieldType : FType) (pfx : FPrefix) (sub : OptSchema)
    (stuff : List PyVal) (stuffId : Nat) (fieldId : Nat) :
    Except PyErr (List Nat × Nat) :=
  match stuff.get? stuffId with
  | Option.none =>
    .error (.codec ("Insufficient parameters (empty field " ++ Nat.repr fieldId ++
      " not padded with None)"))
  | Option.some fieldData =>
    if fieldType = .x then .ok ([], stuffId)
    else
      match typeToWireType fieldType with
      | Option.none => .ok ([], stuffId)
      | Option.some wtv =>
        let wireType := if pfx = .repeatedPacked then 2 else wtv
        let encodedHeader := encodeHeader wireType fieldId
        if pfx = .required ∧ fieldData.isNone then
          .error (.codec "Required field cannot be None.")
        else if fieldData.isNone then .ok ([], stuffId + 1)
        else if pfx = .repeated then
          match fieldData with
          | .tuple objs =>
            match encodeFieldList W encW fieldType sub objs with
            | .error e => .error e
            | .ok encs =>
              .ok ((encs.map (fun enc => encodedHeader ++ enc)).join, stuffId + 1)
          | _ => .error (.typeError "repeated field value is not iterable")
        else if pfx = .repeatedPacked then
          match fieldData with
          | .tuple objs =>
            match encodeFieldList W encW fieldType sub objs with
            | .error e => .error e
            | .ok encs =>
              .ok (encodedHeader ++ encodeBytes encs.join, stuffId + 1)
          | _ => .error (.typeError "packed repeated field value is not iterable")
        else
          match encodeField W encW fieldType fieldData sub with
          | .error e => .error e
          | .ok enc => .ok (encodedHeader ++ enc, stuffId + 1)

/-- The `for field_id in range(field_id_start, field_id_start + repeat)`
loop of `Wire._encode_wire`, threading `stuff_id`. -/
def encodeIds (W : Nat) (encW : Schema → List PyVal → Except PyErr (List Nat))
    (fieldType : FType) (pfx : FPrefix) (sub : OptSchema)
    (stuff : List PyVal) : Nat → List Nat → Except PyErr (List Nat × Nat)
  | stuffId, [] => .ok ([], stuffId)
  | stuffId, fid :: fids =>
    match encodeOneId W encW fieldType pfx sub stuff stuffId fid with
    | .error e => .error e
    | .ok (bs, stuffId2) =>
      match encodeIds W encW fieldType pfx sub stuff stuffId2 fids with
      | .error e => .error e
      | .ok (tail, stuffId3) => .ok (bs ++ tail, stuffId3)

/-- The `for fmt in fmtable` loop of `Wire._encode_wire` (positional
mode). -/
def encodeFields (W : Nat) (encW : Schema → List PyVal → Except PyErr (List Nat)) :
    Schema → List PyVal → Nat → Except PyErr (List Nat)
  | .nil, _, _ => .ok []
  | .cons f rest, stuff, stuffId =>
    match encodeIds W encW f.fieldType f.pfx f.subcontent stuff stuffId
        (List.range' f.fieldId f.rep) with
    | .error e => .error e
    | .ok (bs, stuffId2) =>
      match encodeFields W encW rest stuff stuffId2 with
      | .error e => .error e
      | .ok tail => .ok (bs ++ tail)

/-- Source `Wire._encode_wire` (positional mode), depth-indexed like
`decodeWireD`. -/
def encodeWireD (W : Nat) : Nat → Schema → List PyVal → Except PyErr (List Nat)
  | 0, _, _ => .error .nonTermination
  | depth + 1, s, stuff => encodeFields W (encodeWireD W depth) s stuff 0

/-- Source `Wire._encode_wire` / `Wire.encode` (positional mode),
returning the encoded bytes (`Wire.encode` materialises the `BytesIO`). -/
def encodeWire (W : Nat) (s : Schema) (stuff : List PyVal) :
    Except PyErr (List Nat) :=
  encodeWireD W (s.size + 1) s stuff

/- Congruence in the nested-codec argument, and depth irrelevance.      -/

theorem decodeField_congr (W : Nat) (f g : Schema → List Nat → Except PyErr (List PyVal))
    (fieldType : FType) (sub : OptSchema) (fd : WireRecord)
    (h : ∀ s', sub = OptSchema.some s' → ∀ bs, f s' bs = g s' bs) :
    decodeField W f fieldType sub fd = decodeField W g fieldType sub fd := by
  unfold decodeField
  cases typeToWireType fieldType with
  | none => rfl
  | some wtSchema =>
    dsimp only
    split_ifs with hwt
    · rfl
    · match fieldType, sub with
      | .a, .some subs =>
        dsimp only
        cases fd.data with
        | vint n => rfl
        | bytes bs =>
          dsimp only
          rw [h subs rfl bs]
      | .a, .none => rfl
      | .d, _ => rfl
      | .f, _ => rfl
      | .t, _ => rfl
      | .T, _ => rfl
      | .z, _ => rfl
      | .I, _ => rfl
      | .Q, _ => rfl
      | .i, _ => rfl
      | .q, _ => rfl
      | .b, _ => rfl
      | .U, _ => rfl
      | .x, _ => rfl

theorem decodeFieldList_congr (W : Nat)
    (f g : Schema → List Nat → Except PyErr (List PyVal))
    (fieldType : FType) (sub : OptSchema) (fs : List WireRecord)
    (h : ∀ s', sub = OptSchema.some s' → ∀ bs, f s' bs = g s' bs) :
    decodeFieldList W f fieldType sub fs = decodeFieldList W g fieldType sub fs := by
  induction fs with
  | nil => rfl
  | cons r rs ih =>
    unfold decodeFieldList
    rw [decodeField_congr W f g fieldType sub r h, ih]

theorem decodeOneId_congr (W : Nat)
    (f g : Schema → List Nat → Except PyErr (List PyVal))
    (fieldType : FType) (pfx : FPrefix) (sub : OptSchema)
    (recs : List WireRecord) (fieldId : Nat)
    (h : ∀ s', sub = OptSchema.some s' → ∀ bs, f s' bs = g s' bs) :
    decodeOneId W f fieldType pfx sub recs fieldId =
      decodeOneId W g fieldType pfx sub recs fieldId := by
  unfold decodeOneId
  dsimp only
  by_cases h0 : groupFieldsByNumber recs fieldId = []
  · rw [if_pos h0, if_pos h0]
  · rw [if_neg h0, if_neg h0]
    by_cases h1 : pfx = FPrefix.repeated
    · rw [if_pos h1, if_pos h1,
        decodeFieldList_congr W f g fieldType sub (groupFieldsByNumber recs fieldId) h]
    · rw [if_neg h1, if_neg h1]
      by_cases h2 : pfx = FPrefix.repeatedPacked
      · rw [if_pos h2, if_pos h2]
        cases hR : (if (groupFieldsByNumber recs fieldId).length > 1 then
            concatFields (groupFieldsByNumber recs fieldId)
          else
            match groupFieldsByNumber recs fieldId with
            | f0 :: _ => Except.ok f0
            | [] => Except.error PyErr.indexError) with
        | error e => rfl
        | ok r =>
          dsimp only
          split_ifs with hw
          · rfl
          · cases r.data with
            | vint n => rfl
            | bytes bs =>
              dsimp only
              cases typeToWireType fieldType with
              | none => rfl
              | some wt =>
                dsimp only
                cases yieldFieldsHeaderless wt fieldId bs with
                | error e => rfl
                | ok unpacked =>
                  dsimp only
                  rw [decodeFieldList_congr W f g fieldType sub unpacked h]
      · rw [if_neg h2, if_neg h2]
        by_cases h3 : (groupFieldsByNumber recs fieldId).length > 1
        · rw [if_pos h3, if_pos h3]
          cases sub with
          | none =>
            dsimp only
            cases (groupFieldsByNumber recs fieldId).getLast? with
            | none => rfl
            | some last =>
              exact decodeField_congr W f g fieldType OptSchema.none last h
          | some s' =>
            dsimp only
            cases concatFields (groupFieldsByNumber recs fieldId) with
            | error e => rfl
            | ok r =>
              dsimp only
              exact decodeField_congr W f g fieldType (OptSchema.some s') r h
        · rw [if_neg h3, if_neg h3]
          cases hg : groupFieldsByNumber recs fieldId with
          | nil => rfl
          | cons f0 frest =>
            dsimp only
            exact decodeField_congr W f g fieldType sub f0 h

theorem decodeIds_congr (W : Nat)
    (f g : Schema → List Nat → Except PyErr (List PyVal))
    (fieldType : FType) (pfx : FPrefix) (sub : OptSchema)
    (recs : List WireRecord) (fids : List Nat)
    (h : ∀ s', sub = OptSchema.some s' → ∀ bs, f s' bs = g s' bs) :
    decodeIds W f fieldType pfx sub recs fids =
      decodeIds W g fieldType pfx sub recs fids := by
  induction fids with
  | nil => rfl
  | cons fid fids ih =>
    unfold decodeIds
    rw [decodeOneId_congr W f g fieldType pfx sub recs fid h, ih]

theorem decodeFields_congr (W : Nat)
    (f g : Schema → List Nat → Except PyErr (List PyVal)) :
    ∀ (s : Schema) (recs : List WireRecord),
    (∀ s', s'.size < s.size → ∀ bs, f s' bs = g s' bs) →
    decodeFields W f s recs = decodeFields W g s recs
  | .nil, _, _ => rfl
  | .cons fld rest, recs, h => by
    unfold decodeFields
    rw [decodeIds_congr W f g fld.fieldType fld.pfx fld.subcontent recs
      (List.range' fld.fieldId fld.rep)
      (fun s' hs' bs => h s' (schemaSize_subcontent_lt fld rest s' hs') bs)]
    rw [decodeFields_congr W f g rest recs
      (fun s' hs' bs => h s' (Nat.lt_trans hs' (schemaSize_tail_lt fld rest)) bs)]
termination_by s => s.size
decreasing_by exact schemaSize_tail_lt fld rest

theorem decodeWireD_fuel_irrelevant :
    ∀ (n : Nat) (W : Nat) (s : Schema), s.size ≤ n →
      ∀ (buf : List Nat) (d1 d2 : Nat), s.size < d1 → s.size < d2 →
      decodeWireD W d1 s buf = decodeWireD W d2 s buf := by
  intro n
  induction n with
  | zero =>
    intro W s hs buf d1 d2 h1 h2
    have := schemaSize_pos s
    omega
  | succ n ih =>
    intro W s hs buf d1 d2 h1 h2
    obtain ⟨d1', rfl⟩ : ∃ d, d1 = d + 1 := ⟨d1 - 1, by omega⟩
    obtain ⟨d2', rfl⟩ : ∃ d, d2 = d + 1 := ⟨d2 - 1, by omega⟩
    simp only [decodeWireD]
    cases yieldFieldsFromWire buf with
    | error e => rfl
    | ok recs =>
      dsimp only
      apply decodeFields_congr
      intro s' hs' bs
      exact ih W s' (by omega) bs d1' d2' (by omega) (by omega)

theorem encodeField_congr (W : Nat)
    (f g : Schema → List PyVal → Except PyErr (List Nat))
    (fieldType : FType) (v : PyVal) (sub : OptSchema)
    (h : ∀ s', sub = OptSchema.some s' → ∀ vs, f s' vs = g s' vs) :
    encodeField W f fieldType v sub = encodeField W g fieldType v sub := by
  unfold encodeField
  match fieldType, sub with
  | .a, .some subs =>
    dsimp only
    cases v with
    | tuple vs =>
      dsimp only
      rw [h subs rfl vs]
    | none => rfl
    | int n => rfl
    | bool b => rfl
    | bytes bs => rfl
    | str cps => rfl
    | f32 bits => rfl
    | f64 bits => rfl
  | .a, .none => rfl
  | .d, _ => rfl
  | .f, _ => rfl
  | .t, _ => rfl
  | .T, _ => rfl
  | .z, _ => rfl
  | .I, _ => rfl
  | .Q, _ => rfl
  | .i, _ => rfl
  | .q, _ => rfl
  | .b, _ => rfl
  | .U, _ => rfl
  | .x, _ => rfl

theorem encodeFieldList_congr (W : Nat)
    (f g : Schema → List PyVal → Except PyErr (List Nat))
    (fieldType : FType) (sub : OptSchema) (vs : List PyVal)
    (h : ∀ s', sub = OptSchema.some s' → ∀ xs, f s' xs = g s' xs) :
    encodeFieldList W f fieldType sub vs = encodeFieldList W g fieldType sub vs := by
  induction vs with
  | nil => rfl
  | cons v vs ih =>
    unfold encodeFieldList
    rw [encodeField_congr W f g fieldType v sub h, ih]

theorem encodeOneId_congr (W : Nat)
    (f g : Schema → List PyVal → Except PyErr (List Nat))
    (fieldType : FType) (pfx : FPrefix) (sub : OptSchema)
    (stuff : List PyVal) (stuffId fieldId : Nat)
    (h : ∀ s', sub = OptSchema.some s' → ∀ xs, f s' xs = g s' xs) :
    encodeOneId W f fieldType pfx sub stuff stuffId fieldId =
      encodeOneId W g fieldType pfx sub stuff stuffId fieldId := by
  unfold encodeOneId
  cases stuff.get? stuffId with
  | none => rfl
  | some fieldData =>
    dsimp only
    by_cases hx : fieldType = FType.x
    · rw [if_pos hx, if_pos hx]
    · rw [if_neg hx, if_neg hx]
      cases typeToWireType fieldType with
      | none => rfl
      | some wtv =>
        dsimp only
        by_cases hreq : pfx = FPrefix.required ∧ fieldData.isNone = true
        · simp only [if_pos hreq]
        · simp only [if_neg hreq]
          by_cases hnone : fieldData.isNone = true
          · simp only [if_pos hnone]
          · simp only [if_neg hnone]
            by_cases hrep : pfx = FPrefix.repeated
            · simp only [if_pos hrep]
              cases fieldData with
              | tuple objs =>
                dsimp only
                rw [encodeFieldList_congr W f g fieldType sub objs h]
              | none => rfl
              | int n => rfl
              | bool b => rfl
              | bytes bs => rfl
              | str cps => rfl
              | f32 bits => rfl
              | f64 bits => rfl
            · simp only [if_neg hrep]
              by_cases hpacked : pfx = FPrefix.repeatedPacked
              · simp only [if_pos hpacked]
                cases fieldData with
                | tuple objs =>
                  dsimp only
                  rw [encodeFieldList_congr W f g fieldType sub objs h]
                | none => rfl
                | int n => rfl
                | bool b => rfl
                | bytes bs => rfl
                | str cps => rfl
                | f32 bits => rfl
                | f64 bits => rfl
              · simp only [if_neg hpacked]
                rw [encodeField_congr W f g fieldType fieldData sub h]

theorem encodeIds_congr (W : Nat)
    (f g : Schema → List PyVal → Except PyErr (List Nat))
    (fieldType : FType) (pfx : FPrefix) (sub : OptSchema)
    (stuff : List PyVal) (stuffId : Nat) (fids : List Nat)
    (h : ∀ s', sub = OptSchema.some s' → ∀ xs, f s' xs = g s' xs) :
    encodeIds W f fieldType pfx sub stuff stuffId fids =
      encodeIds W g fieldType pfx sub stuff stuffId fids := by
  induction fids generalizing stuffId with
  | nil => rfl
  | cons fid fids ih =>
    unfold encodeIds
    rw [encodeOneId_congr W f g fieldType pfx sub stuff stuffId fid h]
    cases encodeOneId W g fieldType pfx sub stuff stuffId fid with
    | error e => rfl
    | ok r =>
      obtain ⟨bs, stuffId2⟩ := r
      dsimp only
      rw [ih stuffId2]

theorem encodeFields_congr (W : Nat)
    (f g : Schema → List PyVal → Except PyErr (List Nat)) :
    ∀ (s : Schema) (stuff : List PyVal) (stuffId : Nat),
    (∀ s', s'.size < s.size → ∀ xs, f s' xs = g s' xs) →
    encodeFields W f s stuff stuffId = encodeFields W g s stuff stuffId
  | .nil, _, _, _ => rfl
  | .cons fld rest, stuff, stuffId, h => by
    unfold encodeFields
    rw [encodeIds_congr W f g fld.fieldType fld.pfx fld.subcontent stuff stuffId
      (List.range' fld.fieldId fld.rep)
      (fun s' hs' xs => h s' (schemaSize_subcontent_lt fld rest s' hs') xs)]
    cases encodeIds W g fld.fieldType fld.pfx fld.subcontent stuff stuffId
        (List.range' fld.fieldId fld.rep) with
    | error e => rfl
    | ok r =>
      obtain ⟨bs, stuffId2⟩ := r
      dsimp only
      rw [encodeFields_congr W f g rest stuff stuffId2
        (fun s' hs' xs => h s' (Nat.lt_trans hs' (schemaSize_tail_lt fld rest)) xs)]
termination_by s => s.size
decreasing_by exact schemaSize_tail_lt fld rest

theorem encodeWireD_fuel_irrelevant :
    ∀ (n : Nat) (W : Nat) (s : Schema), s.size ≤ n →
      ∀ (stuff : List PyVal) (d1 d2 : Nat), s.size < d1 → s.size < d2 →
      encodeWireD W d1 s stuff = encodeWireD W d2 s stuff := by
  intro n
  induction n with
  | zero =>
    intro W s hs stuff d1 d2 h1 h2
    have := schemaSize_pos s
    omega
  | succ n ih =>
    intro W s hs stuff d1 d2 h1 h2
    obtain ⟨d1', rfl⟩ : ∃ d, d1 = d + 1 := ⟨d1 - 1, by omega⟩
    obtain ⟨d2', rfl⟩ : ∃ d, d2 = d + 1 := ⟨d2 - 1, by omega⟩
    simp only [encodeWireD]
    apply encodeFields_congr
    intro s' hs' xs
    exact ih W s' (by omega) xs d1' d2' (by omega) (by omega)

/- ------------------------------------------------------------------ -/
/- Scalar round trips through the wire representation.                 -/
/- ------------------------------------------------------------------ -/

/-- The domain of each scalar type code at the default two's-complement
width 64: the Python values the encoder serialises losslessly (`t` is
bounded by the width, fixed-width integers by their size, strings hold
valid code points, floats are identified with their IEEE-754 bit
patterns). -/
def scalarDomain : FType → PyVal → Prop
  | .T, .int n => 0 ≤ n
  | .t, .int n => -(2 ^ 63) ≤ n ∧ n < 2 ^ 63
  | .z, .int n => -(2 ^ 63) ≤ n ∧ n < 2 ^ 63
  | .b, .bool _ => True
  | .i, .int n => -(2 ^ 31) ≤ n ∧ n < 2 ^ 31
  | .I, .int n => 0 ≤ n ∧ n < 2 ^ 32
  | .q, .int n => -(2 ^ 63) ≤ n ∧ n < 2 ^ 63
  | .Q, .int n => 0 ≤ n ∧ n < 2 ^ 64
  | .f, .f32 bits => bits < 2 ^ 32
  | .d, .f64 bits => bits < 2 ^ 64
  | .a, .bytes _ => True
  | .U, .str cps => ∀ c ∈ cps, isValidCp c = true
  | _, _ => False

theorem int_emod_two_pow (n M : Int) (hM : 0 < M) (hlo : -M ≤ n) (hhi : n < M) :
    n % M = if 0 ≤ n then n else n + M := by
  split
  · exact Int.emod_eq_of_lt (by assumption) (by omega)
  · calc n % M = (n + M) % M := by simp [Int.add_mul_emod_self_left]
      _ = n + M := Int.emod_eq_of_lt (by omega) (by omega)

theorem scalarDomain_not_none (τ : FType) (v : PyVal) (h : scalarDomain τ v) :
    v.isNone = false := by
  cases τ <;> cases v <;> first | rfl | exact absurd h (by simp [scalarDomain])

theorem scalarDomain_not_x (τ : FType) (v : PyVal) (h : scalarDomain τ v) :
    τ ≠ .x := by
  intro hx
  subst hx
  cases v <;> exact absurd h (by simp [scalarDomain])

/-- Sign reconstruction of `struct.unpack` on a fixed-width signed value. -/
theorem signed_fixed_roundtrip (n : Int) (W : Nat) (hW : 1 ≤ W)
    (hlo : -(2 ^ (W - 1) : Int) ≤ n) (hhi : n < (2 ^ (W - 1) : Int)) :
    (if (n % (2 ^ W : Int)).toNat < 2 ^ (W - 1) then
        (((n % (2 ^ W : Int)).toNat : Nat) : Int)
      else (((n % (2 ^ W : Int)).toNat : Nat) : Int) - 2 ^ W) = n := by
  have hM : (2 : Int) ^ W = 2 ^ (W - 1) * 2 := by
    rw [← pow_succ]
    congr 1
    omega
  have hMpos : (0 : Int) < 2 ^ W := by positivity
  have hcast : (((2 : Nat) ^ (W - 1) : Nat) : Int) = (2 : Int) ^ (W - 1) := by
    push_cast
    ring
  have hmod := int_emod_two_pow n (2 ^ W) hMpos (by omega) (by omega)
  by_cases hn : 0 ≤ n
  · rw [hmod, if_pos hn] at *
    have h1 : (n.toNat : Int) = n := by omega
    rw [if_pos (by omega)]
    omega
  · rw [hmod, if_neg hn] at *
    have h1 : ((n + 2 ^ W).toNat : Int) = n + 2 ^ W := by omega
    rw [if_neg (by omega)]
    omega

/-- Central scalar lemma: for every scalar type code and every value in
its domain, the payload encoder succeeds, the wire-type payload decoder
reads the payload back (leaving trailing bytes), and the scalar decoder
returns the original value. -/
theorem scalar_roundtrip (τ : FType) (wt : Nat) (v : PyVal) (rest : List Nat)
    (hwt : typeToWireType τ = some wt) (hdom : scalarDomain τ v) :
    ∃ payload d, encodeScalarToBytes τ v 64 = .ok payload ∧
      wireTypeDecode wt (payload ++ rest) = .ok (d, rest) ∧
      decodeScalarFromBytes τ d 64 = .ok v := by
  match τ, v with
  | .T, .int n =>
    have hn : 0 ≤ n := hdom
    obtain rfl : wt = 0 := by cases hwt; rfl
    refine ⟨encodeVint n.toNat, .vint n.toNat, ?_, ?_, ?_⟩
    · unfold encodeScalarToBytes
      dsimp only
      rw [if_neg (by omega)]
    · unfold wireTypeDecode
      rw [if_pos rfl, decodeVint_encodeVint]
    · unfold decodeScalarFromBytes
      dsimp only
      have h1 : ((n.toNat : Nat) : Int) = n := by omega
      rw [h1]
  | .t, .int n =>
    obtain ⟨hlo, hhi⟩ := hdom
    obtain rfl : wt = 0 := by cases hwt; rfl
    refine ⟨encodeVint (vintSignedTo2sc n 64), .vint (vintSignedTo2sc n 64),
      rfl, ?_, ?_⟩
    · unfold wireTypeDecode
      rw [if_pos rfl, decodeVint_encodeVint]
    · unfold decodeScalarFromBytes
      dsimp only
      rw [twosComplement_roundtrip 64 n (by norm_num)
        (by norm_num; norm_num at hlo; omega) (by norm_num; norm_num at hhi; omega)]
  | .z, .int n =>
    obtain ⟨hlo, hhi⟩ := hdom
    obtain rfl : wt = 0 := by cases hwt; rfl
    refine ⟨encodeVint (vintZigzagify n).toNat, .vint (vintZigzagify n).toNat,
      rfl, ?_, ?_⟩
    · unfold wireTypeDecode
      rw [if_pos rfl, decodeVint_encodeVint]
    · unfold decodeScalarFromBytes
      dsimp only
      rw [zigzag_roundtrip n hlo hhi]
  | .b, .bool v =>
    obtain rfl : wt = 0 := by cases hwt; rfl
    refine ⟨encodeVint (if v then 1 else 0), .vint (if v then 1 else 0),
      rfl, ?_, ?_⟩
    · unfold wireTypeDecode
      rw [if_pos rfl, decodeVint_encodeVint]
    · unfold decodeScalarFromBytes
      cases v <;> rfl
  | .i, .int n =>
    obtain ⟨hlo, hhi⟩ := hdom
    obtain rfl : wt = 5 := by cases hwt; rfl
    have hmodpos : (0 : Int) ≤ n % 2 ^ 32 := Int.emod_nonneg n (by norm_num)
    have hmodlt : n % 2 ^ 32 < 2 ^ 32 := Int.emod_lt_of_pos n (by norm_num)
    refine ⟨packLE 4 (n % 2 ^ 32).toNat, .bytes (packLE 4 (n % 2 ^ 32).toNat),
      ?_, ?_, ?_⟩
    · unfold encodeScalarToBytes
      dsimp only
      rw [if_pos ⟨hlo, hhi⟩]
    · unfold wireTypeDecode
      norm_num
      rw [readFixed_append _ rest 4 (packLE_length 4 _)]
    · unfold decodeScalarFromBytes
      dsimp only
      rw [if_neg (by rw [packLE_length]; omega)]
      have hun : unpackLE (packLE 4 (n % 2 ^ 32).toNat) = (n % 2 ^ 32).toNat := by
        apply unpackLE_packLE
        norm_num
        omega
      rw [hun]
      have hs := signed_fixed_roundtrip n 32 (by norm_num)
        (by norm_num; norm_num at hlo; omega) (by norm_num; norm_num at hhi; omega)
      norm_num at hs ⊢
      rw [hs]
  | .I, .int n =>
    obtain ⟨hlo, hhi⟩ := hdom
    obtain rfl : wt = 5 := by cases hwt; rfl
    refine ⟨packLE 4 n.toNat, .bytes (packLE 4 n.toNat), ?_, ?_, ?_⟩
    · unfold encodeScalarToBytes
      dsimp only
      rw [if_pos ⟨hlo, hhi⟩]
    · unfold wireTypeDecode
      norm_num
      rw [readFixed_append _ rest 4 (packLE_length 4 _)]
    · unfold decodeScalarFromBytes
      dsimp only
      rw [if_neg (by rw [packLE_length]; omega)]
      have hun : unpackLE (packLE 4 n.toNat) = n.toNat := by
        apply unpackLE_packLE
        norm_num
        omega
      rw [hun]
      have h1 : ((n.toNat : Nat) : Int) = n := by omega
      rw [h1]
  | .q, .int n =>
    obtain ⟨hlo, hhi⟩ := hdom
    obtain rfl : wt = 1 := by cases hwt; rfl
    have hmodpos : (0 : Int) ≤ n % 2 ^ 64 := Int.emod_nonneg n (by norm_num)
    have hmodlt : n % 2 ^ 64 < 2 ^ 64 := Int.emod_lt_of_pos n (by norm_num)
    refine ⟨packLE 8 (n % 2 ^ 64).toNat, .bytes (packLE 8 (n % 2 ^ 64).toNat),
      ?_, ?_, ?_⟩
    · unfold encodeScalarToBytes
      dsimp only
      rw [if_pos ⟨hlo, hhi⟩]
    · unfold wireTypeDecode
      norm_num
      rw [readFixed_append _ rest 8 (packLE_length 8 _)]
    · unfold decodeScalarFromBytes
      dsimp only
      rw [if_neg (by rw [packLE_length]; omega)]
      have hun : unpackLE (packLE 8 (n % 2 ^ 64).toNat) = (n % 2 ^ 64).toNat := by
        apply unpackLE_packLE
        norm_num
        omega
      rw [hun]
      have hs := signed_fixed_roundtrip n 64 (by norm_num)
        (by norm_num; norm_num at hlo; omega) (by norm_num; norm_num at hhi; omega)
      norm_num at hs ⊢
      rw [hs]
  | .Q, .int n =>
    obtain ⟨hlo, hhi⟩ := hdom
    obtain rfl : wt = 1 := by cases hwt; rfl
    refine ⟨packLE 8 n.toNat, .bytes (packLE 8 n.toNat), ?_, ?_, ?_⟩
    · unfold encodeScalarToBytes
      dsimp only
      rw [if_pos ⟨hlo, hhi⟩]
    · unfold wireTypeDecode
      norm_num
      rw [readFixed_append _ rest 8 (packLE_length 8 _)]
    · unfold decodeScalarFromBytes
      dsimp only
      rw [if_neg (by rw [packLE_length]; omega)]
      have hun : unpackLE (packLE 8 n.toNat) = n.toNat := by
        apply unpackLE_packLE
        norm_num
        omega
      rw [hun]
      have h1 : ((n.toNat : Nat) : Int) = n := by omega
      rw [h1]
  | .f, .f32 bits =>
    have hlt : bits < 2 ^ 32 := hdom
    obtain rfl : wt = 5 := by cases hwt; rfl
    refine ⟨packLE 4 bits, .bytes (packLE 4 bits), ?_, ?_, ?_⟩
    · unfold encodeScalarToBytes
      dsimp only
      rw [if_pos hlt]
    · unfold wireTypeDecode
      norm_num
      rw [readFixed_append _ rest 4 (packLE_length 4 _)]
    · unfold decodeScalarFromBytes
      dsimp only
      rw [if_neg (by rw [packLE_length]; omega)]
      rw [unpackLE_packLE 4 bits (by norm_num; norm_num at hlt; omega)]
  | .d, .f64 bits =>
    have hlt : bits < 2 ^ 64 := hdom
    obtain rfl : wt = 1 := by cases hwt; rfl
    refine ⟨packLE 8 bits, .bytes (packLE 8 bits), ?_, ?_, ?_⟩
    · unfold encodeScalarToBytes
      dsimp only
      rw [if_pos hlt]
    · unfold wireTypeDecode
      norm_num
      rw [readFixed_append _ rest 8 (packLE_length 8 _)]
    · unfold decodeScalarFromBytes
      dsimp only
      rw [if_neg (by rw [packLE_length]; omega)]
      rw [unpackLE_packLE 8 bits (by norm_num; norm_num at hlt; omega)]
  | .a, .bytes bs =>
    obtain rfl : wt = 2 := by cases hwt; rfl
    refine ⟨encodeBytes bs, .bytes bs, rfl, ?_, rfl⟩
    unfold wireTypeDecode
    norm_num
    rw [decodeBytes_encodeBytes]
  | .U, .str cps =>
    have hval : ∀ c ∈ cps, isValidCp c = true := hdom
    obtain rfl : wt = 2 := by cases hwt; rfl
    refine ⟨encodeBytes (utf8Encode cps), .bytes (utf8Encode cps), ?_, ?_, ?_⟩
    · unfold encodeScalarToBytes
      dsimp only
      rw [if_pos (List.all_eq_true.mpr hval)]
    · unfold wireTypeDecode
      norm_num
      rw [decodeBytes_encodeBytes]
    · unfold decodeScalarFromBytes
      dsimp only
      rw [utf8Decode_utf8Encode cps hval]


theorem typeToWireType_known (τ : FType) (wt : Nat) (h : typeToWireType τ = some wt) :
    knownWireType wt := by
  cases τ <;> simp only [typeToWireType, Option.some.injEq, reduceCtorEq] at h <;>
    simp [knownWireType, ← h]

theorem typeToWireType_ne_x (τ : FType) (wt : Nat) (h : typeToWireType τ = some wt) :
    τ ≠ FType.x := by
  intro hx
  subst hx
  exact Option.noConfusion h

theorem encodeWireD_succ (W d : Nat) (s : Schema) (stuff : List PyVal) :
    encodeWireD W (d + 1) s stuff = encodeFields W (encodeWireD W d) s stuff 0 := rfl

theorem decodeWireD_succ (W d : Nat) (s : Schema) (buf : List Nat) :
    decodeWireD W (d + 1) s buf =
      match yieldFieldsFromWire buf with
      | .error e => .error e
      | .ok recs => decodeFields W (decodeWireD W d) s recs := rfl

theorem encodeField_noSub (W : Nat) (f : Schema → List PyVal → Except PyErr (List Nat))
    (τ : FType) (v : PyVal) :
    encodeField W f τ v .none = encodeScalarToBytes τ v W := by
  cases τ <;> rfl

theorem decodeField_noSub (W : Nat) (f : Schema → List Nat → Except PyErr (List PyVal))
    (τ : FType) (wt fid : Nat) (d : WireData)
    (hwt : typeToWireType τ = some wt) :
    decodeField W f τ .none ⟨fid, wt, d⟩ = decodeScalarFromBytes τ d W := by
  unfold decodeField
  rw [hwt]
  dsimp only
  rw [if_neg (by simp)]
  cases τ <;> rfl

theorem encodeOneId_scalar (W : Nat) (f : Schema → List PyVal → Except PyErr (List Nat))
    (τ : FType) (pfx : FPrefix) (wt : Nat) (v : PyVal) (stuff : List PyVal)
    (stuffId fid : Nat)
    (hpfx : pfx = FPrefix.pnone ∨ pfx = FPrefix.required)
    (hget : stuff.get? stuffId = some v)
    (hwt : typeToWireType τ = some wt)
    (hdom : scalarDomain τ v) :
    encodeOneId W f τ pfx .none stuff stuffId fid =
      match encodeScalarToBytes τ v W with
      | .error e => .error e
      | .ok enc => .ok (encodeHeader wt fid ++ enc, stuffId + 1) := by
  have hx : τ ≠ FType.x := scalarDomain_not_x τ v hdom
  have hnone := scalarDomain_not_none τ v hdom
  unfold encodeOneId
  rw [hget]
  dsimp only
  rw [if_neg hx, hwt]
  dsimp only
  rw [if_neg (by simp [hnone]), if_neg (by simp [hnone])]
  rw [if_neg (by rcases hpfx with h | h <;> simp [h]),
    if_neg (by rcases hpfx with h | h <;> simp [h])]
  rw [encodeField_noSub]
  simp only [show (if pfx = FPrefix.repeatedPacked then 2 else wt) = wt by
    rcases hpfx with h | h <;> simp [h]]

theorem groupFieldsByNumber_single (fid wt : Nat) (d : WireData) :
    groupFieldsByNumber [⟨fid, wt, d⟩] fid = [⟨fid, wt, d⟩] := by
  simp [groupFieldsByNumber]

theorem decodeOneId_single (W : Nat) (f : Schema → List Nat → Except PyErr (List PyVal))
    (τ : FType) (pfx : FPrefix) (wt fid : Nat) (d : WireData) (v : PyVal)
    (hpfx : pfx = FPrefix.pnone ∨ pfx = FPrefix.required)
    (hwt : typeToWireType τ = some wt)
    (hdec : decodeScalarFromBytes τ d W = .ok v) :
    decodeOneId W f τ pfx .none [⟨fid, wt, d⟩] fid = .ok v := by
  unfold decodeOneId
  dsimp only
  rw [groupFieldsByNumber_single]
  rw [if_neg (by simp), if_neg (by rcases hpfx with h | h <;> simp [h]),
    if_neg (by rcases hpfx with h | h <;> simp [h]), if_neg (by simp)]
  dsimp only
  rw [decodeField_noSub W f τ wt fid d hwt, hdec]

/-- One-field positional encode: header then scalar payload. -/
theorem encodeWire_single (τ : FType) (pfx : FPrefix) (wt fid : Nat) (v : PyVal)
    (payload : List Nat)
    (hpfx : pfx = FPrefix.pnone ∨ pfx = FPrefix.required)
    (hwt : typeToWireType τ = some wt)
    (hdom : scalarDomain τ v)
    (henc : encodeScalarToBytes τ v 64 = .ok payload) :
    encodeWire 64 (Schema.cons (.mk fid τ pfx 1 .none) .nil) [v] =
      .ok (encodeHeader wt fid ++ payload) := by
  show encodeWireD 64 _ _ _ = _
  rw [encodeWireD_succ]
  simp only [encodeFields, FieldFmt.fieldType, FieldFmt.pfx, FieldFmt.subcontent,
    FieldFmt.fieldId, FieldFmt.rep]
  rw [show List.range' fid 1 = [fid] from rfl]
  simp only [encodeIds]
  rw [encodeOneId_scalar 64 _ τ pfx wt v [v] 0 fid hpfx rfl hwt hdom, henc]
  simp [encodeIds, encodeFields]

/-- One-field positional decode of a single complete record. -/
theorem decodeWire_single (τ : FType) (pfx : FPrefix) (wt fid : Nat) (d : WireData)
    (v : PyVal) (payload : List Nat)
    (hpfx : pfx = FPrefix.pnone ∨ pfx = FPrefix.required)
    (hwt : typeToWireType τ = some wt)
    (hdec : wireTypeDecode wt (payload ++ []) = .ok (d, []))
    (hscalar : decodeScalarFromBytes τ d 64 = .ok v) :
    decodeWire 64 (Schema.cons (.mk fid τ pfx 1 .none) .nil)
      (encodeHeader wt fid ++ payload) = .ok [v] := by
  show decodeWireD 64 _ _ _ = _
  rw [decodeWireD_succ]
  have hy := yieldFieldsFromWire_cons ⟨fid, wt, d⟩ payload []
    (typeToWireType_known τ wt hwt) hdec
  rw [show encodeHeader wt fid ++ payload = encodeHeader wt fid ++ payload ++ [] by simp]
  rw [hy]
  rw [show yieldFieldsFromWire [] = .ok [] from rfl]
  dsimp only
  simp only [decodeFields, FieldFmt.fieldType, FieldFmt.pfx, FieldFmt.subcontent,
    FieldFmt.fieldId, FieldFmt.rep]
  rw [show List.range' fid 1 = [fid] from rfl]
  simp only [decodeIds]
  rw [if_neg (typeToWireType_ne_x τ wt hwt)]
  rw [decodeOneId_single 64 _ τ pfx wt fid d v hpfx hwt hscalar]
  simp [decodeIds, decodeFields]

/-- C1: for every scalar type code τ in the supported set and every value
v in τ's domain, decoding the encoding of v under a single-field schema of
type τ returns v; boolean fields decode any non-zero varint on the wire
as true. -/
theorem c1_scalar_roundtrip_wire :
    (∀ (τ : FType) (wt fid : Nat) (v : PyVal),
      typeToWireType τ = some wt → scalarDomain τ v →
      ∃ w, encodeWire 64 (Schema.cons (.mk fid τ .pnone 1 .none) .nil) [v] = .ok w ∧
        decodeWire 64 (Schema.cons (.mk fid τ .pnone 1 .none) .nil) w = .ok [v]) ∧
    (∀ (n fid : Nat),
      decodeWire 64 (Schema.cons (.mk fid .b .pnone 1 .none) .nil)
        (encodeHeader 0 fid ++ encodeVint n) = .ok [.bool (n != 0)]) := by
  constructor
  · intro τ wt fid v hwt hdom
    obtain ⟨payload, d, henc, hdec, hscalar⟩ := scalar_roundtrip τ wt v [] hwt hdom
    exact ⟨encodeHeader wt fid ++ payload,
      encodeWire_single τ .pnone wt fid v payload (Or.inl rfl) hwt hdom henc,
      decodeWire_single τ .pnone wt fid d v payload (Or.inl rfl) hwt hdec hscalar⟩
  · intro n fid
    apply decodeWire_single .b .pnone 0 fid (.vint n) (.bool (n != 0)) (encodeVint n)
      (Or.inl rfl) rfl ?_ rfl
    show wireTypeDecode 0 (encodeVint n ++ []) = .ok (.vint n, [])
    unfold wireTypeDecode
    rw [if_pos rfl, decodeVint_encodeVint]

theorem c1_scalar_roundtrip_wire_witness :
    typeToWireType .T = some 0 ∧ scalarDomain .T (.int 150) ∧
    (∃ w, encodeWire 64 (Schema.cons (.mk 1 .T .pnone 1 .none) .nil) [.int 150] = .ok w ∧
      decodeWire 64 (Schema.cons (.mk 1 .T .pnone 1 .none) .nil) w = .ok [.int 150]) ∧
    decodeWire 64 (Schema.cons (.mk 1 .b .pnone 1 .none) .nil)
      (encodeHeader 0 1 ++ encodeVint 3) = .ok [.bool true] :=
  ⟨rfl, (by norm_num : (0 : Int) ≤ 150),
   c1_scalar_roundtrip_wire.1 .T 0 1 (.int 150) rfl (by norm_num : (0 : Int) ≤ 150),
   c1_scalar_roundtrip_wire.2 3 1⟩



theorem groupFieldsByNumber_eq_nil (recs : List WireRecord) (fid : Nat)
    (h : ∀ r ∈ recs, r.id ≠ fid) : groupFieldsByNumber recs fid = [] := by
  simp only [groupFieldsByNumber, List.filter_eq_nil]
  intro r hr
  simp [h r hr]

/-- Encoding a `None` into a required scalar field reports the dedicated
`CodecError`. -/
theorem encodeWire_required_none (τ : FType) (wt fid : Nat)
    (hwt : typeToWireType τ = some wt) :
    encodeWire 64 (Schema.cons (.mk fid τ .required 1 .none) .nil) [.none] =
      .error (.codec "Required field cannot be None.") := by
  show encodeWireD 64 _ _ _ = _
  rw [encodeWireD_succ]
  simp only [encodeFields, FieldFmt.fieldType, FieldFmt.pfx, FieldFmt.subcontent,
    FieldFmt.fieldId, FieldFmt.rep]
  rw [show List.range' fid 1 = [fid] from rfl]
  simp only [encodeIds]
  have h1 : encodeOneId 64 (encodeWireD 64
      (Schema.cons (.mk fid τ .required 1 .none) .nil).size) τ .required .none
      [PyVal.none] 0 fid = .error (.codec "Required field cannot be None.") := by
    unfold encodeOneId
    rw [show ([PyVal.none].get? 0) = some PyVal.none from rfl]
    dsimp only
    rw [if_neg (typeToWireType_ne_x τ wt hwt), hwt]
    dsimp only
    rw [if_pos ⟨rfl, rfl⟩]
  rw [h1]

/-- Decoding a buffer whose records never carry the required field's
number reports the dedicated `CodecError`. -/
theorem decodeWire_required_missing (τ : FType) (wt fid : Nat) (buf : List Nat)
    (recs : List WireRecord)
    (hwt : typeToWireType τ = some wt)
    (hrecs : yieldFieldsFromWire buf = .ok recs)
    (hmiss : ∀ r ∈ recs, r.id ≠ fid) :
    decodeWire 64 (Schema.cons (.mk fid τ .required 1 .none) .nil) buf =
      .error (.codec ("Field " ++ Nat.repr fid ++ " is required but is empty")) := by
  show decodeWireD 64 _ _ _ = _
  rw [decodeWireD_succ, hrecs]
  dsimp only
  simp only [decodeFields, FieldFmt.fieldType, FieldFmt.pfx, FieldFmt.subcontent,
    FieldFmt.fieldId, FieldFmt.rep]
  rw [show List.range' fid 1 = [fid] from rfl]
  simp only [decodeIds]
  rw [if_neg (typeToWireType_ne_x τ wt hwt)]
  have h1 : decodeOneId 64 (decodeWireD 64
      (Schema.cons (.mk fid τ .required 1 .none) .nil).size) τ .required .none
      recs fid = .error (.codec ("Field " ++ Nat.repr fid ++ " is required but is empty")) := by
    unfold decodeOneId
    dsimp only
    rw [groupFieldsByNumber_eq_nil recs fid hmiss]
    rw [if_pos rfl, if_pos rfl]
  rw [h1]

/-- C7: a required field must be present: encoding `None` in its slot and
decoding a message carrying no record with its field number both raise
`CodecError`; a present in-domain value encodes and decodes back
unchanged. -/
theorem c7_required_field :
    (∀ (τ : FType) (wt fid : Nat), typeToWireType τ = some wt →
      encodeWire 64 (Schema.cons (.mk fid τ .required 1 .none) .nil) [.none] =
        .error (.codec "Required field cannot be None.")) ∧
    (∀ (τ : FType) (wt fid : Nat) (buf : List Nat) (recs : List WireRecord),
      typeToWireType τ = some wt →
      yieldFieldsFromWire buf = .ok recs →
      (∀ r ∈ recs, r.id ≠ fid) →
      decodeWire 64 (Schema.cons (.mk fid τ .required 1 .none) .nil) buf =
        .error (.codec ("Field " ++ Nat.repr fid ++ " is required but is empty"))) ∧
    (∀ (τ : FType) (wt fid : Nat) (v : PyVal),
      typeToWireType τ = some wt → scalarDomain τ v →
      ∃ w, encodeWire 64 (Schema.cons (.mk fid τ .required 1 .none) .nil) [v] = .ok w ∧
        decodeWire 64 (Schema.cons (.mk fid τ .required 1 .none) .nil) w = .ok [v]) := by
  refine ⟨encodeWire_required_none, decodeWire_required_missing, ?_⟩
  intro τ wt fid v hwt hdom
  obtain ⟨payload, d, henc, hdec, hscalar⟩ := scalar_roundtrip τ wt v [] hwt hdom
  exact ⟨encodeHeader wt fid ++ payload,
    encodeWire_single τ .required wt fid v payload (Or.inr rfl) hwt hdom henc,
    decodeWire_single τ .required wt fid d v payload (Or.inr rfl) hwt hdec hscalar⟩

theorem c7_required_field_witness :
    typeToWireType .T = some 0 ∧ scalarDomain .T (.int 150) ∧
    (∀ r ∈ ([] : List WireRecord), r.id ≠ 1) ∧
    encodeWire 64 (Schema.cons (.mk 1 .T .required 1 .none) .nil) [.none] =
      .error (.codec "Required field cannot be None.") ∧
    decodeWire 64 (Schema.cons (.mk 1 .T .required 1 .none) .nil) [] =
      .error (.codec "Field 1 is required but is empty") ∧
    (∃ w, encodeWire 64 (Schema.cons (.mk 1 .T .required 1 .none) .nil) [.int 150] = .ok w ∧
      decodeWire 64 (Schema.cons (.mk 1 .T .required 1 .none) .nil) w = .ok [.int 150]) :=
  ⟨rfl, (by norm_num : (0 : Int) ≤ 150), by simp,
   c7_required_field.1 .T 0 1 rfl,
   c7_required_field.2.1 .T 0 1 [] [] rfl rfl (by simp),
   c7_required_field.2.2 .T 0 1 (.int 150) rfl (by norm_num : (0 : Int) ≤ 150)⟩



theorem concatFieldsData_map (fid : Nat) (bss : List (List Nat)) :
    concatFieldsData (bss.map (fun bs => ⟨fid, 2, WireData.bytes bs⟩)) fid 2 =
      .ok bss.join := by
  induction bss with
  | nil => rfl
  | cons bs rest ih =>
    simp only [List.map_cons, concatFieldsData]
    rw [if_pos (by simp)]
    try dsimp only
    rw [ih]
    simp [List.join]

theorem concatFields_map (fid : Nat) (bs0 : List Nat) (bss : List (List Nat)) :
    concatFields ((bs0 :: bss).map (fun bs => ⟨fid, 2, WireData.bytes bs⟩)) =
      .ok ⟨fid, 2, .bytes ((bs0 :: bss).join)⟩ := by
  unfold concatFields
  simp only [List.map_cons]
  try dsimp only
  rw [show (⟨fid, 2, WireData.bytes bs0⟩ : WireRecord) ::
      List.map (fun bs => (⟨fid, 2, WireData.bytes bs⟩ : WireRecord)) bss =
      (bs0 :: bss).map (fun bs => ⟨fid, 2, WireData.bytes bs⟩) from rfl]
  rw [concatFieldsData_map fid (bs0 :: bss)]

/-- `Wire._decode_wire` on a singular non-nested field with several
records: the last record's payload is the one decoded. -/
theorem decodeOneId_multi_last (W : Nat)
    (f : Schema → List Nat → Except PyErr (List PyVal))
    (τ : FType) (pfx : FPrefix) (recs : List WireRecord) (fid wt : Nat)
    (last : WireRecord) (v : PyVal)
    (hpfx : pfx = FPrefix.pnone ∨ pfx = FPrefix.required)
    (hwt : typeToWireType τ = some wt)
    (hlen : (groupFieldsByNumber recs fid).length > 1)
    (hlast : (groupFieldsByNumber recs fid).getLast? = some last)
    (hw : last.wire_type = wt)
    (hv : decodeScalarFromBytes τ last.data W = .ok v) :
    decodeOneId W f τ pfx .none recs fid = .ok v := by
  obtain ⟨lid, lwt, ld⟩ := last
  dsimp only at hw hv
  subst hw
  unfold decodeOneId
  try dsimp only
  rw [if_neg (by intro h; rw [h] at hlen; simp at hlen)]
  rw [if_neg (by rcases hpfx with h | h <;> simp [h]),
    if_neg (by rcases hpfx with h | h <;> simp [h])]
  rw [if_pos hlen]
  try dsimp only
  rw [hlast]
  try dsimp only
  rw [decodeField_noSub W f τ lwt lid ld hwt, hv]

/-- `Wire._decode_wire` on a singular nested field with several records:
the payloads are concatenated in order and handed to the nested decoder
once. -/
theorem decodeOneId_multi_concat (W : Nat)
    (f : Schema → List Nat → Except PyErr (List PyVal))
    (pfx : FPrefix) (recs : List WireRecord) (fid : Nat) (sub : Schema)
    (bs0 : List Nat) (bss : List (List Nat)) (vsub : List PyVal)
    (hpfx : pfx = FPrefix.pnone ∨ pfx = FPrefix.required)
    (hgrp : groupFieldsByNumber recs fid =
      (bs0 :: bss).map (fun bs => ⟨fid, 2, WireData.bytes bs⟩))
    (hne : bss ≠ [])
    (hnested : f sub ((bs0 :: bss).join) = .ok vsub) :
    decodeOneId W f .a pfx (.some sub) recs fid = .ok (.tuple vsub) := by
  unfold decodeOneId
  try dsimp only
  rw [hgrp]
  rw [if_neg (by simp)]
  rw [if_neg (by rcases hpfx with h | h <;> simp [h]),
    if_neg (by rcases hpfx with h | h <;> simp [h])]
  rw [if_pos (by simp [List.length_map]; cases bss with | nil => exact absurd rfl hne | cons b bs => simp)]
  try dsimp only
  rw [concatFields_map fid bs0 bss]
  try dsimp only
  unfold decodeField
  rw [show typeToWireType .a = some 2 from rfl]
  try dsimp only
  rw [if_neg (by simp)]
  try dsimp only
  rw [hnested]

/-- C6: multiple records for a singular field (prefix `''` or `*`): with
no subschema the last record's value wins; with a nested subschema the
record payloads are concatenated in order and decoded once as the nested
message. -/
theorem c6_singular_multi_record :
    (∀ (τ : FType) (pfx : FPrefix) (wt fid : Nat) (buf : List Nat)
        (recs : List WireRecord) (last : WireRecord) (v : PyVal),
      pfx = FPrefix.pnone ∨ pfx = FPrefix.required →
      typeToWireType τ = some wt →
      yieldFieldsFromWire buf = .ok recs →
      (groupFieldsByNumber recs fid).length > 1 →
      (groupFieldsByNumber recs fid).getLast? = some last →
      last.wire_type = wt →
      decodeScalarFromBytes τ last.data 64 = .ok v →
      decodeWire 64 (Schema.cons (.mk fid τ pfx 1 .none) .nil) buf = .ok [v]) ∧
    (∀ (pfx : FPrefix) (fid : Nat) (buf : List Nat) (recs : List WireRecord)
        (sub : Schema) (bs0 : List Nat) (bss : List (List Nat)) (vsub : List PyVal),
      pfx = FPrefix.pnone ∨ pfx = FPrefix.required →
      yieldFieldsFromWire buf = .ok recs →
      groupFieldsByNumber recs fid =
        (bs0 :: bss).map (fun bs => ⟨fid, 2, WireData.bytes bs⟩) →
      bss ≠ [] →
      decodeWire 64 sub ((bs0 :: bss).join) = .ok vsub →
      decodeWire 64 (Schema.cons (.mk fid .a pfx 1 (.some sub)) .nil) buf =
        .ok [.tuple vsub]) := by
  constructor
  · intro τ pfx wt fid buf recs last v hpfx hwt hrecs hlen hlast hw hv
    show decodeWireD 64 _ _ _ = _
    rw [decodeWireD_succ, hrecs]
    dsimp only
    simp only [decodeFields, FieldFmt.fieldType, FieldFmt.pfx, FieldFmt.subcontent,
      FieldFmt.fieldId, FieldFmt.rep]
    rw [show List.range' fid 1 = [fid] from rfl]
    simp only [decodeIds]
    rw [if_neg (typeToWireType_ne_x τ wt hwt)]
    rw [decodeOneId_multi_last 64 _ τ pfx recs fid wt last v hpfx hwt hlen hlast hw hv]
    simp [decodeIds, decodeFields]
  · intro pfx fid buf recs sub bs0 bss vsub hpfx hrecs hgrp hne hnested
    show decodeWireD 64 _ _ _ = _
    rw [decodeWireD_succ, hrecs]
    dsimp only
    simp only [decodeFields, FieldFmt.fieldType, FieldFmt.pfx, FieldFmt.subcontent,
      FieldFmt.fieldId, FieldFmt.rep]
    rw [show List.range' fid 1 = [fid] from rfl]
    simp only [decodeIds]
    rw [if_neg (by simp)]
    have hf : decodeWireD 64
        (Schema.cons (.mk fid .a pfx 1 (.some sub)) .nil).size sub
        ((bs0 :: bss).join) = .ok vsub := by
      rw [show (Schema.cons (.mk fid .a pfx 1 (.some sub)) .nil).size =
        2 + sub.size + 1 from rfl]
      rw [decodeWireD_fuel_irrelevant sub.size 64 sub le_rfl _ _ (sub.size + 1)
        (by omega) (by omega)]
      exact hnested
    rw [decodeOneId_multi_concat 64 _ pfx recs fid sub bs0 bss vsub hpfx hgrp hne hf]
    simp [decodeIds, decodeFields]

theorem c6_singular_multi_record_witness :
    (typeToWireType .T = some 0 ∧
      yieldFieldsFromWire [0x08, 1, 0x08, 5] =
        .ok [⟨1, 0, .vint 1⟩, ⟨1, 0, .vint 5⟩] ∧
      (groupFieldsByNumber [⟨1, 0, .vint 1⟩, ⟨1, 0, .vint 5⟩] 1).length > 1 ∧
      decodeWire 64 (Schema.cons (.mk 1 .T .pnone 1 .none) .nil) [0x08, 1, 0x08, 5] =
        .ok [.int 5]) ∧
    (yieldFieldsFromWire [0x0A, 2, 0x08, 1, 0x0A, 2, 0x08, 5] =
        .ok [⟨1, 2, .bytes [0x08, 1]⟩, ⟨1, 2, .bytes [0x08, 5]⟩] ∧
      decodeWire 64 (Schema.cons (.mk 1 .T .pnone 1 .none) .nil) [0x08, 1, 0x08, 5] =
        .ok [.int 5] ∧
      decodeWire 64
        (Schema.cons (.mk 1 .a .pnone 1
          (.some (Schema.cons (.mk 1 .T .pnone 1 .none) .nil))) .nil)
        [0x0A, 2, 0x08, 1, 0x0A, 2, 0x08, 5] = .ok [.tuple [.int 5]]) :=
  ⟨⟨rfl, rfl, by simp [groupFieldsByNumber],
    c6_singular_multi_record.1 .T .pnone 0 1 [0x08, 1, 0x08, 5]
      [⟨1, 0, .vint 1⟩, ⟨1, 0, .vint 5⟩] ⟨1, 0, .vint 5⟩ (.int 5)
      (Or.inl rfl) rfl rfl (by simp [groupFieldsByNumber]) rfl rfl rfl⟩,
   ⟨rfl, rfl,
    c6_singular_multi_record.2 .pnone 1 [0x0A, 2, 0x08, 1, 0x0A, 2, 0x08, 5]
      [⟨1, 2, .bytes [0x08, 1]⟩, ⟨1, 2, .bytes [0x08, 5]⟩]
      (Schema.cons (.mk 1 .T .pnone 1 .none) .nil) [0x08, 1] [[0x08, 5]] [.int 5]
      (Or.inl rfl) rfl rfl (by simp) rfl⟩⟩



/-- Once the continuation flag is set, `_decode_vint` can only fail with
`EndOfMessage(True)`. -/
theorem decodeVintAux_true_ne_false :
    ∀ (buf : List Nat) (ctr acc : Nat),
      decodeVintAux buf ctr acc true ≠ .error false := by
  intro buf
  induction buf with
  | nil => intro ctr acc h; cases h
  | cons b rest ih =>
    intro ctr acc h
    unfold decodeVintAux at h
    dsimp only at h
    split_ifs at h
    exact ih _ _ h

theorem decodeVint_cons_ne_false (b : Nat) (rest : List Nat) :
    decodeVint (b :: rest) ≠ .error false := by
  unfold decodeVint decodeVintAux
  dsimp only
  split_ifs
  · intro h; cases h
  · exact decodeVintAux_true_ne_false _ _ _

theorem readFixed_cons_ne_false (b : Nat) (rest : List Nat) (L : Nat) (hL : 0 < L) :
    readFixed (b :: rest) L ≠ .error false := by
  unfold readFixed
  split_ifs with hc
  · intro h
    injection h with h
    rw [decide_eq_false_iff_not] at h
    apply h
    simp [List.length_take]
    omega
  · intro h; cases h

theorem decodeBytes_cons_ne_false (b : Nat) (rest : List Nat) :
    decodeBytes (b :: rest) ≠ .error false := by
  unfold decodeBytes
  cases hv : decodeVint (b :: rest) with
  | error p =>
    dsimp only
    intro h
    cases h
    exact decodeVint_cons_ne_false b rest hv
  | ok r =>
    obtain ⟨len, mid⟩ := r
    dsimp only
    split_ifs
    · intro h; cases h
    · intro h; cases h

/-- A clean (non-partial) end of message from a payload decoder means the
buffer was empty on entry. -/
theorem wireTypeDecode_error_false (wireType : Nat) (buf : List Nat)
    (hk : knownWireType wireType)
    (h : wireTypeDecode wireType buf = .error false) : buf = [] := by
  cases buf with
  | nil => rfl
  | cons b rest =>
    exfalso
    unfold wireTypeDecode at h
    rcases hk with hw | hw | hw | hw <;> subst hw
    · rw [if_pos rfl] at h
      cases hv : decodeVint (b :: rest) with
      | error p =>
        rw [hv] at h
        dsimp only at h
        cases h
        exact decodeVint_cons_ne_false b rest hv
      | ok r =>
        rw [hv] at h
        obtain ⟨n, mid⟩ := r
        dsimp only at h
        cases h
    · rw [if_neg (by omega), if_pos rfl] at h
      cases hr : readFixed (b :: rest) 8 with
      | error p =>
        rw [hr] at h
        dsimp only at h
        cases h
        exact readFixed_cons_ne_false b rest 8 (by omega) hr
      | ok r =>
        rw [hr] at h
        obtain ⟨bs, mid⟩ := r
        dsimp only at h
        cases h
    · rw [if_neg (by omega), if_neg (by omega), if_pos rfl] at h
      cases hv : decodeBytes (b :: rest) with
      | error p =>
        rw [hv] at h
        dsimp only at h
        cases h
        exact decodeBytes_cons_ne_false b rest hv
      | ok r =>
        rw [hv] at h
        obtain ⟨bs, mid⟩ := r
        dsimp only at h
        cases h
    · rw [if_neg (by omega), if_neg (by omega), if_neg (by omega), if_pos rfl] at h
      cases hr : readFixed (b :: rest) 4 with
      | error p =>
        rw [hr] at h
        dsimp only at h
        cases h
        exact readFixed_cons_ne_false b rest 4 (by omega) hr
      | ok r =>
        rw [hr] at h
        obtain ⟨bs, mid⟩ := r
        dsimp only at h
        cases h

/-- Headerless unpacking of a concatenation of two cleanly decodable
payload sequences is the concatenation of the two unpackings. -/
theorem yieldHeaderless_append :
    ∀ (n wireType fieldNumber : Nat) (b1 b2 : List Nat)
      (rs1 rs2 : List WireRecord), b1.length ≤ n →
      yieldFieldsHeaderless wireType fieldNumber b1 = .ok rs1 →
      yieldFieldsHeaderless wireType fieldNumber b2 = .ok rs2 →
      yieldFieldsHeaderless wireType fieldNumber (b1 ++ b2) = .ok (rs1 ++ rs2) := by
  intro n
  induction n with
  | zero =>
    intro wireType fieldNumber b1 b2 rs1 rs2 hn h1 h2
    have hbuf : b1 = [] := List.length_eq_zero.mp (by omega)
    subst hbuf
    have hk : knownWireType wireType := by
      by_contra hk
      unfold yieldFieldsHeaderless yieldHeaderlessAux at h1
      rw [if_neg hk] at h1
      cases h1
    unfold yieldFieldsHeaderless yieldHeaderlessAux at h1
    rw [if_pos hk, wireTypeDecode_nil wireType hk] at h1
    dsimp only at h1
    cases h1
    simpa using h2
  | succ n ih =>
    intro wireType fieldNumber b1 b2 rs1 rs2 hn h1 h2
    have hk : knownWireType wireType := by
      by_contra hk
      unfold yieldFieldsHeaderless yieldHeaderlessAux at h1
      rw [if_neg hk] at h1
      cases h1
    unfold yieldFieldsHeaderless yieldHeaderlessAux at h1
    rw [if_pos hk] at h1
    cases hd : wireTypeDecode wireType b1 with
    | error part =>
      rw [hd] at h1
      dsimp only at h1
      cases part with
      | true => cases h1
      | false =>
        cases h1
        have hb1 : b1 = [] := wireTypeDecode_error_false wireType b1 hk hd
        subst hb1
        simpa using h2
    | ok dr =>
      obtain ⟨data, rest⟩ := dr
      rw [hd] at h1
      dsimp only at h1
      have hrest := wireTypeDecode_length_lt wireType b1 data rest hk hd
      cases htail : yieldHeaderlessAux b1.length wireType fieldNumber rest with
      | error e => rw [htail] at h1; cases h1
      | ok tail =>
        rw [htail] at h1
        dsimp only at h1
        cases h1
        have htail' : yieldFieldsHeaderless wireType fieldNumber rest = .ok tail := by
          rw [← yieldHeaderlessAux_eq wireType fieldNumber rest b1.length (by omega)]
          exact htail
        have hih := ih wireType fieldNumber rest b2 tail rs2 (by omega) htail' h2
        unfold yieldFieldsHeaderless yieldHeaderlessAux
        rw [if_pos hk]
        rw [wireTypeDecode_pfx wireType b1 b2 data rest hd]
        dsimp only
        rw [yieldHeaderlessAux_eq wireType fieldNumber (rest ++ b2)
          ((b1 ++ b2).length) (by simp; omega)]
        rw [hih]
        rfl

/-- `tuple(decode one record per element)` splits over list concatenation. -/
theorem decodeFieldList_append (W : Nat)
    (f : Schema → List Nat → Except PyErr (List PyVal))
    (τ : FType) (sub : OptSchema) (rs1 rs2 : List WireRecord)
    (vs1 vs2 : List PyVal)
    (h1 : decodeFieldList W f τ sub rs1 = .ok vs1)
    (h2 : decodeFieldList W f τ sub rs2 = .ok vs2) :
    decodeFieldList W f τ sub (rs1 ++ rs2) = .ok (vs1 ++ vs2) := by
  induction rs1 generalizing vs1 with
  | nil =>
    cases h1
    simpa using h2
  | cons r rs ih =>
    unfold decodeFieldList at h1 ⊢
    cases hr : decodeField W f τ sub r with
    | error e => rw [hr] at h1; cases h1
    | ok v =>
      rw [hr] at h1
      try dsimp only at h1
      cases hrs : decodeFieldList W f τ sub rs with
      | error e => rw [hrs] at h1; cases h1
      | ok vs =>
        rw [hrs] at h1
        cases h1
        rw [List.cons_append]
        dsimp only
        rw [hr]
        dsimp only
        rw [ih vs hrs]
        rfl

theorem wireTypeDecode_2 (bs rest : List Nat) :
    wireTypeDecode 2 (encodeBytes bs ++ rest) = .ok (.bytes bs, rest) := by
  unfold wireTypeDecode
  rw [if_neg (by omega), if_neg (by omega), if_pos rfl, decodeBytes_encodeBytes]

theorem yieldFields_single_bytes (fid : Nat) (b : List Nat) :
    yieldFieldsFromWire (encodeHeader 2 fid ++ encodeBytes b) =
      .ok [⟨fid, 2, .bytes b⟩] := by
  have h := yieldFieldsFromWire_cons ⟨fid, 2, .bytes b⟩ (encodeBytes b) []
    (Or.inr (Or.inr (Or.inl rfl))) (wireTypeDecode_2 b [])
  rw [show (yieldFieldsFromWire []) = .ok [] from rfl] at h
  simpa using h

theorem yieldFields_two_bytes (fid : Nat) (b1 b2 : List Nat) :
    yieldFieldsFromWire (encodeHeader 2 fid ++ encodeBytes b1 ++
        (encodeHeader 2 fid ++ encodeBytes b2)) =
      .ok [⟨fid, 2, .bytes b1⟩, ⟨fid, 2, .bytes b2⟩] := by
  have h := yieldFieldsFromWire_cons ⟨fid, 2, .bytes b1⟩ (encodeBytes b1)
    (encodeHeader 2 fid ++ encodeBytes b2)
    (Or.inr (Or.inr (Or.inl rfl)))
    (wireTypeDecode_2 b1 (encodeHeader 2 fid ++ encodeBytes b2))
  rw [yieldFields_single_bytes fid b2] at h
  simpa using h

/-- The packed-repeated branch of the `Wire._decode_wire` field loop, for
a group of length-delimited records: concatenate the payloads (a single
record is taken as is), unpack the concatenation headerless, and decode
the elements into a tuple. -/
theorem decodeOneId_packed (W : Nat)
    (f : Schema → List Nat → Except PyErr (List PyVal))
    (τ : FType) (recs : List WireRecord) (fid wt : Nat)
    (bs0 : List Nat) (bss : List (List Nat))
    (hwt : typeToWireType τ = some wt)
    (hgrp : groupFieldsByNumber recs fid =
      (bs0 :: bss).map (fun bs => ⟨fid, 2, WireData.bytes bs⟩)) :
    decodeOneId W f τ .repeatedPacked .none recs fid =
      match yieldFieldsHeaderless wt fid ((bs0 :: bss).join) with
      | .error e => .error e
      | .ok unpacked =>
        match decodeFieldList W f τ .none unpacked with
        | .error e => .error e
        | .ok vs => .ok (.tuple vs) := by
  unfold decodeOneId
  dsimp only
  rw [hgrp]
  rw [if_neg (by simp), if_neg (by simp), if_pos rfl]
  by_cases hbss : bss = []
  · subst hbss
    rw [if_neg (by simp)]
    simp only [List.map_cons, List.map_nil]
    try dsimp only
    rw [if_neg (by simp), hwt]
    rw [show ([bs0] : List (List Nat)).join = bs0 by simp]
  · rw [if_pos (by
      simp only [List.length_map, List.length_cons]
      cases bss with
      | nil => exact absurd rfl hbss
      | cons b bs => simp)]
    rw [concatFields_map fid bs0 bss]
    dsimp only
    rw [if_neg (by simp), hwt]

/-- The packed-repeated branch on a single record of the wrong wire
type. -/
theorem decodeOneId_packed_badwt (W : Nat)
    (f : Schema → List Nat → Except PyErr (List PyVal))
    (τ : FType) (recs : List WireRecord) (fid : Nat) (r : WireRecord)
    (hgrp : groupFieldsByNumber recs fid = [r])
    (hw : r.wire_type ≠ 2) :
    decodeOneId W f τ .repeatedPacked .none recs fid =
      .error (.codec ("Packed repeated field " ++ Nat.repr fid ++
        " has wire type other than str")) := by
  unfold decodeOneId
  dsimp only
  rw [hgrp]
  rw [if_neg (by simp), if_neg (by simp), if_pos rfl, if_neg (by simp)]
  dsimp only
  rw [if_pos hw]

/-- The packed-repeated branch on several records the first of which has a
varint payload: `_concat_fields` raises `TypeError` writing the `int` into
the byte buffer. -/
theorem decodeOneId_packed_multi_vint (W : Nat)
    (f : Schema → List Nat → Except PyErr (List PyVal))
    (τ : FType) (recs : List WireRecord) (fid n : Nat)
    (r0 r1 : WireRecord) (rest : List WireRecord)
    (hgrp : groupFieldsByNumber recs fid = r0 :: r1 :: rest)
    (hd : r0.data = .vint n) :
    decodeOneId W f τ .repeatedPacked .none recs fid =
      .error (.typeError "a bytes-like object is required, not int") := by
  unfold decodeOneId
  dsimp only
  rw [hgrp]
  rw [if_neg (by simp), if_neg (by simp), if_pos rfl, if_pos (by simp)]
  unfold concatFields
  dsimp only
  unfold concatFieldsData
  rw [if_pos ⟨rfl, rfl⟩, hd]

/-- `Wire.decode` over a one-descriptor schema: break the wire down, then
the single field loop pass wraps the field value into a single-element
list. -/
theorem decodeWire_single_field (τ : FType) (pfx : FPrefix) (sub : OptSchema)
    (fid : Nat) (buf : List Nat) (recs : List WireRecord)
    (hx : τ ≠ FType.x)
    (hrecs : yieldFieldsFromWire buf = .ok recs) :
    decodeWire 64 (Schema.cons (.mk fid τ pfx 1 sub) .nil) buf =
      match decodeOneId 64
          (decodeWireD 64 ((Schema.cons (.mk fid τ pfx 1 sub) .nil).size))
          τ pfx sub recs fid with
      | .error e => .error e
      | .ok v => .ok [v] := by
  show decodeWireD 64 _ _ _ = _
  rw [decodeWireD_succ, hrecs]
  dsimp only
  simp only [decodeFields, FieldFmt.fieldType, FieldFmt.pfx, FieldFmt.subcontent,
    FieldFmt.fieldId, FieldFmt.rep]
  rw [show List.range' fid 1 = [fid] from rfl]
  simp only [decodeIds]
  rw [if_neg hx]
  cases ho : decodeOneId 64
      (decodeWireD 64 ((Schema.cons (.mk fid τ pfx 1 sub) .nil).size))
      τ pfx sub recs fid with
  | error e => rfl
  | ok v => simp [decodeIds, decodeFields]

/-- C5 (amended): decoding a packed-repeated field concatenates packed
payloads — both several records in one message and one record carrying the
concatenated payload decode to the concatenation of the individually
decoded element sequences.  A single record of non-length-delimited wire
type raises `CodecError`; but when several records are present and the
first payload is a varint, `_concat_fields` raises `TypeError` (not
`CodecError`) before the wire-type check is reached. -/
theorem c5_packed_concat :
    (∀ (τ : FType) (wt fid : Nat) (b1 b2 : List Nat) (vs1 vs2 : List PyVal),
      typeToWireType τ = some wt →
      decodeWire 64 (Schema.cons (.mk fid τ .repeatedPacked 1 .none) .nil)
        (encodeHeader 2 fid ++ encodeBytes b1) = .ok [.tuple vs1] →
      decodeWire 64 (Schema.cons (.mk fid τ .repeatedPacked 1 .none) .nil)
        (encodeHeader 2 fid ++ encodeBytes b2) = .ok [.tuple vs2] →
      decodeWire 64 (Schema.cons (.mk fid τ .repeatedPacked 1 .none) .nil)
          (encodeHeader 2 fid ++ encodeBytes b1 ++
            (encodeHeader 2 fid ++ encodeBytes b2)) =
        .ok [.tuple (vs1 ++ vs2)] ∧
      decodeWire 64 (Schema.cons (.mk fid τ .repeatedPacked 1 .none) .nil)
          (encodeHeader 2 fid ++ encodeBytes (b1 ++ b2)) =
        .ok [.tuple (vs1 ++ vs2)]) ∧
    (∀ (τ : FType) (wt fid : Nat) (buf : List Nat) (recs : List WireRecord)
        (r : WireRecord),
      typeToWireType τ = some wt →
      yieldFieldsFromWire buf = .ok recs →
      groupFieldsByNumber recs fid = [r] →
      r.wire_type ≠ 2 →
      decodeWire 64 (Schema.cons (.mk fid τ .repeatedPacked 1 .none) .nil) buf =
        .error (.codec ("Packed repeated field " ++ Nat.repr fid ++
          " has wire type other than str"))) ∧
    (∀ (τ : FType) (wt fid n : Nat) (buf : List Nat) (recs : List WireRecord)
        (r0 r1 : WireRecord) (rest : List WireRecord),
      typeToWireType τ = some wt →
      yieldFieldsFromWire buf = .ok recs →
      groupFieldsByNumber recs fid = r0 :: r1 :: rest →
      r0.data = .vint n →
      decodeWire 64 (Schema.cons (.mk fid τ .repeatedPacked 1 .none) .nil) buf =
        .error (.typeError "a bytes-like object is required, not int")) := by
  refine ⟨?_, ?_, ?_⟩
  · intro τ wt fid b1 b2 vs1 vs2 hwt h1 h2
    have hx := typeToWireType_ne_x τ wt hwt
    have hgrp1 : groupFieldsByNumber [⟨fid, 2, WireData.bytes b1⟩] fid =
        ([b1]).map (fun bs => ⟨fid, 2, WireData.bytes bs⟩) := by
      simp [groupFieldsByNumber]
    have hgrp2 : groupFieldsByNumber [⟨fid, 2, WireData.bytes b2⟩] fid =
        ([b2]).map (fun bs => ⟨fid, 2, WireData.bytes bs⟩) := by
      simp [groupFieldsByNumber]
    rw [decodeWire_single_field τ .repeatedPacked .none fid _ _ hx
      (yieldFields_single_bytes fid b1)] at h1
    rw [decodeOneId_packed 64 _ τ _ fid wt b1 [] hwt hgrp1] at h1
    rw [show (([b1] : List (List Nat))).join = b1 by simp] at h1
    rw [decodeWire_single_field τ .repeatedPacked .none fid _ _ hx
      (yieldFields_single_bytes fid b2)] at h2
    rw [decodeOneId_packed 64 _ τ _ fid wt b2 [] hwt hgrp2] at h2
    rw [show (([b2] : List (List Nat))).join = b2 by simp] at h2
    cases hbr1 : yieldFieldsHeaderless wt fid b1 with
    | error e => rw [hbr1] at h1; cases h1
    | ok rs1 =>
      rw [hbr1] at h1
      dsimp only at h1
      cases hfl1 : decodeFieldList 64
          (decodeWireD 64 ((Schema.cons (.mk fid τ .repeatedPacked 1 .none) .nil).size))
          τ .none rs1 with
      | error e => rw [hfl1] at h1; cases h1
      | ok vs1a =>
        rw [hfl1] at h1
        dsimp only at h1
        cases hbr2 : yieldFieldsHeaderless wt fid b2 with
        | error e => rw [hbr2] at h2; cases h2
        | ok rs2 =>
          rw [hbr2] at h2
          dsimp only at h2
          cases hfl2 : decodeFieldList 64
              (decodeWireD 64 ((Schema.cons (.mk fid τ .repeatedPacked 1 .none) .nil).size))
              τ .none rs2 with
          | error e => rw [hfl2] at h2; cases h2
          | ok vs2a =>
            rw [hfl2] at h2
            dsimp only at h2
            have hv1 : vs1a = vs1 := by
              simpa using h1
            have hv2 : vs2a = vs2 := by
              simpa using h2
            rw [← hv1, ← hv2]
            have hbr12 : yieldFieldsHeaderless wt fid (b1 ++ b2) = .ok (rs1 ++ rs2) :=
              yieldHeaderless_append b1.length wt fid b1 b2 rs1 rs2 le_rfl hbr1 hbr2
            have hfl12 := decodeFieldList_append 64
              (decodeWireD 64 ((Schema.cons (.mk fid τ .repeatedPacked 1 .none) .nil).size))
              τ .none rs1 rs2 vs1a vs2a hfl1 hfl2
            constructor
            · rw [decodeWire_single_field τ .repeatedPacked .none fid _ _ hx
                (yieldFields_two_bytes fid b1 b2)]
              rw [decodeOneId_packed 64 _ τ _ fid wt b1 [b2] hwt
                (by simp [groupFieldsByNumber])]
              rw [show (([b1, b2] : List (List Nat))).join = b1 ++ b2 by simp]
              rw [hbr12]
              dsimp only
              rw [hfl12]
            · rw [decodeWire_single_field τ .repeatedPacked .none fid _ _ hx
                (yieldFields_single_bytes fid (b1 ++ b2))]
              rw [decodeOneId_packed 64 _ τ _ fid wt (b1 ++ b2) [] hwt
                (by simp [groupFieldsByNumber])]
              rw [show (([b1 ++ b2] : List (List Nat))).join = b1 ++ b2 by simp]
              rw [hbr12]
              dsimp only
              rw [hfl12]
  · intro τ wt fid buf recs r hwt hrecs hgrp hw
    rw [decodeWire_single_field τ .repeatedPacked .none fid buf recs
      (typeToWireType_ne_x τ wt hwt) hrecs]
    rw [decodeOneId_packed_badwt 64 _ τ recs fid r hgrp hw]
  · intro τ wt fid n buf recs r0 r1 rest hwt hrecs hgrp hd
    rw [decodeWire_single_field τ .repeatedPacked .none fid buf recs
      (typeToWireType_ne_x τ wt hwt) hrecs]
    rw [decodeOneId_packed_multi_vint 64 _ τ recs fid n r0 r1 rest hgrp hd]

theorem c5_packed_concat_witness :
    (decodeWire 64 (Schema.cons (.mk 1 .T .repeatedPacked 1 .none) .nil)
        (encodeHeader 2 1 ++ encodeBytes [3]) = .ok [.tuple [.int 3]]) ∧
    (decodeWire 64 (Schema.cons (.mk 1 .T .repeatedPacked 1 .none) .nil)
        (encodeHeader 2 1 ++ encodeBytes [3] ++ (encodeHeader 2 1 ++ encodeBytes [5])) =
      .ok [.tuple ([.int 3] ++ [.int 5])] ∧
     decodeWire 64 (Schema.cons (.mk 1 .T .repeatedPacked 1 .none) .nil)
        (encodeHeader 2 1 ++ encodeBytes ([3] ++ [5])) =
      .ok [.tuple ([.int 3] ++ [.int 5])]) ∧
    (decodeWire 64 (Schema.cons (.mk 1 .T .repeatedPacked 1 .none) .nil) [0x08, 1] =
      .error (.codec "Packed repeated field 1 has wire type other than str")) ∧
    (decodeWire 64 (Schema.cons (.mk 1 .T .repeatedPacked 1 .none) .nil)
        [0x08, 1, 0x08, 2] =
      .error (.typeError "a bytes-like object is required, not int")) :=
  ⟨rfl,
   c5_packed_concat.1 .T 0 1 [3] [5] [.int 3] [.int 5] rfl rfl rfl,
   c5_packed_concat.2.1 .T 0 1 [0x08, 1] [⟨1, 0, .vint 1⟩] ⟨1, 0, .vint 1⟩
     rfl rfl rfl (by decide),
   c5_packed_concat.2.2 .T 0 1 1 [0x08, 1, 0x08, 2]
     [⟨1, 0, .vint 1⟩, ⟨1, 0, .vint 2⟩] ⟨1, 0, .vint 1⟩ ⟨1, 0, .vint 2⟩ []
     rfl rfl rfl rfl⟩

/-- C5 counterexample to the claimed error class: two varint records for a
packed-repeated field make decode raise `TypeError` (from writing the
`int` payload into the concatenation buffer), not a `CodecError`, so the
"wire type other than length-delimited → CodecError" sentence does not
hold for concatenated records. -/
theorem c5_counterexample :
    decodeWire 64 (Schema.cons (.mk 1 .T .repeatedPacked 1 .none) .nil)
        [0x08, 1, 0x08, 2] =
      .error (.typeError "a bytes-like object is required, not int") ∧
    ∀ msg, (Except.error (PyErr.typeError "a bytes-like object is required, not int") :
      Except PyErr (List PyVal)) ≠ .error (.codec msg) := by
  refine ⟨rfl, ?_⟩
  intro msg h
  simp at h



/- ------------------------------------------------------------------ -/
/- The overlap checker (`_OverlapCheck`).                              -/
/- ------------------------------------------------------------------ -/

/-- `bisect.bisect_right` on a sorted list: the number of elements `≤ x`
(the source only calls it on its sorted endpoint list). -/
def bisectRight (l : List Nat) (x : Nat) : Nat :=
  l.countP (fun y => decide (y ≤ x))

/-- Source `_OverlapCheck._check_overlap`.  The state is `None` before the
first field, then the flat sorted list of interval endpoints
`[s1, e1, s2, e2, ...]`; `none` as result means "overlap found"
(the source returns `False`), otherwise the updated state is returned. -/
def checkOverlap (pf : Option (List Nat)) (start span : Nat) :
    Option (List Nat) :=
  let e := start + span
  match pf with
  | Option.none => some [start, e]
  | Option.some l =>
    if start = l.getLastD 0 then some (l.dropLast ++ [e])
    else if start > l.getLastD 0 then some (l ++ [start, e])
    else if e = l.headD 0 then some (start :: l.tail)
    else if e < l.headD 0 then some (start :: e :: l)
    else
      let offset := bisectRight l start
      if offset % 2 ≠ 0 then Option.none
      else
        let gapStart := l.getD (offset - 1) 0
        let gapEnd := l.getD offset 0
        if e > gapEnd then Option.none
        else if gapStart ≠ start ∧ gapEnd ≠ e then
          some (l.take offset ++ start :: e :: l.drop offset)
        else if gapEnd ≠ e then some (l.set (offset - 1) e)
        else if gapStart ≠ start then some (l.set offset start)
        else some (l.take (offset - 1) ++ l.drop (offset + 1))

/-- The `BadFormatString` message of `_OverlapCheck.add_field` (the
positional parser passes no field name). -/
def addFieldMsg (start rep : Nat) : String :=
  "Multiple definitions found for field " ++ Nat.repr start ++
    (if rep = 1 then "" else
      " or " ++ Nat.repr (rep - 1) ++ " more fields after it") ++ "."

/-- Source `_OverlapCheck.add_field` (without the list append, which the
parser embedding performs itself): check the new field's interval and
update the used-interval state, raising `BadFormatString` on overlap. -/
def addField (ov : Option (List Nat)) (fieldId rep : Nat) :
    Except PyErr (Option (List Nat)) :=
  match checkOverlap ov fieldId rep with
  | Option.none => .error (.badFormatString (addFieldMsg fieldId rep))
  | Option.some ov2 => .ok (Option.some ov2)

/- ------------------------------------------------------------------ -/
/- The format-string parser (`Wire._parse_format_string`).             -/
/- ------------------------------------------------------------------ -/

/-- The keys of `_TYPE_TO_WIRE_TYPE_MAP` (first alternative of `_T_FMT`). -/
def charType : Char → Option FType
  | 'd' => some .d
  | 'f' => some .f
  | 't' => some .t
  | 'T' => some .T
  | 'z' => some .z
  | 'I' => some .I
  | 'Q' => some .Q
  | 'i' => some .i
  | 'q' => some .q
  | 'b' => some .b
  | 'U' => some .U
  | 'a' => some .a
  | 'x' => some .x
  | _ => Option.none

/-- Source `_FIELD_ALIAS` (second alternative of `_T_FMT`). -/
def charAlias : Char → Option FType
  | 'v' => some .z
  | 'V' => some .T
  | 'l' => some .i
  | 'L' => some .I
  | 'u' => some .U
  | _ => Option.none

/-- `\d*`: the longest digit run at the head of the string. -/
def takeDigits : List Char → List Char × List Char
  | [] => ([], [])
  | c :: rest =>
    if c.isDigit then
      let (ds, r) := takeDigits rest
      (c :: ds, r)
    else ([], c :: rest)

/-- `int()` of a digit string. -/
def digitsVal (ds : List Char) : Nat :=
  ds.foldl (fun acc c => 10 * acc + (c.toNat - 48)) 0

/-- Source `_T_PREFIX` (`^([\*\+#]?)(\[?)`): the optional prefix
character, whether a `[` follows, the remaining characters and the matched
length.  A zero-length match always succeeds. -/
def matchPrefix (s : List Char) : FPrefix × Bool × List Char × Nat :=
  let step : FPrefix × List Char × Nat :=
    match s with
    | c :: r =>
      if c = '*' then (FPrefix.required, r, 1)
      else if c = '+' then (FPrefix.repeated, r, 1)
      else if c = '#' then (FPrefix.repeatedPacked, r, 1)
      else (FPrefix.pnone, c :: r, 0)
    | [] => (FPrefix.pnone, [], 0)
  match step.2.1 with
  | c2 :: r2 =>
    if c2 = '[' then (step.1, true, r2, step.2.2 + 1)
    else (step.1, false, c2 :: r2, step.2.2)
  | [] => (step.1, false, [], step.2.2)

/-- Source `_T_FIELD_SEEK` (`^@(\d+)`): seek value, remaining characters
and matched length. -/
def matchSeek (s : List Char) : Option (Nat × List Char × Nat) :=
  match s with
  | c :: rest =>
    if c = '@' then
      let ds := (takeDigits rest).1
      if ds = [] then Option.none
      else some (digitsVal ds, (takeDigits rest).2, ds.length + 1)
    else Option.none
  | [] => Option.none

/-- Source `_T_FMT` (`^(?:(type)|(alias))(\d*)(?:@(\d+))?`): resolved
field type, optional repeat count (group 3), optional field seek
(group 4), remaining characters and matched length. -/
def matchFmt (s : List Char) : Option (FType × Option Nat × Option Nat × List Char × Nat) :=
  match s with
  | [] => Option.none
  | c :: rest =>
    match (match charType c with
      | some τ => some τ
      | Option.none => charAlias c) with
    | Option.none => Option.none
    | some τ =>
      let ds := (takeDigits rest).1
      let r1 := (takeDigits rest).2
      let rep : Option Nat := if ds = [] then Option.none else some (digitsVal ds)
      match matchSeek r1 with
      | some (n, r2, k) => some (τ, rep, some n, r2, 1 + ds.length + k)
      | Option.none => some (τ, rep, Option.none, r1, 1 + ds.length)

/-- Source `_match_brace` recast on the remaining characters after the
opening `[`: split off the bracket-balanced segment before the matching
`]`.  `depth` counts currently open inner brackets. -/
def splitBrace : Nat → List Char → Option (List Char × List Char)
  | _, [] => Option.none
  | depth, c :: rest =>
    if c = '[' then
      match splitBrace (depth + 1) rest with
      | some (inner, after) => some (c :: inner, after)
      | Option.none => Option.none
    else if c = ']' then
      if depth = 0 then some ([], rest)
      else
        match splitBrace (depth - 1) rest with
        | some (inner, after) => some (c :: inner, after)
        | Option.none => Option.none
    else
      match splitBrace depth rest with
      | some (inner, after) => some (c :: inner, after)
      | Option.none => Option.none

/-- Source `Wire._parse_format_string`, with the `while ptr < length`
loop written as recursion on the remaining characters: `fieldId` is the
running counter (`field_id`), `ov` the overlap-checker state, `pos` the
absolute position `ptr` (kept for the error messages).  Every iteration
and every nested descent consumes at least one character, so fuel above
the remaining length never runs out (`parseFmtLoop_fuel_irrelevant`). -/
def parseFmtLoop : Nat → Nat → Option (List Nat) → Nat → List Char →
    Except PyErr Schema
  | 0, _, _, _, _ => .error .nonTermination
  | fuel + 1, fieldId, ov, pos, s =>
    match s with
    | [] => .ok .nil
    | _ :: _ =>
      match matchPrefix s with
      | (pfx, true, s1, n1) =>
        match splitBrace 0 s1 with
        | Option.none =>
          .error (.badFormatString ("Unmatched brace on position " ++
            Nat.repr (pos + n1)))
        | some (inner, after) =>
          match parseFmtLoop fuel 1 Option.none 0 inner with
          | .error e => .error e
          | .ok sub =>
            let fieldId2 := match matchSeek after with
              | some (n, _, _) => n
              | Option.none => fieldId
            let after2 := match matchSeek after with
              | some (_, r2, _) => r2
              | Option.none => after
            let seekLen := match matchSeek after with
              | some (_, _, k) => k
              | Option.none => 0
            match addField ov fieldId2 1 with
            | .error e => .error e
            | .ok ov2 =>
              match parseFmtLoop fuel (fieldId2 + 1) ov2
                  (pos + n1 + inner.length + 1 + seekLen) after2 with
              | .error e => .error e
              | .ok tail => .ok (.cons (.mk fieldId2 .a pfx 1 (.some sub)) tail)
      | (pfx, false, s1, n1) =>
        match matchFmt s1 with
        | Option.none =>
          .error (.badFormatString ("Invalid token on position " ++
            Nat.repr (pos + n1)))
        | some (τ, rep?, seek?, s2, n2) =>
          let fieldId2 := match seek? with
            | some n => n
            | Option.none => fieldId
          let rep := match rep? with
            | some r => r
            | Option.none => 1
          match addField ov fieldId2 rep with
          | .error e => .error e
          | .ok ov2 =>
            match parseFmtLoop fuel (fieldId2 + rep) ov2 (pos + n1 + n2) s2 with
            | .error e => .error e
            | .ok tail => .ok (.cons (.mk fieldId2 τ pfx rep .none) tail)

/-- One pass of the parse loop at canonical fuel. -/
def parseLoop (fieldId : Nat) (ov : Option (List Nat)) (pos : Nat)
    (s : List Char) : Except PyErr Schema :=
  parseFmtLoop (s.length + 1) fieldId ov pos s

/-- Source `Wire._parse_format_string` as called on a whole format
string: counter starts at 1, fresh overlap state, position 0. -/
def parseFormatString (s : List Char) : Except PyErr Schema :=
  parseLoop 1 Option.none 0 s

theorem matchPrefix_decomp (s : List Char) (p : FPrefix) (br : Bool)
    (s1 : List Char) (n1 : Nat) (h : matchPrefix s = (p, br, s1, n1)) :
    s1.length + n1 = s.length ∧ (br = true → 1 ≤ n1) := by
  unfold matchPrefix at h
  cases s with
  | nil =>
    dsimp only at h
    cases h
    simp
  | cons c r =>
    dsimp only at h
    split_ifs at h <;> dsimp only at h <;>
      (try split at h) <;> (try split_ifs at h) <;>
      (cases h; constructor) <;> simp_all <;> omega

theorem takeDigits_decomp (s : List Char) :
    ∀ ds r, takeDigits s = (ds, r) → ds ++ r = s := by
  induction s with
  | nil => intro ds r h; cases h; rfl
  | cons c rest ih =>
    intro ds r h
    unfold takeDigits at h
    split_ifs at h
    · cases hd : takeDigits rest with
      | mk ds2 r2 =>
        rw [hd] at h
        cases h
        simp [ih _ _ hd]
    · cases h
      rfl

theorem matchSeek_decomp (s : List Char) (v : Nat) (r : List Char) (k : Nat)
    (h : matchSeek s = some (v, r, k)) : r.length + k = s.length ∧ 1 ≤ k := by
  cases s with
  | nil => cases h
  | cons c rest =>
    unfold matchSeek at h
    dsimp only at h
    split_ifs at h
    cases hd : takeDigits rest with
    | mk ds r2 =>
      rw [hd] at h
      dsimp only at h
      have hdr := takeDigits_decomp rest ds r2 hd
      have hlen : ds.length + r2.length = rest.length := by
        rw [← hdr]; simp
      simp only [Option.some.injEq, Prod.mk.injEq] at h
      obtain ⟨hv, hr, hk⟩ := h
      subst hr
      subst hk
      constructor
      · simp
        omega
      · omega

theorem matchFmt_decomp (s : List Char) (τ : FType) (rep? seek? : Option Nat)
    (s2 : List Char) (n2 : Nat)
    (h : matchFmt s = some (τ, rep?, seek?, s2, n2)) :
    s2.length + n2 = s.length ∧ 1 ≤ n2 := by
  cases s with
  | nil => cases h
  | cons c rest =>
    unfold matchFmt at h
    dsimp only at h
    cases hct : (match charType c with
      | some τ2 => some τ2
      | Option.none => charAlias c) with
    | none => rw [hct] at h; cases h
    | some τ2 =>
      rw [hct] at h
      dsimp only at h
      cases hd : takeDigits rest with
      | mk ds r1 =>
        rw [hd] at h
        dsimp only at h
        have hdr := takeDigits_decomp rest ds r1 hd
        have hlen : ds.length + r1.length = rest.length := by
          rw [← hdr]; simp
        cases hsk : matchSeek r1 with
        | none =>
          rw [hsk] at h
          dsimp only at h
          cases h
          constructor
          · simp
            omega
          · omega
        | some p =>
          obtain ⟨v, r2, k⟩ := p
          rw [hsk] at h
          dsimp only at h
          cases h
          have := matchSeek_decomp r1 v _ _ hsk
          constructor
          · simp
            omega
          · omega

theorem splitBrace_decomp (s : List Char) :
    ∀ (d : Nat) (inner after : List Char), splitBrace d s = some (inner, after) →
      s = inner ++ ']' :: after := by
  induction s with
  | nil => intro d inner after h; cases h
  | cons c rest ih =>
    intro d inner after h
    unfold splitBrace at h
    split_ifs at h with h1 h2 h3
    · cases hs : splitBrace (d + 1) rest with
      | none => rw [hs] at h; cases h
      | some p =>
        obtain ⟨i2, a2⟩ := p
        rw [hs] at h
        cases h
        simp [h1, ih _ _ _ hs]
    · cases h
      simp [h2]
    · cases hs : splitBrace (d - 1) rest with
      | none => rw [hs] at h; cases h
      | some p =>
        obtain ⟨i2, a2⟩ := p
        rw [hs] at h
        cases h
        simp [h2, ih _ _ _ hs]
    · cases hs : splitBrace d rest with
      | none => rw [hs] at h; cases h
      | some p =>
        obtain ⟨i2, a2⟩ := p
        rw [hs] at h
        cases h
        simp [ih _ _ _ hs]

theorem parseFmtLoop_fuel_irrelevant :
    ∀ (n : Nat) (s : List Char) (fieldId : Nat) (ov : Option (List Nat))
      (pos : Nat) (f g : Nat), s.length ≤ n → s.length < f → s.length < g →
      parseFmtLoop f fieldId ov pos s = parseFmtLoop g fieldId ov pos s := by
  intro n
  induction n with
  | zero =>
    intro s fieldId ov pos f g hn hf hg
    have hs : s = [] := List.length_eq_zero.mp (by omega)
    subst hs
    obtain ⟨f1, rfl⟩ : ∃ k, f = k + 1 := ⟨f - 1, by omega⟩
    obtain ⟨g1, rfl⟩ : ∃ k, g = k + 1 := ⟨g - 1, by omega⟩
    rfl
  | succ n ih =>
    intro s fieldId ov pos f g hn hf hg
    obtain ⟨f1, rfl⟩ : ∃ k, f = k + 1 := ⟨f - 1, by omega⟩
    obtain ⟨g1, rfl⟩ : ∃ k, g = k + 1 := ⟨g - 1, by omega⟩
    cases s with
    | nil => rfl
    | cons c srest =>
      simp only [parseFmtLoop]
      cases hmp : matchPrefix (c :: srest) with
      | mk pfx rest3 =>
        obtain ⟨br, s1, n1⟩ := rest3
        have hdp := matchPrefix_decomp (c :: srest) pfx br s1 n1 hmp
        cases br with
        | true =>
          dsimp only
          cases hsb : splitBrace 0 s1 with
          | none => rfl
          | some p =>
            obtain ⟨inner, after⟩ := p
            have hsd := splitBrace_decomp s1 0 inner after hsb
            have hin : inner.length + after.length + 1 = s1.length := by
              rw [hsd]; simp
              omega
            have hslen : s1.length + n1 = (c :: srest).length := hdp.1
            have hn1 : 1 ≤ n1 := hdp.2 rfl
            dsimp only
            rw [ih inner 1 Option.none 0 f1 g1 (by simp at hslen ⊢; omega)
              (by simp at hslen ⊢; omega) (by simp at hslen ⊢; omega)]
            cases hsub : parseFmtLoop g1 1 Option.none 0 inner with
            | error e => rfl
            | ok sub =>
              dsimp only
              cases hsk : matchSeek after with
              | none =>
                dsimp only
                cases haf : addField ov fieldId 1 with
                | error e => rfl
                | ok ov2 =>
                  dsimp only
                  rw [ih after (fieldId + 1) ov2 _ f1 g1
                    (by simp at hslen ⊢; omega) (by simp at hslen ⊢; omega)
                    (by simp at hslen ⊢; omega)]
              | some p2 =>
                obtain ⟨v, r2, k⟩ := p2
                have hskd := matchSeek_decomp after v r2 k hsk
                dsimp only
                cases haf : addField ov v 1 with
                | error e => rfl
                | ok ov2 =>
                  dsimp only
                  rw [ih r2 (v + 1) ov2 _ f1 g1
                    (by simp at hslen ⊢; omega) (by simp at hslen ⊢; omega)
                    (by simp at hslen ⊢; omega)]
        | false =>
          dsimp only
          cases hmf : matchFmt s1 with
          | none => rfl
          | some p =>
            obtain ⟨τ, rep?, seek?, s2, n2⟩ := p
            have hmfd := matchFmt_decomp s1 τ rep? seek? s2 n2 hmf
            have hslen : s1.length + n1 = (c :: srest).length := hdp.1
            dsimp only
            cases seek? with
            | some nsk =>
              dsimp only
              cases rep? with
              | some rp =>
                dsimp only
                cases haf : addField ov nsk rp with
                | error e => rfl
                | ok ov2 =>
                  dsimp only
                  rw [ih s2 _ ov2 _ f1 g1
                    (by simp at hslen ⊢; omega) (by simp at hslen ⊢; omega)
                    (by simp at hslen ⊢; omega)]
              | none =>
                dsimp only
                cases haf : addField ov nsk 1 with
                | error e => rfl
                | ok ov2 =>
                  dsimp only
                  rw [ih s2 _ ov2 _ f1 g1
                    (by simp at hslen ⊢; omega) (by simp at hslen ⊢; omega)
                    (by simp at hslen ⊢; omega)]
            | none =>
              dsimp only
              cases rep? with
              | some rp =>
                dsimp only
                cases haf : addField ov fieldId rp with
                | error e => rfl
                | ok ov2 =>
                  dsimp only
                  rw [ih s2 _ ov2 _ f1 g1
                    (by simp at hslen ⊢; omega) (by simp at hslen ⊢; omega)
                    (by simp at hslen ⊢; omega)]
              | none =>
                dsimp only
                cases haf : addField ov fieldId 1 with
                | error e => rfl
                | ok ov2 =>
                  dsimp only
                  rw [ih s2 _ ov2 _ f1 g1
                    (by simp at hslen ⊢; omega) (by simp at hslen ⊢; omega)
                    (by simp at hslen ⊢; omega)]

theorem parseFmtLoop_eq (f fieldId : Nat) (ov : Option (List Nat)) (pos : Nat)
    (s : List Char) (hf : s.length < f) :
    parseFmtLoop f fieldId ov pos s = parseLoop fieldId ov pos s :=
  parseFmtLoop_fuel_irrelevant s.length s fieldId ov pos f (s.length + 1)
    le_rfl hf (by omega)

theorem takeDigits_all (ds rest : List Char)
    (hds : ∀ c ∈ ds, c.isDigit = true)
    (hrest : ∀ c ∈ rest.head?, c.isDigit = false) :
    takeDigits (ds ++ rest) = (ds, rest) := by
  induction ds with
  | nil =>
    cases rest with
    | nil => rfl
    | cons c r =>
      rw [List.nil_append]
      unfold takeDigits
      rw [if_neg (by simp [hrest c (by simp)])]
  | cons d ds ih =>
    rw [List.cons_append]
    unfold takeDigits
    rw [if_pos (hds d (by simp))]
    rw [ih (fun c hc => hds c (by simp [hc]))]

theorem matchSeek_digits (ds rest : List Char) (hne : ds ≠ [])
    (hds : ∀ c ∈ ds, c.isDigit = true)
    (hrest : ∀ c ∈ rest.head?, c.isDigit = false) :
    matchSeek ('@' :: (ds ++ rest)) = some (digitsVal ds, rest, ds.length + 1) := by
  unfold matchSeek
  dsimp only
  rw [if_pos rfl]
  rw [takeDigits_all ds rest hds hrest]
  dsimp only
  rw [if_neg hne]

theorem matchFmt_t_seek (ds rest : List Char) (hne : ds ≠ [])
    (hds : ∀ c ∈ ds, c.isDigit = true)
    (hrest : ∀ c ∈ rest.head?, c.isDigit = false) :
    matchFmt ('t' :: '@' :: (ds ++ rest)) =
      some (.t, Option.none, some (digitsVal ds), rest, 2 + ds.length) := by
  unfold matchFmt
  dsimp only
  rw [show takeDigits ('@' :: (ds ++ rest)) = ([], '@' :: (ds ++ rest)) from rfl]
  dsimp only
  rw [matchSeek_digits ds rest hne hds hrest]
  dsimp only
  first
  | (simp only [charType, Option.some.injEq, Prod.mk.injEq, List.length_nil]
     refine ⟨rfl, rfl, rfl, rfl, by omega⟩)
  | (simp [charType]
     omega)
  | simp [charType]

/-- C4 (amended): `@N` inside a scalar token assigns field number N to
that token's field and the running counter continues at N+1; after a
nested `[...]` the seek `@N` assigns N to the nested field itself (not to
the field after it), and the running counter continues at N+1. -/
theorem c4_field_seek :
    (∀ (ds rest : List Char) (N fieldId pos : Nat) (ov : Option (List Nat)),
      ds ≠ [] → (∀ c ∈ ds, c.isDigit = true) →
      (∀ c ∈ rest.head?, c.isDigit = false) →
      digitsVal ds = N →
      parseLoop fieldId ov pos ('t' :: '@' :: (ds ++ rest)) =
        match addField ov N 1 with
        | .error e => .error e
        | .ok ov2 =>
          match parseLoop (N + 1) ov2 (pos + (2 + ds.length)) rest with
          | .error e => .error e
          | .ok tail => .ok (.cons (.mk N .t .pnone 1 .none) tail)) ∧
    (∀ (inner ds rest : List Char) (N fieldId pos : Nat) (ov : Option (List Nat)),
      ds ≠ [] → (∀ c ∈ ds, c.isDigit = true) →
      (∀ c ∈ rest.head?, c.isDigit = false) →
      digitsVal ds = N →
      splitBrace 0 (inner ++ (']' :: '@' :: (ds ++ rest))) =
        some (inner, '@' :: (ds ++ rest)) →
      parseLoop fieldId ov pos ('[' :: (inner ++ (']' :: '@' :: (ds ++ rest)))) =
        match parseFormatString inner with
        | .error e => .error e
        | .ok sub =>
          match addField ov N 1 with
          | .error e => .error e
          | .ok ov2 =>
            match parseLoop (N + 1) ov2 (pos + inner.length + 3 + ds.length) rest with
            | .error e => .error e
            | .ok tail => .ok (.cons (.mk N .a .pnone 1 (.some sub)) tail)) := by
  constructor
  · intro ds rest N fieldId pos ov hne hds hrest hN
    show parseFmtLoop _ _ _ _ _ = _
    rw [parseFmtLoop]
    dsimp only
    rw [show matchPrefix ('t' :: '@' :: (ds ++ rest)) =
      (.pnone, false, 't' :: '@' :: (ds ++ rest), 0) from rfl]
    dsimp only
    rw [matchFmt_t_seek ds rest hne hds hrest, hN]
    dsimp only
    cases haf : addField ov N 1 with
    | error e => rfl
    | ok ov2 =>
      dsimp only
      rw [show pos + 0 + (2 + ds.length) = pos + (2 + ds.length) by omega]
      rw [parseFmtLoop_eq (('t' :: '@' :: (ds ++ rest)).length) (N + 1) ov2
        (pos + (2 + ds.length)) rest
        (by simp only [List.length_cons, List.length_append]; omega)]
  · intro inner ds rest N fieldId pos ov hne hds hrest hN hsplit
    show parseFmtLoop _ _ _ _ _ = _
    rw [parseFmtLoop]
    dsimp only
    rw [show matchPrefix ('[' :: (inner ++ (']' :: '@' :: (ds ++ rest)))) =
      (.pnone, true, inner ++ (']' :: '@' :: (ds ++ rest)), 1) from rfl]
    dsimp only
    rw [hsplit]
    dsimp only
    rw [parseFmtLoop_eq (('[' :: (inner ++ (']' :: '@' :: (ds ++ rest)))).length)
      1 Option.none 0 inner
      (by simp only [List.length_cons, List.length_append]; omega)]
    rw [show parseLoop 1 Option.none 0 inner = parseFormatString inner from rfl]
    cases hsub : parseFormatString inner with
    | error e => rfl
    | ok sub =>
      dsimp only
      rw [matchSeek_digits ds rest hne hds hrest, hN]
      dsimp only
      cases haf : addField ov N 1 with
      | error e => rfl
      | ok ov2 =>
        dsimp only
        rw [show pos + 1 + inner.length + 1 + (ds.length + 1) =
          pos + inner.length + 3 + ds.length by omega]
        rw [parseFmtLoop_eq (('[' :: (inner ++ (']' :: '@' :: (ds ++ rest)))).length)
          (N + 1) ov2 (pos + inner.length + 3 + ds.length) rest
          (by simp only [List.length_cons, List.length_append]; omega)]

theorem c4_field_seek_witness :
    ((['5'] : List Char) ≠ [] ∧ (∀ c ∈ (['5'] : List Char), c.isDigit = true) ∧
      (∀ c ∈ (['t'] : List Char).head?, c.isDigit = false) ∧ digitsVal ['5'] = 5 ∧
      parseLoop 1 Option.none 0 ['t', '@', '5', 't'] =
        match addField Option.none 5 1 with
        | .error e => .error e
        | .ok ov2 =>
          match parseLoop 6 ov2 3 ['t'] with
          | .error e => .error e
          | .ok tail => .ok (.cons (.mk 5 .t .pnone 1 .none) tail)) ∧
    (splitBrace 0 (['t'] ++ (']' :: '@' :: (['5'] ++ ['t']))) =
        some (['t'], '@' :: (['5'] ++ ['t'])) ∧
      parseLoop 1 Option.none 0 ('[' :: (['t'] ++ (']' :: '@' :: (['5'] ++ ['t'])))) =
        match parseFormatString ['t'] with
        | .error e => .error e
        | .ok sub =>
          match addField Option.none 5 1 with
          | .error e => .error e
          | .ok ov2 =>
            match parseLoop 6 ov2 5 ['t'] with
            | .error e => .error e
            | .ok tail => .ok (.cons (.mk 5 .a .pnone 1 (.some sub)) tail)) :=
  ⟨⟨by simp, by decide, by decide, by decide,
    c4_field_seek.1 ['5'] ['t'] 5 1 0 Option.none (by simp) (by decide)
      (by decide) (by decide)⟩,
   ⟨by decide,
    c4_field_seek.2 ['t'] ['5'] ['t'] 5 1 0 Option.none (by simp) (by decide)
      (by decide) (by decide) (by decide)⟩⟩

/-- C4 counterexample to the claim's nested-seek sentence: in `[t]@5t`
the seek applies to the nested field itself (field 5, next field 6),
not - as claimed - to the field after the nested group (which would give
the nested field the running counter 1 and the following `t` field 5). -/
theorem c4_counterexample :
    parseFormatString ['[', 't', ']', '@', '5', 't'] =
      .ok (.cons (.mk 5 .a .pnone 1 (.some (.cons (.mk 1 .t .pnone 1 .none) .nil)))
        (.cons (.mk 6 .t .pnone 1 .none) .nil)) ∧
    Schema.cons (.mk 5 .a .pnone 1 (.some (.cons (.mk 1 .t .pnone 1 .none) .nil)))
        (.cons (.mk 6 .t .pnone 1 .none) .nil) ≠
      Schema.cons (.mk 1 .a .pnone 1 (.some (.cons (.mk 1 .t .pnone 1 .none) .nil)))
        (.cons (.mk 5 .t .pnone 1 .none) .nil) := by
  constructor
  · rfl
  · intro h
    injection h with h1 h2
    injection h1 with ha hb hc hd he
    exact absurd ha (by omega)



/- ------------------------------------------------------------------ -/
/- C3: semantics of the interval list kept by `_OverlapCheck`.         -/
/- ------------------------------------------------------------------ -/

/-- The set of field numbers recorded by the endpoint list
`[s1, e1, s2, e2, ...]`: member of one of the half-open intervals
`[s_j, e_j)`. -/
def covers : List Nat → Nat → Prop
  | s :: e :: rest, x => (s ≤ x ∧ x < e) ∨ covers rest x
  | _, _ => False

/-- The invariant `_check_overlap` maintains: the endpoint list is a
strictly increasing sequence of interval endpoints taken in pairs. -/
def wfPairs : List Nat → Prop
  | [] => True
  | [_] => False
  | s :: e :: rest =>
    s < e ∧ (match rest with
      | [] => True
      | s2 :: _ => e < s2) ∧ wfPairs rest

theorem pairInduction (P : List Nat → Prop) (h0 : P []) (h1 : ∀ a, P [a])
    (h2 : ∀ s e rest, P rest → P (s :: e :: rest)) : ∀ l, P l
  | [] => h0
  | [a] => h1 a
  | s :: e :: rest => h2 s e rest (pairInduction P h0 h1 h2 rest)

theorem wfPairs_mem_le_getLastD :
    ∀ (l : List Nat), wfPairs l → ∀ x ∈ l, x ≤ l.getLastD 0 := by
  intro l
  induction l using pairInduction with
  | h0 => intro _ x hx; simp at hx
  | h1 a => intro hwf; exact absurd hwf (by simp [wfPairs])
  | h2 s e rest ih =>
    intro hwf x hx
    obtain ⟨hse, hgap, hrest⟩ := hwf
    cases rest with
    | nil =>
      simp at hx ⊢
      rcases hx with h | h <;> omega
    | cons s2 rest2 =>
      have hlast : (s :: e :: s2 :: rest2).getLastD 0 = (s2 :: rest2).getLastD 0 := by
        simp [List.getLastD_cons]
      rw [hlast]
      have hs2 : s2 ≤ (s2 :: rest2).getLastD 0 := by
        cases rest2 with
        | nil => simp
        | cons a r => exact ih hrest s2 (by simp)
      simp only [List.mem_cons] at hx
      rcases hx with rfl | rfl | hx
      · omega
      · omega
      · exact ih hrest x (by simpa using hx)

theorem wfPairs_headD_le_mem :
    ∀ (l : List Nat), wfPairs l → ∀ x ∈ l, l.headD 0 ≤ x := by
  intro l
  induction l using pairInduction with
  | h0 => intro _ x hx; simp at hx
  | h1 a => intro hwf; exact absurd hwf (by simp [wfPairs])
  | h2 s e rest ih =>
    intro hwf x hx
    obtain ⟨hse, hgap, hrest⟩ := hwf
    simp only [List.mem_cons] at hx
    rcases hx with rfl | rfl | hx
    · simp
    · simp; omega
    · cases rest with
      | nil => simp at hx
      | cons s2 rest2 =>
        have hs2 : (s2 :: rest2).headD 0 ≤ x := ih hrest x (by simpa using hx)
        simp only [List.headD] at hs2 ⊢
        omega

/-- Everything covered sits strictly between the recorded endpoints. -/
theorem covers_bounds :
    ∀ (l : List Nat), wfPairs l → ∀ x, covers l x →
      l.headD 0 ≤ x ∧ x < l.getLastD 0 := by
  intro l
  induction l using pairInduction with
  | h0 => intro _ x hx; simp [covers] at hx
  | h1 a => intro _ x hx; simp [covers] at hx
  | h2 s e rest ih =>
    intro hwf x hx
    obtain ⟨hse, hgap, hrest⟩ := hwf
    cases rest with
    | nil =>
      simp [covers] at hx
      simp
      omega
    | cons s2 rest2 =>
      have hlast : (s :: e :: s2 :: rest2).getLastD 0 = (s2 :: rest2).getLastD 0 := by
        simp [List.getLastD_cons]
      rw [hlast]
      simp only [covers] at hx
      have hhead : (s :: e :: s2 :: rest2).headD 0 = s := rfl
      rw [hhead]
      rcases hx with hx | hx
      · have he : e ≤ (s :: e :: s2 :: rest2).getLastD 0 := by
          apply wfPairs_mem_le_getLastD _ (by exact ⟨hse, hgap, hrest⟩)
          simp
        rw [hlast] at he
        exact ⟨by omega, by omega⟩
      · have hb := ih hrest x hx
        have hhd : (s2 :: rest2).headD 0 = s2 := rfl
        rw [hhd] at hb
        exact ⟨by omega, hb.2⟩

/-- All elements of a well-formed nonempty state exceed anything below
its head. -/
theorem bisectRight_eq_zero (l : List Nat) (start : Nat) (hwf : wfPairs l)
    (hlt : start < l.headD 0) : bisectRight l start = 0 := by
  unfold bisectRight
  rw [List.countP_eq_zero]
  intro a ha
  have := wfPairs_headD_le_mem l hwf a ha
  simp
  omega

/-- `_check_overlap` commutes with stripping the first interval when the
new range starts strictly beyond its end. -/
theorem checkOverlap_cons (s e : Nat) (rest : List Nat) (start span : Nat)
    (hwf : wfPairs (s :: e :: rest)) (hne : rest ≠ []) (hgt : e < start)
    (hspan : 0 < span) :
    checkOverlap (some (s :: e :: rest)) start span =
      Option.map (fun r => s :: e :: r) (checkOverlap (some rest) start span) := by
  obtain ⟨hse, hgap, hrest⟩ := hwf
  obtain ⟨s2, rest2, rfl⟩ : ∃ s2 r2, rest = s2 :: r2 := by
    cases rest with
    | nil => exact absurd rfl hne
    | cons a b => exact ⟨a, b, rfl⟩
  obtain ⟨e2, rest3, rfl⟩ : ∃ e2 r3, rest2 = e2 :: r3 := by
    cases rest2 with
    | nil => exact absurd hrest (by simp [wfPairs])
    | cons a b => exact ⟨a, b, rfl⟩
  obtain ⟨hs2e2, hgap2, hrest2⟩ := hrest
  have hwfrest : wfPairs (s2 :: e2 :: rest3) := ⟨hs2e2, hgap2, hrest2⟩
  have hrest3_lb : ∀ a ∈ rest3, s2 ≤ a := by
    intro a ha
    have := wfPairs_headD_le_mem (s2 :: e2 :: rest3) hwfrest a (by simp [ha])
    simpa using this
  unfold checkOverlap
  dsimp only
  have hlast : (s :: e :: s2 :: e2 :: rest3).getLastD 0 =
      (s2 :: e2 :: rest3).getLastD 0 := by
    simp [List.getLastD_cons]
  rw [hlast]
  by_cases h1 : start = (s2 :: e2 :: rest3).getLastD 0
  · rw [if_pos h1, if_pos h1]
    simp [List.dropLast]
  · rw [if_neg h1, if_neg h1]
    by_cases h2 : start > (s2 :: e2 :: rest3).getLastD 0
    · rw [if_pos h2, if_pos h2]
      simp
    · rw [if_neg h2, if_neg h2]
      have hhdL : (s :: e :: s2 :: e2 :: rest3).headD 0 = s := rfl
      have hhdR : (s2 :: e2 :: rest3).headD 0 = s2 := rfl
      rw [hhdL, hhdR]
      rw [if_neg (by omega : ¬start + span = s), if_neg (by omega : ¬start + span < s)]
      have hcount : bisectRight (s :: e :: s2 :: e2 :: rest3) start =
          bisectRight (s2 :: e2 :: rest3) start + 2 := by
        unfold bisectRight
        simp only [List.countP_cons]
        have hs' : decide (s ≤ start) = true := by simp; omega
        have he' : decide (e ≤ start) = true := by simp; omega
        simp [hs', he']
      have hgE : (s :: e :: s2 :: e2 :: rest3).getD (0 + 2) 0 = s2 := rfl
      have hgS : (s :: e :: s2 :: e2 :: rest3).getD (0 + 2 - 1) 0 = e := rfl
      by_cases h3 : start + span = s2
      · rw [if_pos h3]
        have hk : bisectRight (s2 :: e2 :: rest3) start = 0 :=
          bisectRight_eq_zero _ start hwfrest (by rw [hhdR]; omega)
        rw [hcount, hk]
        rw [if_neg (by norm_num)]
        try dsimp only
        rw [hgE, hgS]
        rw [if_neg (by omega : ¬start + span > s2)]
        rw [if_neg (by omega : ¬(e ≠ start ∧ s2 ≠ start + span))]
        rw [if_neg (by omega : ¬s2 ≠ start + span)]
        rw [if_pos (by omega : e ≠ start)]
        rfl
      · rw [if_neg h3]
        by_cases h4 : start + span < s2
        · rw [if_pos h4]
          have hk : bisectRight (s2 :: e2 :: rest3) start = 0 :=
            bisectRight_eq_zero _ start hwfrest (by rw [hhdR]; omega)
          rw [hcount, hk]
          rw [if_neg (by norm_num)]
          try dsimp only
          rw [hgE, hgS]
          rw [if_neg (by omega : ¬start + span > s2)]
          rw [if_pos (by constructor <;> omega : e ≠ start ∧ s2 ≠ start + span)]
          rfl
        · rw [if_neg h4]
          rw [hcount]
          by_cases hpar : (bisectRight (s2 :: e2 :: rest3) start + 2) % 2 ≠ 0
          · rw [if_pos hpar, if_pos (by omega : bisectRight (s2 :: e2 :: rest3) start % 2 ≠ 0)]
            rfl
          · rw [if_neg hpar, if_neg (by omega : ¬bisectRight (s2 :: e2 :: rest3) start % 2 ≠ 0)]
            try dsimp only
            rcases Nat.eq_zero_or_pos (bisectRight (s2 :: e2 :: rest3) start) with hk | hk
            · rw [hk]
              rw [hgE]
              rw [if_pos (by omega : start + span > s2)]
              rw [show (s2 :: e2 :: rest3).getD 0 0 = s2 from rfl]
              rw [if_pos (by omega : start + span > s2)]
              rfl
            · obtain ⟨k1, hk1⟩ : ∃ k1, bisectRight (s2 :: e2 :: rest3) start = k1 + 1 :=
                ⟨bisectRight (s2 :: e2 :: rest3) start - 1, by omega⟩
              rw [hk1]
              have hgdS : (s :: e :: s2 :: e2 :: rest3).getD (k1 + 1 + 2 - 1) 0 =
                  (s2 :: e2 :: rest3).getD (k1 + 1 - 1) 0 := by
                rw [show k1 + 1 + 2 - 1 = (k1 + 1 - 1) + 2 by omega]
                simp [List.getD_cons_succ]
              have hgdE : (s :: e :: s2 :: e2 :: rest3).getD (k1 + 1 + 2) 0 =
                  (s2 :: e2 :: rest3).getD (k1 + 1) 0 := by
                rw [show k1 + 1 + 2 = (k1 + 1) + 2 by omega]
                simp [List.getD_cons_succ]
              rw [hgdS, hgdE]
              by_cases h5 : start + span > (s2 :: e2 :: rest3).getD (k1 + 1) 0
              · rw [if_pos h5, if_pos h5]
                rfl
              · rw [if_neg h5, if_neg h5]
                by_cases h6 : (s2 :: e2 :: rest3).getD (k1 + 1 - 1) 0 ≠ start ∧
                    (s2 :: e2 :: rest3).getD (k1 + 1) 0 ≠ start + span
                · rw [if_pos h6, if_pos h6]
                  rw [show k1 + 1 + 2 = (k1 + 1) + 2 by omega]
                  simp [List.take_succ_cons, List.drop_succ_cons]
                · rw [if_neg h6, if_neg h6]
                  by_cases h7 : (s2 :: e2 :: rest3).getD (k1 + 1) 0 ≠ start + span
                  · rw [if_pos h7, if_pos h7]
                    rw [show k1 + 1 + 2 - 1 = (k1 + 1 - 1) + 2 by omega]
                    simp [List.set_cons_succ]
                  · rw [if_neg h7, if_neg h7]
                    by_cases h8 : (s2 :: e2 :: rest3).getD (k1 + 1 - 1) 0 ≠ start
                    · rw [if_pos h8, if_pos h8]
                      rw [show k1 + 1 + 2 = (k1 + 1) + 2 by omega]
                      simp [List.set_cons_succ]
                    · rw [if_neg h8, if_neg h8]
                      rw [show k1 + 1 + 2 - 1 = (k1 + 1 - 1) + 2 by omega,
                        show k1 + 1 + 2 + 1 = (k1 + 1 + 1) + 2 by omega]
                      simp [List.take_succ_cons, List.drop_succ_cons]

/-- What acceptance of an insertion means: the new state is nonempty and
well-formed, its minimum is the smaller of the old minimum and the new
start, it covers exactly the union, and the inserted range was disjoint
from everything recorded. -/
def specOk (l l2 : List Nat) (start span : Nat) : Prop :=
  l2 ≠ [] ∧ wfPairs l2 ∧ l2.headD 0 = min start (l.headD 0) ∧
  (∀ x, covers l2 x ↔ (covers l x ∨ (start ≤ x ∧ x < start + span))) ∧
  (∀ x, covers l x → ¬(start ≤ x ∧ x < start + span))

/-- Full characterisation of `_check_overlap` on a well-formed state:
rejection happens exactly when the new range meets a recorded interval,
and acceptance records exactly the union. -/
theorem checkOverlap_spec :
    ∀ (l : List Nat), wfPairs l → l ≠ [] →
    ∀ (start span : Nat), 0 < span →
    (match checkOverlap (some l) start span with
     | Option.none => ∃ x, covers l x ∧ start ≤ x ∧ x < start + span
     | Option.some l2 => specOk l l2 start span) := by
  intro l
  induction l using pairInduction with
  | h0 => intro _ hne; exact absurd rfl hne
  | h1 a => intro hwf _; exact absurd hwf (by simp [wfPairs])
  | h2 s e rest ih =>
    intro hwf hne start span hspan
    obtain ⟨hse, hgap, hrest⟩ := hwf
    by_cases hA : e < start ∧ rest ≠ []
    · -- strictly beyond the first interval: commute and use the IH
      obtain ⟨hgt, hne2⟩ := hA
      obtain ⟨s2, rest2, rfl⟩ : ∃ s2 r2, rest = s2 :: r2 := by
        cases rest with
        | nil => exact absurd rfl hne2
        | cons a b => exact ⟨a, b, rfl⟩
      rw [checkOverlap_cons s e (s2 :: rest2) start span ⟨hse, hgap, hrest⟩
        (by simp) hgt hspan]
      have hIH := ih hrest (by simp) start span hspan
      cases hco : checkOverlap (some (s2 :: rest2)) start span with
      | none =>
        rw [hco] at hIH
        dsimp only at hIH ⊢
        obtain ⟨x, hx, hrange⟩ := hIH
        exact ⟨x, Or.inr hx, hrange⟩
      | some r2 =>
        rw [hco] at hIH
        dsimp only at hIH ⊢
        obtain ⟨hne3, hwf2, hhead2, hiff, hdisj⟩ := hIH
        have hhds2 : (s2 :: rest2).headD 0 = s2 := rfl
        rw [hhds2] at hhead2
        refine ⟨by simp, ?_, ?_, ?_, ?_⟩
        · -- wfPairs (s :: e :: r2)
          refine ⟨hse, ?_, hwf2⟩
          cases r2 with
          | nil => exact absurd rfl hne3
          | cons s3 r3 =>
            have : (s3 :: r3).headD 0 = s3 := rfl
            rw [this] at hhead2
            simp only []
            omega
        · have : (s :: e :: r2).headD 0 = s := rfl
          rw [this, show (s :: e :: s2 :: rest2).headD 0 = s from rfl]
          have hs2' : e < s2 := hgap
          omega
        · intro x
          simp only [covers]
          rw [hiff x]
          try simp only [covers]
          constructor
          · rintro (h | h | h)
            · exact Or.inl (Or.inl h)
            · exact Or.inl (Or.inr h)
            · exact Or.inr h
          · rintro ((h | h) | h)
            · exact Or.inl h
            · exact Or.inr (Or.inl h)
            · exact Or.inr (Or.inr h)
        · intro x hx
          simp only [covers] at hx
          rcases hx with hx | hx
          · intro hr
            omega
          · exact hdisj x hx
    · -- the new range is not strictly beyond the first interval
      cases rest with
      | nil =>
        -- single-interval state [s, e]
        unfold checkOverlap
        dsimp only
        rw [show ([s, e] : List Nat).getLastD 0 = e from rfl,
          show ([s, e] : List Nat).headD 0 = s from rfl]
        by_cases hb1 : start = e
        · rw [if_pos hb1]
          rw [show ([s, e] : List Nat).dropLast ++ [start + span] = [s, start + span]
            from rfl]
          dsimp only
          have hwf2 : wfPairs [s, start + span] := by
            exact ⟨by omega, trivial, trivial⟩
          refine ⟨by simp, hwf2, by simp; omega, ?_, ?_⟩
          · intro x
            simp only [covers, or_false]
            try omega
          · intro x hx
            simp only [covers, or_false] at hx
            omega
        · rw [if_neg hb1]
          by_cases hb2 : start > e
          · rw [if_pos hb2]
            dsimp only
            have hwf2 : wfPairs [s, e, start, start + span] := by
              exact ⟨hse, by omega, by omega, trivial, trivial⟩
            refine ⟨by simp, hwf2, by simp; omega, ?_, ?_⟩
            · intro x
              simp only [covers, or_false]
              try omega
            · intro x hx
              simp only [covers, or_false] at hx
              omega
          · rw [if_neg hb2]
            by_cases hb3 : start + span = s
            · rw [if_pos hb3]
              dsimp only
              have hwf2 : wfPairs [start, e] := by
                exact ⟨by omega, trivial, trivial⟩
              refine ⟨by simp, hwf2, by simp; omega, ?_, ?_⟩
              · intro x
                simp only [covers, or_false]
                omega
              · intro x hx
                simp only [covers, or_false] at hx
                omega
            · rw [if_neg hb3]
              by_cases hb4 : start + span < s
              · rw [if_pos hb4]
                dsimp only
                have hwf2 : wfPairs [start, start + span, s, e] := by
                  exact ⟨by omega, by omega, hse, trivial, trivial⟩
                refine ⟨by simp, hwf2, by simp; omega, ?_, ?_⟩
                · intro x
                  simp only [covers, or_false]
                  try omega
                · intro x hx
                  simp only [covers, or_false] at hx
                  omega
              · rw [if_neg hb4]
                by_cases hxs : start < s
                · rw [bisectRight_eq_zero [s, e] start ⟨hse, trivial, trivial⟩
                    (by simp; omega)]
                  rw [if_neg (by norm_num)]
                  try dsimp only
                  rw [show ([s, e] : List Nat).getD 0 0 = s from rfl]
                  rw [if_pos (by omega : start + span > s)]
                  dsimp only
                  exact ⟨s, by simp [covers]; omega, by omega, by omega⟩
                · have hoff : bisectRight [s, e] start = 1 := by
                    unfold bisectRight
                    rw [List.countP_cons, List.countP_cons, List.countP_nil]
                    simp only [decide_eq_true_eq]
                    rw [if_pos (by omega : s ≤ start),
                      if_neg (by omega : ¬e ≤ start)]
                  rw [hoff]
                  rw [if_pos (by norm_num)]
                  dsimp only
                  exact ⟨start, by simp [covers]; omega, by omega, by omega⟩
      | cons s2 rest2 =>
        -- at least two intervals, and the range starts at or inside the first
        have hle : start ≤ e := by
          by_contra hlt
          exact hA ⟨by omega, by simp⟩
        obtain ⟨e2, rest3, rfl⟩ : ∃ e2 r3, rest2 = e2 :: r3 := by
          cases rest2 with
          | nil => exact absurd hrest (by simp [wfPairs])
          | cons a b => exact ⟨a, b, rfl⟩
        obtain ⟨hs2e2, hgap2, hrest2⟩ := hrest
        have hgapc : e < s2 := hgap
        have hwfrest : wfPairs (s2 :: e2 :: rest3) := ⟨hs2e2, hgap2, hrest2⟩
        have hwfl : wfPairs (s :: e :: s2 :: e2 :: rest3) :=
          ⟨hse, hgapc, hwfrest⟩
        have hlastlb : s2 ≤ (s :: e :: s2 :: e2 :: rest3).getLastD 0 :=
          wfPairs_mem_le_getLastD _ hwfl s2 (by simp)
        have hrest3lb : ∀ x, covers rest3 x → e2 < x := by
          intro x hx
          cases rest3 with
          | nil => simp [covers] at hx
          | cons s3 r4 =>
            have hwf3 : wfPairs (s3 :: r4) := hrest2
            have hb := (covers_bounds (s3 :: r4) hwf3 x hx).1
            have hs3 : (s3 :: r4).headD 0 = s3 := rfl
            rw [hs3] at hb
            have he2s3 : e2 < s3 := hgap2
            omega
        unfold checkOverlap
        dsimp only
        rw [if_neg (by omega : ¬start = (s :: e :: s2 :: e2 :: rest3).getLastD 0)]
        rw [if_neg (by omega : ¬start > (s :: e :: s2 :: e2 :: rest3).getLastD 0)]
        rw [show (s :: e :: s2 :: e2 :: rest3).headD 0 = s from rfl]
        by_cases hE1 : start + span = s
        · rw [if_pos hE1]
          dsimp only
          have hwf2 : wfPairs (start :: e :: s2 :: e2 :: rest3) :=
            ⟨by omega, hgapc, hwfrest⟩
          refine ⟨by simp, hwf2, by simp; omega, ?_, ?_⟩
          · intro x
            simp only [covers]
            by_cases hC : covers rest3 x
            · simp [hC]
            · simp [hC]
              omega
          · intro x hx
            simp only [covers] at hx
            rcases hx with hx | hx | hx
            · omega
            · omega
            · have := hrest3lb x hx
              omega
        · rw [if_neg hE1]
          by_cases hE2 : start + span < s
          · rw [if_pos hE2]
            dsimp only
            have hwf2 : wfPairs (start :: (start + span) :: s :: e :: s2 :: e2 :: rest3) :=
              ⟨by omega, by omega, hwfl⟩
            refine ⟨by simp, hwf2, by simp; omega, ?_, ?_⟩
            · intro x
              simp only [covers]
              by_cases hC : covers rest3 x
              · simp [hC]
              · simp [hC]
                omega
            · intro x hx
              simp only [covers] at hx
              rcases hx with hx | hx | hx
              · omega
              · omega
              · have := hrest3lb x hx
                omega
          · rw [if_neg hE2]
            have hcrest : List.countP (fun y => decide (y ≤ start))
                (s2 :: e2 :: rest3) = 0 := by
              rw [List.countP_eq_zero]
              intro a ha
              have hm := wfPairs_headD_le_mem (s2 :: e2 :: rest3) hwfrest a ha
              have hh : (s2 :: e2 :: rest3).headD 0 = s2 := rfl
              rw [hh] at hm
              simp
              omega
            by_cases hxs : start < s
            · rw [bisectRight_eq_zero (s :: e :: s2 :: e2 :: rest3) start hwfl
                (by simp; omega)]
              rw [if_neg (by norm_num)]
              try dsimp only
              rw [show (s :: e :: s2 :: e2 :: rest3).getD 0 0 = s from rfl]
              rw [if_pos (by omega : start + span > s)]
              dsimp only
              exact ⟨s, by simp [covers]; omega, by omega, by omega⟩
            · by_cases hse2 : start < e
              · have hoff : bisectRight (s :: e :: s2 :: e2 :: rest3) start = 1 := by
                  unfold bisectRight
                  rw [List.countP_cons, List.countP_cons, hcrest]
                  simp only [decide_eq_true_eq]
                  rw [if_pos (by omega : s ≤ start),
                    if_neg (by omega : ¬e ≤ start)]
                rw [hoff]
                rw [if_pos (by norm_num)]
                dsimp only
                exact ⟨start, by simp [covers]; omega, by omega, by omega⟩
              · have hee : start = e := by omega
                have hoff : bisectRight (s :: e :: s2 :: e2 :: rest3) start = 2 := by
                  unfold bisectRight
                  rw [List.countP_cons, List.countP_cons, hcrest]
                  simp only [decide_eq_true_eq]
                  rw [if_pos (by omega : s ≤ start),
                    if_pos (by omega : e ≤ start)]
                rw [hoff]
                rw [if_neg (by norm_num)]
                try dsimp only
                rw [show (s :: e :: s2 :: e2 :: rest3).getD 2 0 = s2 from rfl,
                  show (s :: e :: s2 :: e2 :: rest3).getD (2 - 1) 0 = e from rfl]
                by_cases hEs2 : start + span > s2
                · rw [if_pos hEs2]
                  dsimp only
                  refine ⟨s2, ?_, by omega, by omega⟩
                  simp [covers]
                  omega
                · rw [if_neg hEs2]
                  rw [if_neg (by omega : ¬(e ≠ start ∧ s2 ≠ start + span))]
                  by_cases hEe : s2 ≠ start + span
                  · rw [if_pos hEe]
                    rw [show (s :: e :: s2 :: e2 :: rest3).set (2 - 1) (start + span) =
                      s :: (start + span) :: s2 :: e2 :: rest3 from rfl]
                    dsimp only
                    have hwf2 : wfPairs (s :: (start + span) :: s2 :: e2 :: rest3) :=
                      ⟨by omega, by omega, hwfrest⟩
                    refine ⟨by simp, hwf2, by simp; omega, ?_, ?_⟩
                    · intro x
                      simp only [covers]
                      by_cases hC : covers rest3 x
                      · simp [hC]
                      · simp [hC]
                        omega
                    · intro x hx
                      simp only [covers] at hx
                      rcases hx with hx | hx | hx
                      · omega
                      · omega
                      · have := hrest3lb x hx
                        omega
                  · rw [if_neg hEe]
                    rw [if_neg (by omega : ¬e ≠ start)]
                    rw [show (s :: e :: s2 :: e2 :: rest3).take (2 - 1) ++
                      (s :: e :: s2 :: e2 :: rest3).drop (2 + 1) =
                      s :: e2 :: rest3 from rfl]
                    dsimp only
                    have hwf2 : wfPairs (s :: e2 :: rest3) := by
                      cases rest3 with
                      | nil => exact ⟨by omega, trivial, trivial⟩
                      | cons s3 r4 =>
                        have h3 : e2 < s3 := hgap2
                        exact ⟨by omega, h3, hrest2⟩
                    refine ⟨by simp, hwf2, by simp; omega, ?_, ?_⟩
                    · intro x
                      simp only [covers]
                      by_cases hC : covers rest3 x
                      · simp [hC]
                      · simp [hC]
                        omega
                    · intro x hx
                      simp only [covers] at hx
                      rcases hx with hx | hx | hx
                      · omega
                      · omega
                      · have := hrest3lb x hx
                        omega

/-- C3: overlap detection in schema compilation. On any well-formed
used-interval state, inserting a field whose half-open range
`[fieldId, fieldId + rep)` meets a recorded interval makes `add_field`
raise `BadFormatString` naming the offending field number, while a
disjoint insertion is accepted and records exactly the union of the
ranges; on a fresh (empty) state the insertion is accepted and records
exactly the new range. -/
theorem c3_overlap_detection (l : List Nat) (hwf : wfPairs l) (hne : l ≠ [])
    (fieldId rep : Nat) (hrep : 0 < rep) :
    ((∃ x, covers l x ∧ fieldId ≤ x ∧ x < fieldId + rep) →
      addField (some l) fieldId rep =
        Except.error (PyErr.badFormatString (addFieldMsg fieldId rep))) ∧
    ((∀ x, covers l x → ¬(fieldId ≤ x ∧ x < fieldId + rep)) →
      ∃ l2, addField (some l) fieldId rep = Except.ok (some l2) ∧
        specOk l l2 fieldId rep) ∧
    (∃ l0, addField Option.none fieldId rep = Except.ok (some l0) ∧
      ∀ x, covers l0 x ↔ (fieldId ≤ x ∧ x < fieldId + rep)) := by
  have hs := checkOverlap_spec l hwf hne fieldId rep hrep
  have hfresh : ∃ l0, addField Option.none fieldId rep = Except.ok (some l0) ∧
      ∀ x, covers l0 x ↔ (fieldId ≤ x ∧ x < fieldId + rep) := by
    refine ⟨[fieldId, fieldId + rep], rfl, ?_⟩
    intro x
    simp only [covers, or_false]
  cases h : checkOverlap (some l) fieldId rep with
  | none =>
    rw [h] at hs
    refine ⟨fun _ => by unfold addField; rw [h], fun hd => ?_, hfresh⟩
    obtain ⟨x, hc, h1, h2⟩ := hs
    exact absurd ⟨h1, h2⟩ (hd x hc)
  | some l2 =>
    rw [h] at hs
    refine ⟨fun hov => ?_, fun _ => ⟨l2, by unfold addField; rw [h], hs⟩, hfresh⟩
    obtain ⟨x, hc, h1, h2⟩ := hov
    exact absurd ⟨h1, h2⟩ (hs.2.2.2.2 x hc)

theorem c3_overlap_detection_witness :
    wfPairs [1, 3] ∧ ([1, 3] : List Nat) ≠ [] ∧ 0 < 1 ∧
      addField (some [1, 3]) 2 1 =
        Except.error (PyErr.badFormatString (addFieldMsg 2 1)) :=
  ⟨⟨by omega, trivial, trivial⟩, by simp, by decide,
    (c3_overlap_detection [1, 3] ⟨by omega, trivial, trivial⟩ (by simp) 2 1
        (by decide)).1
      ⟨2, Or.inl ⟨by decide, by decide⟩, by decide, by decide⟩⟩

end Minipb
